import Mathlib

/-!
Verification model of the persistring repository, a persistent (versioned)
string library with several representation strategies.

Modelling conventions, used uniformly below:
- A Rust string (both the shared byte buffer and every snapshot) is modelled
  as a list of Unicode scalar values, `List Char`.
- Rust byte indices are modelled through the UTF-8 size of each scalar value
  (`Char.utf8Size`), so byte-indexed operations of the source are reproduced
  exactly, including failure on byte ranges whose endpoints fall inside a
  multi-byte scalar value (where `str::from_utf8` fails in the source).
- Every operation that can panic in Rust returns `Option`; `none` models a
  panic (index out of bounds, `todo!()`, failed `expect`).
- `usize` arithmetic that cannot underflow or overflow in states reachable
  from `new()` is modelled with `Nat` arithmetic.
-/

/-- Total UTF-8 byte length of a list of scalar values; models `str::len`. -/
def utf8Len : List Char → Nat
  | [] => 0
  | c :: cs => c.utf8Size + utf8Len cs

/-- Take exactly `n` bytes from the front of `l`. Returns `none` when `n`
bytes are not available or when the `n`-th byte falls inside a scalar value
(a non-boundary index, on which `str::from_utf8` fails in the source). -/
def charsTake (l : List Char) (n : Nat) : Option (List Char) :=
  match l, n with
  | _, 0 => some []
  | [], _ => none
  | c :: cs, n => if c.utf8Size ≤ n then (charsTake cs (n - c.utf8Size)).map (c :: ·) else none

/-- Drop exactly `n` bytes from the front of `l`; `none` on a non-boundary
or out-of-range byte index. -/
def charsDrop (l : List Char) (n : Nat) : Option (List Char) :=
  match l, n with
  | l, 0 => some l
  | [], _ => none
  | c :: cs, n => if c.utf8Size ≤ n then charsDrop cs (n - c.utf8Size) else none

/-- The sub-string of `buf` on the half-open byte range `[b, e)`; models
`str::from_utf8(&buffer[b..e])` with panics mapped to `none`. -/
def sliceStr (buf : List Char) (b e : Nat) : Option (List Char) :=
  if b ≤ e then (charsDrop buf b).bind (fun r => charsTake r (e - b)) else none

/-- Model of `util/string_segment.rs::BytesSegment`. The source field named
`end` is renamed `stop` because `end` is a Lean keyword. -/
structure BytesSegment where
  begin : Nat
  stop : Nat
deriving DecidableEq, Repr

namespace BytesSegment

/-- `BytesSegment::EMPTY`. -/
def EMPTY : BytesSegment := ⟨0, 0⟩

/-- `BytesSegment::of_length`. -/
def of_length (from_ length : Nat) : BytesSegment := ⟨from_, from_ + length⟩

/-- `BytesSegment::non_empty_of_length`; the `debug_assert` is compiled out
in release builds, so the function is total. -/
def non_empty_of_length (from_ length : Nat) : BytesSegment := ⟨from_, from_ + length⟩

/-- `BytesSegment::len`, a byte count. -/
def len (s : BytesSegment) : Nat := s.stop - s.begin

/-- `BytesSegment::as_str`. -/
def as_str (s : BytesSegment) (buffer : List Char) : Option (List Char) :=
  sliceStr buffer s.begin s.stop

/-- `BytesSegment::split_at` at a byte index relative to the segment start;
the bounds `debug_assert` is compiled out in release builds. -/
def split_at (s : BytesSegment) (index : Nat) : BytesSegment × BytesSegment :=
  (⟨s.begin, s.begin + index⟩, ⟨s.begin + index, s.stop⟩)

end BytesSegment

/-- Model of `lib.rs::VersionSwitchError`. -/
inductive VersionSwitchError where
  | InvalidVersion (version : Nat)
deriving DecidableEq, Repr

/-- Result of `try_switch_version`, modelling `Result<(), VersionSwitchError>`. -/
inductive SwitchResult where
  | ok
  | error (e : VersionSwitchError)
deriving DecidableEq, Repr

/-! ## Rope strategy (`rope.rs`) -/

/-- `rope.rs::NodeBody`: a leaf holding a byte segment, or a parent holding
the arena addresses of its two children. -/
inductive NodeBody where
  | Leaf (segment : BytesSegment)
  | Parent (left right : Nat)
deriving DecidableEq, Repr

/-- `rope.rs::Node`: a cached byte length plus the node body. -/
structure Node where
  length : Nat
  body : NodeBody
deriving DecidableEq, Repr

/-- `Node::of_segment`. -/
def Node.of_segment (segment : BytesSegment) : Node :=
  ⟨segment.len, NodeBody.Leaf segment⟩

/-- `rope.rs::RopePersistentString`: append-only byte buffer, append-only
node arena, version list mapping handles to root node addresses, and the
current version index. -/
structure RopePersistentString where
  buffer : List Char
  nodes : List Node
  versions : List Nat
  current_version : Nat
deriving DecidableEq, Repr

namespace RopePersistentString

/-- `RopePersistentString::new`. -/
def new : RopePersistentString :=
  ⟨[], [⟨0, NodeBody.Leaf BytesSegment.EMPTY⟩], [0], 0⟩

/-- `version()`. -/
def version (s : RopePersistentString) : Nat := s.current_version

/-- `latest_version()`; `versions` is never empty in reachable states, so
the `usize` subtraction cannot underflow there. -/
def latest_version (s : RopePersistentString) : Nat := s.versions.length - 1

/-- `try_switch_version`. -/
def try_switch_version (s : RopePersistentString) (version : Nat) :
    SwitchResult × RopePersistentString :=
  if version < s.versions.length then
    (SwitchResult.ok, { s with current_version := version })
  else
    (SwitchResult.error (VersionSwitchError.InvalidVersion version), s)

/-- `switch_version`, the wrapper that panics on an invalid version. -/
def switch_version (s : RopePersistentString) (version : Nat) :
    Option RopePersistentString :=
  match try_switch_version s version with
  | (SwitchResult.ok, s) => some s
  | (SwitchResult.error _, _) => none

/-- `build_snapshot`, the in-order traversal appending every leaf slice.
The recursion of the source descends through arena addresses; it is modelled
with explicit fuel, and every use passes fuel at least `nodes.length`, which
is enough for every arena whose parents point to strictly smaller addresses. -/
def build_snapshot (buffer : List Char) (nodes : List Node) :
    Nat → NodeBody → Option (List Char)
  | 0, _ => none
  | _ + 1, NodeBody.Leaf segment => segment.as_str buffer
  | fuel + 1, NodeBody.Parent left right => do
      let ln ← nodes[left]?
      let rn ← nodes[right]?
      let ls ← build_snapshot buffer nodes fuel ln.body
      let rs ← build_snapshot buffer nodes fuel rn.body
      pure (ls ++ rs)

/-- `snapshot()`. The source returns a borrowed slice for a leaf root and an
owned string otherwise; both produce the character sequence computed here. -/
def snapshot (s : RopePersistentString) : Option (List Char) := do
  let address ← s.versions[s.current_version]?
  let node ← s.nodes[address]?
  build_snapshot s.buffer s.nodes s.nodes.length node.body

/-- Snapshot of an arbitrary version handle `v`: `snapshot()` as observed
after `switch_version(v)`. -/
def snapshot_at (s : RopePersistentString) (v : Nat) : Option (List Char) := do
  let address ← s.versions[v]?
  let node ← s.nodes[address]?
  build_snapshot s.buffer s.nodes s.nodes.length node.body

/-- `is_empty()`. -/
def is_empty (s : RopePersistentString) : Option Bool := do
  let address ← s.versions[s.current_version]?
  let node ← s.nodes[address]?
  pure (node.length == 0)

/-- `len()`, the byte length field of the current version root. -/
def len (s : RopePersistentString) : Option Nat := do
  let address ← s.versions[s.current_version]?
  let node ← s.nodes[address]?
  pure node.length

/-- `pop_nonempty_recursively`. Returns the extended arena, the address of
the replacement node (`0` when the popped node vanished), and the popped
scalar value. Fuel models the descent through arena addresses. -/
def pop_nonempty_recursively (buffer : List Char) :
    Nat → List Node → Node → Option (List Node × Nat × Char)
  | 0, _, _ => none
  | fuel + 1, nodes, node =>
    match node.body with
    | NodeBody.Leaf segment => do
        let str ← segment.as_str buffer
        -- the `expect` on an empty segment models as failure of `getLast?`
        let last_char ← str.getLast?
        let last_char_length := last_char.utf8Size
        if segment.len - last_char_length = 0 then
          some (nodes, 0, last_char)
        else
          some
            (nodes ++
              [⟨segment.len - last_char_length,
                NodeBody.Leaf ⟨segment.begin, segment.stop - last_char_length⟩⟩],
              nodes.length, last_char)
    | NodeBody.Parent left right => do
        let right_node ← nodes[right]?
        let (nodes', new_right, popped) ←
          pop_nonempty_recursively buffer fuel nodes right_node
        match new_right with
        | 0 => some (nodes', left, popped)
        | _ =>
            some
              (nodes' ++ [⟨node.length - popped.utf8Size, NodeBody.Parent left new_right⟩],
                nodes'.length, popped)

/-- `pop()`. -/
def pop (s : RopePersistentString) : Option (Option Char × RopePersistentString) := do
  let address ← s.versions[s.current_version]?
  let node ← s.nodes[address]?
  if node.length = 0 then
    some (none, s)
  else do
    let (nodes', new_root, popped) ←
      pop_nonempty_recursively s.buffer s.nodes.length s.nodes node
    let new_version := s.versions.length
    some (some popped,
      { s with
          nodes := nodes'
          versions := s.versions ++ [new_root]
          current_version := new_version })

/-- `push(c)`. -/
def push (s : RopePersistentString) (character : Char) : Option RopePersistentString := do
  let new_version := s.versions.length
  let character_length := character.utf8Size
  let current_node_address ← s.versions[s.current_version]?
  let right_node_index := s.nodes.length
  let suffix_begin := utf8Len s.buffer
  let buffer' := s.buffer ++ [character]
  let nodes₁ := s.nodes ++
    [⟨character_length,
      NodeBody.Leaf (BytesSegment.non_empty_of_length suffix_begin character_length)⟩]
  let current_node ← nodes₁[current_node_address]?
  let new_node_address := nodes₁.length
  pure
    { buffer := buffer'
      nodes := nodes₁ ++
        [⟨current_node.length + character_length,
          NodeBody.Parent current_node_address right_node_index⟩]
      versions := s.versions ++ [new_node_address]
      current_version := new_version }

/-- `push_str(s)`. -/
def push_str (s : RopePersistentString) (suffix : List Char) :
    Option RopePersistentString := do
  let new_version := s.versions.length
  let suffix_length := utf8Len suffix
  let current_node_address ← s.versions[s.current_version]?
  if suffix_length = 0 then
    -- keep current string
    pure { s with versions := s.versions ++ [current_node_address],
                  current_version := new_version }
  else
    let right_node_index := s.nodes.length
    let suffix_begin := utf8Len s.buffer
    let buffer' := s.buffer ++ suffix
    let nodes₁ := s.nodes ++
      [⟨suffix_length,
        NodeBody.Leaf (BytesSegment.non_empty_of_length suffix_begin suffix_length)⟩]
    if current_node_address = 0 then
      -- no need to append anything to the empty node
      pure { buffer := buffer', nodes := nodes₁,
             versions := s.versions ++ [right_node_index],
             current_version := new_version }
    else do
      let current_node ← nodes₁[current_node_address]?
      pure
        { buffer := buffer'
          nodes := nodes₁ ++
            [⟨current_node.length + suffix_length,
              NodeBody.Parent current_node_address right_node_index⟩]
          versions := s.versions ++ [nodes₁.length]
          current_version := new_version }

/-- The left-leaning spine built by the generic arm of `repeat`; `iters` is
the number of loop iterations (`times - 1` at the call site). -/
def repeat_spine (current_node_index length : Nat) :
    List Node → Nat → Nat → Nat → List Node × Nat
  | nodes, top_index, _, 0 => (nodes, top_index)
  | nodes, top_index, top_length, iters + 1 =>
      repeat_spine current_node_index length
        (nodes ++ [⟨top_length + length, NodeBody.Parent top_index current_node_index⟩])
        nodes.length (top_length + length) iters

/-- `repeat(times)`. -/
def repeatString (s : RopePersistentString) (times : Nat) :
    Option RopePersistentString := do
  let new_version := s.versions.length
  let current_node_index ← s.versions[s.current_version]?
  if current_node_index = 0 then
    -- node 0 is known to be empty
    pure { s with versions := s.versions ++ [0], current_version := new_version }
  else
    match times with
    | 0 => pure { s with versions := s.versions ++ [0], current_version := new_version }
    | 1 => pure { s with versions := s.versions ++ [current_node_index],
                         current_version := new_version }
    | 2 => do
        let node ← s.nodes[current_node_index]?
        let node_pair_index := s.nodes.length
        pure
          { s with
              nodes := s.nodes ++
                [⟨node.length * 2, NodeBody.Parent current_node_index current_node_index⟩]
              versions := s.versions ++ [node_pair_index]
              current_version := new_version }
    | times => do
        let node ← s.nodes[current_node_index]?
        let (nodes', top_index) :=
          repeat_spine current_node_index node.length s.nodes current_node_index
            node.length (times - 1)
        pure
          { s with
              nodes := nodes'
              versions := s.versions ++ [top_index]
              current_version := new_version }

/-- `remove(index)` is `todo!()` in the source and always panics. -/
def remove (_s : RopePersistentString) (_index : Nat) :
    Option (Char × RopePersistentString) := none

/-- `retain(filter)` is `todo!()` in the source and always panics. -/
def retain (_s : RopePersistentString) (_filter : Char → Bool) :
    Option RopePersistentString := none

/-- `insert_str_recursively`. Returns the extended arena and the address of
the new subtree root. Fuel models the descent through arena addresses. -/
def insert_str_recursively (insertion : BytesSegment) :
    Nat → List Node → Node → Nat → Nat → Option (List Node × Nat)
  | 0, _, _, _, _ => none
  | fuel + 1, nodes, node, node_address, index =>
    match node.body with
    | NodeBody.Leaf segment =>
        let inserted_node_address := nodes.length
        let nodes₁ := nodes ++ [Node.of_segment insertion]
        if index = 0 then
          -- insert as a left child
          some
            (nodes₁ ++
              [⟨node.length + insertion.len,
                NodeBody.Parent inserted_node_address node_address⟩],
              nodes₁.length)
        else if index = segment.len then
          -- insert as a right child
          some
            (nodes₁ ++
              [⟨node.length + insertion.len,
                NodeBody.Parent node_address inserted_node_address⟩],
              nodes₁.length)
        else
          -- insert in the middle
          let (left_segment, right_segment) := segment.split_at index
          let left_address := nodes₁.length
          let nodes₂ := nodes₁ ++ [Node.of_segment left_segment]
          let right_address := nodes₂.length
          let nodes₃ := nodes₂ ++ [Node.of_segment right_segment]
          let left_pair_address := nodes₃.length
          let nodes₄ := nodes₃ ++
            [⟨left_segment.len + insertion.len,
              NodeBody.Parent left_address inserted_node_address⟩]
          some
            (nodes₄ ++
              [⟨segment.len + insertion.len,
                NodeBody.Parent left_pair_address right_address⟩],
              nodes₄.length)
    | NodeBody.Parent left_address right_address => do
        let left_node ← nodes[left_address]?
        let left_length := left_node.length
        if index ≤ left_length then do
          let (nodes', new_left_address) ←
            insert_str_recursively insertion fuel nodes left_node left_address index
          some
            (nodes' ++
              [⟨node.length + insertion.len, NodeBody.Parent new_left_address right_address⟩],
              nodes'.length)
        else do
          let right_node ← nodes[right_address]?
          let (nodes', new_right_address) ←
            insert_str_recursively insertion fuel nodes right_node right_address
              (index - left_length)
          some
            (nodes' ++
              [⟨node.length + insertion.len, NodeBody.Parent left_address new_right_address⟩],
              nodes'.length)

/-- `insert_str(index, insertion)`; the index is a byte offset, compared
against the byte length of the current root, and panics when it exceeds it. -/
def insert_str (s : RopePersistentString) (index : Nat) (insertion : List Char) :
    Option RopePersistentString := do
  let current_node_address ← s.versions[s.current_version]?
  let node ← s.nodes[current_node_address]?
  if node.length < index then
    none
  else if insertion = [] then
    pure { s with versions := s.versions ++ [current_node_address],
                  current_version := s.versions.length }
  else
    let insertion_begin := utf8Len s.buffer
    let buffer' := s.buffer ++ insertion
    let segment := BytesSegment.of_length insertion_begin (utf8Len insertion)
    if node.length = 0 then
      pure
        { s with
            buffer := buffer'
            nodes := s.nodes ++ [Node.of_segment segment]
            versions := s.versions ++ [s.nodes.length]
            current_version := s.versions.length }
    else do
      let (nodes', new_node_address) ←
        insert_str_recursively segment s.nodes.length s.nodes node current_node_address index
      pure
        { s with
            buffer := buffer'
            nodes := nodes'
            versions := s.versions ++ [new_node_address]
            current_version := s.versions.length }

/-- `insert(index, character)` delegates to `insert_str` on the UTF-8 bytes
of the character. -/
def insert (s : RopePersistentString) (index : Nat) (character : Char) :
    Option RopePersistentString :=
  insert_str s index [character]

end RopePersistentString

/-- The operations of the rope strategy, used to quantify over every
sequence of mutations and switches. -/
inductive RopeOp where
  | push (c : Char)
  | push_str (s : List Char)
  | pop
  | repeatString (n : Nat)
  | remove (i : Nat)
  | retain (p : Char → Bool)
  | insert (i : Nat) (c : Char)
  | insert_str (i : Nat) (s : List Char)
  | try_switch_version (v : Nat)
  | switch_version (v : Nat)

/-- One operation applied to a rope state; `none` models a panic. Returned
values (`pop`, `remove`, `try_switch_version`) are discarded. -/
def ropeStep (s : RopePersistentString) : RopeOp → Option RopePersistentString
  | RopeOp.push c => s.push c
  | RopeOp.push_str str => s.push_str str
  | RopeOp.pop => (s.pop).map (·.2)
  | RopeOp.repeatString n => s.repeatString n
  | RopeOp.remove i => (s.remove i).map (·.2)
  | RopeOp.retain p => s.retain p
  | RopeOp.insert i c => s.insert i c
  | RopeOp.insert_str i str => s.insert_str i str
  | RopeOp.try_switch_version v => some (s.try_switch_version v).2
  | RopeOp.switch_version v => s.switch_version v

/-- Run a list of operations from a given rope state. -/
def ropeRunFrom (s : RopePersistentString) : List RopeOp → Option RopePersistentString
  | [] => some s
  | op :: ops => (ropeStep s op).bind (fun s' => ropeRunFrom s' ops)

/-- Run a list of operations from `new()`; `some s` exactly when no panic
occurs, with `s` the final engine state. -/
def ropeRun (ops : List RopeOp) : Option RopePersistentString :=
  ropeRunFrom RopePersistentString.new ops

/-! ## Segment-list strategy (`long_buffer.rs`) -/

namespace LongBuffer

/-- Model of `long_buffer.rs::Segment`; the source field named `end` is
renamed `stop`. -/
structure Segment where
  begin : Nat
  stop : Nat
deriving DecidableEq, Repr

/-- `Segment::try_from_of_length`. -/
def Segment.try_from_of_length (from_ length : Nat) : Option Segment :=
  if 0 < length then some ⟨from_, from_ + length⟩ else none

/-- `Segment::from_of_length`; the `debug_assert` is compiled out. -/
def Segment.from_of_length (from_ length : Nat) : Segment := ⟨from_, from_ + length⟩

/-- `Segment::len` of `long_buffer.rs`, faithfully reproducing the source
subtraction `end - (begin + 1)`. -/
def Segment.len (s : Segment) : Nat := s.stop - (s.begin + 1)

/-- `Segment::as_str`. -/
def Segment.as_str (s : Segment) (buffer : List Char) : Option (List Char) :=
  sliceStr buffer s.begin s.stop

/-- Model of `long_buffer.rs::Version`. -/
structure Version where
  segments : List Segment
  length : Nat
deriving DecidableEq, Repr

/-- Concatenation of the slices of a list of segments. -/
def segmentsStr (buffer : List Char) : List Segment → Option (List Char)
  | [] => some []
  | seg :: rest => do
      let s ← seg.as_str buffer
      let r ← segmentsStr buffer rest
      pure (s ++ r)

/-- `Version::build`; the source returns a borrowed empty string when there
are no segments, and otherwise concatenates every segment slice. -/
def Version.build (v : Version) (buffer : List Char) : Option (List Char) :=
  match v.segments with
  | [] => some []
  | _ => segmentsStr buffer v.segments

end LongBuffer

/-- Model of `long_buffer.rs::LongBufferPersistentString`. -/
structure LongBufferPersistentString where
  buffer : List Char
  versions : List LongBuffer.Version
  current_version : Nat
deriving DecidableEq, Repr

namespace LongBufferPersistentString

open LongBuffer

/-- `LongBufferPersistentString::new`. -/
def new : LongBufferPersistentString := ⟨[], [⟨[], 0⟩], 0⟩

/-- `version()`. -/
def version (s : LongBufferPersistentString) : Nat := s.current_version

/-- `latest_version()`. -/
def latest_version (s : LongBufferPersistentString) : Nat := s.versions.length - 1

/-- `try_switch_version`. -/
def try_switch_version (s : LongBufferPersistentString) (version : Nat) :
    SwitchResult × LongBufferPersistentString :=
  if version < s.versions.length then
    (SwitchResult.ok, { s with current_version := version })
  else
    (SwitchResult.error (VersionSwitchError.InvalidVersion version), s)

/-- `switch_version`, the wrapper that panics on an invalid version. -/
def switch_version (s : LongBufferPersistentString) (version : Nat) :
    Option LongBufferPersistentString :=
  match try_switch_version s version with
  | (SwitchResult.ok, s) => some s
  | (SwitchResult.error _, _) => none

/-- `snapshot()`. -/
def snapshot (s : LongBufferPersistentString) : Option (List Char) := do
  let v ← s.versions[s.current_version]?
  v.build s.buffer

/-- Snapshot of an arbitrary version handle. -/
def snapshot_at (s : LongBufferPersistentString) (v : Nat) : Option (List Char) := do
  let ver ← s.versions[v]?
  ver.build s.buffer

/-- `is_empty()`. -/
def is_empty (s : LongBufferPersistentString) : Option Bool :=
  (s.versions[s.current_version]?).map (fun v => v.length == 0)

/-- `len()`, the stored length field of the current version. -/
def len (s : LongBufferPersistentString) : Option Nat :=
  (s.versions[s.current_version]?).map (·.length)

/-- `pop()`. The source clones the current version via `bump_version` (which
also sets the current version index to the index about to be allocated),
then shrinks or drops the last segment using the `Segment::len` of this
module, and pushes the clone without updating its `length` field. -/
def pop (s : LongBufferPersistentString) :
    Option (Option Char × LongBufferPersistentString) := do
  let old ← s.versions[s.current_version]?
  let current' := s.versions.length
  match old.segments.getLast? with
  | none =>
      some (none,
        { s with versions := s.versions ++ [old], current_version := current' })
  | some last_segment => do
      let str ← last_segment.as_str s.buffer
      -- the `expect` on an empty segment models as failure of `getLast?`
      let last_char ← str.getLast?
      let last_char_len := last_char.utf8Size
      let segments' :=
        if last_char_len < last_segment.len then
          old.segments.dropLast ++ [⟨last_segment.begin, last_segment.stop - last_char_len⟩]
        else
          old.segments.dropLast
      some (some last_char,
        { s with versions := s.versions ++ [⟨segments', old.length⟩],
                 current_version := current' })

/-- `push(character)`. -/
def push (s : LongBufferPersistentString) (character : Char) :
    Option LongBufferPersistentString := do
  let old_buffer_length := utf8Len s.buffer
  let buffer' := s.buffer ++ [character]
  let new_buffer_length := utf8Len buffer'
  let old ← s.versions[s.current_version]?
  pure
    { buffer := buffer'
      versions := s.versions ++
        [⟨old.segments ++ [⟨old_buffer_length, new_buffer_length⟩],
          old.length + character.utf8Size⟩]
      current_version := s.versions.length }

/-- `push_str(suffix)`; note that an empty suffix still pushes an empty
segment, exactly as in the source. -/
def push_str (s : LongBufferPersistentString) (suffix : List Char) :
    Option LongBufferPersistentString := do
  let old_buffer_length := utf8Len s.buffer
  let buffer' := s.buffer ++ suffix
  let new_buffer_length := utf8Len buffer'
  let old ← s.versions[s.current_version]?
  pure
    { buffer := buffer'
      versions := s.versions ++
        [⟨old.segments ++ [⟨old_buffer_length, new_buffer_length⟩],
          old.length + utf8Len suffix⟩]
      current_version := s.versions.length }

/-- `repeat(times)`; `Vec::repeat` concatenates `times` copies. -/
def repeatString (s : LongBufferPersistentString) (times : Nat) :
    Option LongBufferPersistentString := do
  let old ← s.versions[s.current_version]?
  pure
    { s with
        versions := s.versions ++
          [⟨(List.replicate times old.segments).flatten, old.length * times⟩]
        current_version := s.versions.length }

/-- The inner loop of `retain` over the scalar values of one segment,
carrying `segment_begin`, `segment_len`, the accumulated new segments, and
the accumulated removed byte count (the source subtracts from `length`
directly; accumulating the removed bytes and subtracting once at the end is
the same `usize` arithmetic). -/
def retainLoop (filter : Char → Bool) :
    List Char → Nat → Nat → List LongBuffer.Segment → Nat →
      List LongBuffer.Segment × Nat × Nat × Nat
  | [], segment_begin, segment_len, segments, removed =>
      (segments, segment_begin, segment_len, removed)
  | character :: rest, segment_begin, segment_len, segments, removed =>
      let character_len := character.utf8Size
      if filter character then
        retainLoop filter rest segment_begin (segment_len + character_len) segments removed
      else
        let segments' :=
          match Segment.try_from_of_length segment_begin segment_len with
          | some seg => segments ++ [seg]
          | none => segments
        retainLoop filter rest (segment_begin + segment_len + character_len) 0 segments'
          (removed + character_len)

/-- The outer loop of `retain` over the segments of the current version. -/
def retainSegments (filter : Char → Bool) (buffer : List Char) :
    List LongBuffer.Segment → List LongBuffer.Segment → Nat →
      Option (List LongBuffer.Segment × Nat)
  | [], segments, removed => some (segments, removed)
  | seg :: rest, segments, removed => do
      let str ← seg.as_str buffer
      let (segments', segment_begin, segment_len, removed') :=
        retainLoop filter str seg.begin 0 segments removed
      let segments'' :=
        match Segment.try_from_of_length segment_begin segment_len with
        | some tail => segments' ++ [tail]
        | none => segments'
      retainSegments filter buffer rest segments'' removed'

/-- `retain(filter)`. -/
def retain (s : LongBufferPersistentString) (filter : Char → Bool) :
    Option LongBufferPersistentString := do
  let old ← s.versions[s.current_version]?
  let (segments, removed) ← retainSegments filter s.buffer old.segments [] 0
  pure
    { s with
        versions := s.versions ++ [⟨segments, old.length - removed⟩]
        current_version := s.versions.length }

/-- `remove(index)` is `todo!()` in the source and always panics. -/
def remove (_s : LongBufferPersistentString) (_index : Nat) :
    Option (Char × LongBufferPersistentString) := none

/-- `insert(index, character)` ends in `todo!()` in the source and always
panics. -/
def insert (_s : LongBufferPersistentString) (_index : Nat) (_character : Char) :
    Option LongBufferPersistentString := none

/-- `insert_str(index, insertion)` is `todo!()` in the source and always
panics. -/
def insert_str (_s : LongBufferPersistentString) (_index : Nat) (_insertion : List Char) :
    Option LongBufferPersistentString := none

end LongBufferPersistentString

/-- The operations of the segment-list strategy. -/
inductive LBOp where
  | push (c : Char)
  | push_str (s : List Char)
  | pop
  | repeatString (n : Nat)
  | remove (i : Nat)
  | retain (p : Char → Bool)
  | insert (i : Nat) (c : Char)
  | insert_str (i : Nat) (s : List Char)
  | try_switch_version (v : Nat)
  | switch_version (v : Nat)

/-- One operation applied to a segment-list state; `none` models a panic. -/
def lbStep (s : LongBufferPersistentString) : LBOp → Option LongBufferPersistentString
  | LBOp.push c => s.push c
  | LBOp.push_str str => s.push_str str
  | LBOp.pop => (s.pop).map (·.2)
  | LBOp.repeatString n => s.repeatString n
  | LBOp.remove i => (s.remove i).map (·.2)
  | LBOp.retain p => s.retain p
  | LBOp.insert i c => s.insert i c
  | LBOp.insert_str i str => s.insert_str i str
  | LBOp.try_switch_version v => some (s.try_switch_version v).2
  | LBOp.switch_version v => s.switch_version v

/-- Run a list of operations from a given segment-list state. -/
def lbRunFrom (s : LongBufferPersistentString) : List LBOp → Option LongBufferPersistentString
  | [] => some s
  | op :: ops => (lbStep s op).bind (fun s' => lbRunFrom s' ops)

/-- Run a list of operations from `new()`. -/
def lbRun (ops : List LBOp) : Option LongBufferPersistentString :=
  lbRunFrom LongBufferPersistentString.new ops

/-! ## Copy-on-write strategy (`cow.rs`) and delta strategy (`delta.rs`)

These two files implement an undo and redo interface: mutation reads the
entry at `current_version`, removes every later entry, and appends. -/

/-- The loop of `pop_back` calls removing the last `n` entries. -/
def popBackN {α : Type} : List α → Nat → List α
  | l, 0 => l
  | l, n + 1 => popBackN l.dropLast n

/-- Model of `cow.rs::CowPersistentString`: a list of owned string versions
plus the current version index (`0` is the empty state, index `n + 1` is
entry `n`). -/
structure CowPersistentString where
  versions : List (List Char)
  current_version : Nat
deriving DecidableEq, Repr

namespace CowPersistentString

/-- `CowPersistentString::new`. -/
def new : CowPersistentString := ⟨[], 0⟩

/-- The private `current_version()` accessor. -/
def current_version_str (s : CowPersistentString) : Option (List Char) :=
  match s.current_version with
  | 0 => none
  | n + 1 => s.versions[n]?

/-- `mutate_or_else`: drop the entries past `current_version` (those undone
from), then push the mutated clone of the back entry, or the fallback when
the state is empty. -/
def mutate_or_else (s : CowPersistentString) (operation : List Char → List Char)
    (fallback : Unit → List Char) : CowPersistentString :=
  let current_version := s.current_version
  let versions₁ := popBackN s.versions (s.versions.length - current_version)
  let new_entry :=
    match versions₁.getLast? with
    | some back => operation back
    | none => fallback ()
  ⟨versions₁ ++ [new_entry], current_version + 1⟩

/-- `is_empty()`. -/
def is_empty (s : CowPersistentString) : Bool :=
  match current_version_str s with
  | some current => current.isEmpty
  | none => true

/-- `len()`; `String::len` is the UTF-8 byte count. -/
def len (s : CowPersistentString) : Nat :=
  match current_version_str s with
  | some current => utf8Len current
  | none => 0

/-- `snapshot()`; total, returning the empty string in the empty state. -/
def snapshot (s : CowPersistentString) : List Char :=
  (current_version_str s).getD []

/-- The text a version index denotes: `snapshot()` as it would be observed
with `current_version` set to `v`. -/
def snapshot_of_version (s : CowPersistentString) (v : Nat) : List Char :=
  match v with
  | 0 => []
  | n + 1 => (s.versions[n]?).getD []

/-- `push_str(suffix)`. -/
def push_str (s : CowPersistentString) (suffix : List Char) : CowPersistentString :=
  mutate_or_else s (fun current => current ++ suffix) (fun _ => suffix)

/-- `repeat(times)`. -/
def repeatString (s : CowPersistentString) (times : Nat) : CowPersistentString :=
  mutate_or_else s (fun current => (List.replicate times current).flatten) (fun _ => [])

/-- `undo()`; the returned `Result` is dropped, only the state effect is
modelled (on `Err(Terminal)` the state is unchanged). -/
def undo (s : CowPersistentString) : CowPersistentString :=
  match s.current_version with
  | 0 => s
  | n + 1 => { s with current_version := n }

/-- `redo()`; the returned `Result` is dropped, only the state effect is
modelled. -/
def redo (s : CowPersistentString) : CowPersistentString :=
  if s.current_version < s.versions.length then
    { s with current_version := s.current_version + 1 }
  else s

end CowPersistentString

/-- The operations of the copy-on-write strategy (all total). -/
inductive CowOp where
  | push_str (s : List Char)
  | repeatString (n : Nat)
  | undo
  | redo

/-- One operation applied to a copy-on-write state. -/
def cowStep (s : CowPersistentString) : CowOp → CowPersistentString
  | CowOp.push_str str => s.push_str str
  | CowOp.repeatString n => s.repeatString n
  | CowOp.undo => s.undo
  | CowOp.redo => s.redo

/-- Run a list of operations from `new()`. -/
def cowRun (ops : List CowOp) : CowPersistentString :=
  ops.foldl cowStep CowPersistentString.new

/-- Model of `delta.rs::Delta`. -/
inductive Delta where
  | PushStr (s : List Char)
  | Repeat (times : Nat)
deriving DecidableEq, Repr

/-- `Delta::apply`. -/
def Delta.apply (d : Delta) (string : List Char) : List Char :=
  match d with
  | Delta.PushStr suffix => string ++ suffix
  | Delta.Repeat times => (List.replicate times string).flatten

/-- Model of `delta.rs::DeltaPersistentString`. -/
structure DeltaPersistentString where
  deltas : List Delta
  current_version : Nat
deriving DecidableEq, Repr

namespace DeltaPersistentString

/-- `DeltaPersistentString::new`. -/
def new : DeltaPersistentString := ⟨[], 0⟩

/-- `generate()`: fold the active delta prefix from the empty string. -/
def generate (s : DeltaPersistentString) : List Char :=
  (s.deltas.take s.current_version).foldl (fun accumulated d => d.apply accumulated) []

/-- `push_delta`: drop the deltas past `current_version` (those undone
from), then append the new delta. -/
def push_delta (s : DeltaPersistentString) (delta : Delta) : DeltaPersistentString :=
  let current_version := s.current_version
  let deltas₁ := popBackN s.deltas (s.deltas.length - current_version)
  ⟨deltas₁ ++ [delta], current_version + 1⟩

/-- `push_str(string)`. -/
def push_str (s : DeltaPersistentString) (string : List Char) : DeltaPersistentString :=
  push_delta s (Delta.PushStr string)

/-- `repeat(times)`. -/
def repeatString (s : DeltaPersistentString) (times : Nat) : DeltaPersistentString :=
  push_delta s (Delta.Repeat times)

/-- `snapshot()`. -/
def snapshot (s : DeltaPersistentString) : List Char := generate s

/-- `is_empty()`. -/
def is_empty (s : DeltaPersistentString) : Bool :=
  if 0 < s.current_version then (generate s).isEmpty else true

/-- `len()`. -/
def len (s : DeltaPersistentString) : Nat :=
  if 0 < s.current_version then utf8Len (generate s) else 0

end DeltaPersistentString

/-! ## Invariant definitions for the rope strategy -/

namespace RopePersistentString

/-- Local well-formedness of a node stored at arena index `i`: leaf segments
lie inside the buffer, parents point to strictly smaller addresses and cache
the sum of the byte lengths of their children. -/
def NodeWFAt (bufLen : Nat) (nodes : List Node) (i : Nat) (node : Node) : Prop :=
  match node.body with
  | NodeBody.Leaf seg => seg.begin ≤ seg.stop ∧ seg.stop ≤ bufLen ∧ node.length = seg.len
  | NodeBody.Parent l r =>
      l < i ∧ r < i ∧
      ∃ ln rn, nodes[l]? = some ln ∧ nodes[r]? = some rn ∧
        node.length = ln.length + rn.length

/-- Well-formedness of the whole arena. -/
def NodesWF (bufLen : Nat) (nodes : List Node) : Prop :=
  ∀ i node, nodes[i]? = some node → NodeWFAt bufLen nodes i node

/-- The reachable-state invariant of the rope strategy. -/
structure WF (s : RopePersistentString) : Prop where
  nodes_wf : NodesWF (utf8Len s.buffer) s.nodes
  node_zero : s.nodes[0]? = some ⟨0, NodeBody.Leaf BytesSegment.EMPTY⟩
  current_lt : s.current_version < s.versions.length
  versions_lt : ∀ (v a : Nat), s.versions[v]? = some a → a < s.nodes.length

end RopePersistentString

/-! ## Lemmas about byte-indexed slicing -/

theorem utf8Len_append : ∀ (a b : List Char), utf8Len (a ++ b) = utf8Len a + utf8Len b
  | [], _ => by simp [utf8Len]
  | c :: cs, b => by
      show c.utf8Size + utf8Len (cs ++ b) = c.utf8Size + utf8Len cs + utf8Len b
      rw [utf8Len_append cs b]
      omega

theorem utf8Len_eq_zero {l : List Char} (h : utf8Len l = 0) : l = [] := by
  cases l with
  | nil => rfl
  | cons c cs =>
      have := Char.utf8Size_pos c
      simp only [utf8Len] at h
      omega

theorem utf8Len_take_le (l : List Char) (k : Nat) : utf8Len (l.take k) ≤ utf8Len l := by
  conv_rhs => rw [← List.take_append_drop k l]
  rw [utf8Len_append]
  omega

theorem utf8Len_take_add_drop (l : List Char) (k : Nat) :
    utf8Len (l.take k) + utf8Len (l.drop k) = utf8Len l := by
  rw [← utf8Len_append, List.take_append_drop]

theorem charsTake_zero (l : List Char) : charsTake l 0 = some [] := by
  unfold charsTake
  cases l <;> rfl

theorem charsDrop_zero (l : List Char) : charsDrop l 0 = some l := by
  unfold charsDrop
  cases l <;> rfl

/-- A successful `charsTake` yields a prefix whose byte length is the
requested count, and the matching `charsDrop` yields the rest. -/
theorem charsTake_some {l t : List Char} {n : Nat} (h : charsTake l n = some t) :
    utf8Len t = n ∧ ∃ r, charsDrop l n = some r ∧ l = t ++ r := by
  induction l generalizing n t with
  | nil =>
      cases n with
      | zero =>
          rw [charsTake_zero] at h
          cases h
          exact ⟨rfl, [], charsDrop_zero [], rfl⟩
      | succ n => simp [charsTake] at h
  | cons c cs ih =>
      cases n with
      | zero =>
          rw [charsTake_zero] at h
          cases h
          exact ⟨rfl, c :: cs, charsDrop_zero _, rfl⟩
      | succ n =>
          simp only [charsTake] at h
          by_cases hle : c.utf8Size ≤ n + 1
          · rw [if_pos hle] at h
            cases ht' : charsTake cs (n + 1 - c.utf8Size) with
            | none => rw [ht'] at h; simp at h
            | some t' =>
                rw [ht'] at h
                simp only [Option.map_some'] at h
                cases h
                obtain ⟨hlen, r, hdrop, heq⟩ := ih ht'
                refine ⟨?_, r, ?_, by simp [heq]⟩
                · simp only [utf8Len]; omega
                · simp only [charsDrop, if_pos hle]; exact hdrop
          · rw [if_neg hle] at h; cases h

/-- A successful `charsDrop` accounts for exactly `n` bytes. -/
theorem charsDrop_some {l r : List Char} {n : Nat} (h : charsDrop l n = some r) :
    n + utf8Len r = utf8Len l ∧ ∃ t, charsTake l n = some t ∧ l = t ++ r := by
  induction l generalizing n r with
  | nil =>
      cases n with
      | zero => rw [charsDrop_zero] at h; cases h; exact ⟨rfl, [], charsTake_zero [], rfl⟩
      | succ n => simp [charsDrop] at h
  | cons c cs ih =>
      cases n with
      | zero =>
          rw [charsDrop_zero] at h; cases h
          exact ⟨by omega, [], charsTake_zero _, rfl⟩
      | succ n =>
          simp only [charsDrop] at h
          by_cases hle : c.utf8Size ≤ n + 1
          · rw [if_pos hle] at h
            obtain ⟨hlen, t, htake, heq⟩ := ih h
            refine ⟨by simp only [utf8Len]; omega, c :: t, ?_, by simp [heq]⟩
            simp only [charsTake, if_pos hle, htake, Option.map_some']
          · rw [if_neg hle] at h; cases h

/-- Taking exactly the byte length of a prefix returns that prefix. -/
theorem charsTake_self_append (t r : List Char) : charsTake (t ++ r) (utf8Len t) = some t := by
  induction t with
  | nil => simpa using charsTake_zero r
  | cons c cs ih =>
      have hpos := Char.utf8Size_pos c
      simp only [List.cons_append, utf8Len]
      have hne : c.utf8Size + utf8Len cs ≠ 0 := by omega
      cases hn : c.utf8Size + utf8Len cs with
      | zero => omega
      | succ m =>
          simp only [charsTake, ← hn, if_pos (by omega : c.utf8Size ≤ c.utf8Size + utf8Len cs)]
          rw [Nat.add_sub_cancel_left, ih]
          rfl

/-- Dropping exactly the byte length of a prefix returns the rest. -/
theorem charsDrop_self_append (t r : List Char) : charsDrop (t ++ r) (utf8Len t) = some r := by
  induction t with
  | nil => simpa using charsDrop_zero r
  | cons c cs ih =>
      have hpos := Char.utf8Size_pos c
      simp only [List.cons_append, utf8Len]
      cases hn : c.utf8Size + utf8Len cs with
      | zero => omega
      | succ m =>
          simp only [charsDrop, ← hn, if_pos (by omega : c.utf8Size ≤ c.utf8Size + utf8Len cs)]
          rw [Nat.add_sub_cancel_left, ih]

theorem charsTake_full (t : List Char) : charsTake t (utf8Len t) = some t := by
  simpa using charsTake_self_append t []

/-- A successful `charsTake` is unaffected by extending the list. -/
theorem charsTake_append_ext {l t : List Char} {n : Nat} (ext : List Char)
    (h : charsTake l n = some t) : charsTake (l ++ ext) n = some t := by
  obtain ⟨_, r, _, heq⟩ := charsTake_some h
  subst heq
  rw [List.append_assoc]
  have := charsTake_some h
  rw [← this.1]
  exact charsTake_self_append t (r ++ ext)

/-- A successful `charsDrop` commutes with extending the list. -/
theorem charsDrop_append_ext {l r : List Char} {n : Nat} (ext : List Char)
    (h : charsDrop l n = some r) : charsDrop (l ++ ext) n = some (r ++ ext) := by
  obtain ⟨hlen, t, htake, heq⟩ := charsDrop_some h
  subst heq
  rw [List.append_assoc]
  have ht := charsTake_some htake
  rw [← (by omega : utf8Len t = n)]
  exact charsDrop_self_append t (r ++ ext)
  
/-- Dropping `m + n` bytes is dropping `m` bytes and then `n` more. -/
theorem charsDrop_add {l r : List Char} {m : Nat} (n : Nat)
    (h : charsDrop l m = some r) : charsDrop l (m + n) = charsDrop r n := by
  induction l generalizing m with
  | nil =>
      cases m with
      | zero => rw [charsDrop_zero] at h; cases h; rw [Nat.zero_add]
      | succ m => simp [charsDrop] at h
  | cons c cs ih =>
      cases m with
      | zero => rw [charsDrop_zero] at h; cases h; rw [Nat.zero_add]
      | succ m =>
          simp only [charsDrop] at h
          by_cases hle : c.utf8Size ≤ m + 1
          · rw [if_pos hle] at h
            have hadd : m + 1 + n - c.utf8Size = m + 1 - c.utf8Size + n := by omega
            have hpos := Char.utf8Size_pos c
            cases hmn : m + 1 + n with
            | zero => omega
            | succ k =>
                simp only [charsDrop, ← hmn, if_pos (by omega : c.utf8Size ≤ m + 1 + n), hadd]
                exact ih h
          · rw [if_neg hle] at h; cases h

/-- Taking the byte length of a known prefix plus `m` more bytes takes the
prefix and then `m` bytes of the rest. -/
theorem charsTake_append_add (t rest : List Char) (m : Nat) :
    charsTake (t ++ rest) (utf8Len t + m) = (charsTake rest m).map (t ++ ·) := by
  induction t with
  | nil => simp [utf8Len]
  | cons c cs ih =>
      have hpos := Char.utf8Size_pos c
      simp only [List.cons_append, utf8Len]
      cases hn : c.utf8Size + utf8Len cs + m with
      | zero => omega
      | succ k =>
          have : c.utf8Size + utf8Len cs + m = c.utf8Size + (utf8Len cs + m) := by omega
          simp only [charsTake, ← hn, this,
            if_pos (by omega : c.utf8Size ≤ c.utf8Size + (utf8Len cs + m)),
            Nat.add_sub_cancel_left, ih]
          cases charsTake rest m <;> rfl

theorem sliceStr_some_utf8Len {buf t : List Char} {b e : Nat}
    (h : sliceStr buf b e = some t) : b ≤ e ∧ utf8Len t = e - b := by
  unfold sliceStr at h
  by_cases hbe : b ≤ e
  · rw [if_pos hbe] at h
    cases hdrop : charsDrop buf b with
    | none => rw [hdrop] at h; cases h
    | some r =>
        rw [hdrop] at h
        simp only [Option.some_bind] at h
        exact ⟨hbe, (charsTake_some h).1⟩
  · rw [if_neg hbe] at h; cases h

/-- A successful slice is unaffected by extending the buffer. -/
theorem sliceStr_append_ext {buf t : List Char} {b e : Nat} (ext : List Char)
    (h : sliceStr buf b e = some t) : sliceStr (buf ++ ext) b e = some t := by
  unfold sliceStr at h ⊢
  by_cases hbe : b ≤ e
  · rw [if_pos hbe] at h ⊢
    cases hdrop : charsDrop buf b with
    | none => rw [hdrop] at h; cases h
    | some r =>
        rw [hdrop] at h
        simp only [Option.some_bind] at h
        rw [charsDrop_append_ext ext hdrop]
        simpa using charsTake_append_ext ext h
  · rw [if_neg hbe] at h; cases h

/-- The slice of freshly appended bytes is exactly the appended string. -/
theorem sliceStr_suffix (buf ins : List Char) :
    sliceStr (buf ++ ins) (utf8Len buf) (utf8Len buf + utf8Len ins) = some ins := by
  unfold sliceStr
  rw [if_pos (by omega : utf8Len buf ≤ utf8Len buf + utf8Len ins)]
  rw [charsDrop_self_append buf ins]
  simp only [Option.some_bind, Nat.add_sub_cancel_left]
  exact charsTake_full ins

/-- A slice at a boundary byte index splits into the two sub-slices. -/
theorem sliceStr_split {buf t : List Char} {b e : Nat} (h : sliceStr buf b e = some t)
    (k : Nat) :
    sliceStr buf b (b + utf8Len (t.take k)) = some (t.take k) ∧
    sliceStr buf (b + utf8Len (t.take k)) e = some (t.drop k) := by
  unfold sliceStr at h
  by_cases hbe : b ≤ e
  · rw [if_pos hbe] at h
    cases hdrop : charsDrop buf b with
    | none => rw [hdrop] at h; cases h
    | some r =>
        rw [hdrop] at h
        simp only [Option.some_bind] at h
        obtain ⟨hlen, r₁, hdrop₁, heq⟩ := charsTake_some h
        have hsplit : r = t.take k ++ (t.drop k ++ r₁) := by
          rw [heq, ← List.append_assoc, List.take_append_drop]
        have htd : utf8Len (t.take k) + utf8Len (t.drop k) = utf8Len t :=
          utf8Len_take_add_drop t k
        constructor
        · unfold sliceStr
          rw [if_pos (by omega : b ≤ b + utf8Len (t.take k))]
          rw [hdrop]
          simp only [Option.some_bind, Nat.add_sub_cancel_left]
          rw [hsplit]
          exact charsTake_self_append _ _
        · unfold sliceStr
          rw [if_pos (by omega : b + utf8Len (t.take k) ≤ e)]
          rw [charsDrop_add (utf8Len (t.take k)) hdrop, hsplit, charsDrop_self_append]
          simp only [Option.some_bind]
          have : e - (b + utf8Len (t.take k)) = utf8Len (t.drop k) := by omega
          rw [this]
          exact charsTake_self_append _ _
  · rw [if_neg hbe] at h; cases h

/-- Adjacent slices concatenate. -/
theorem sliceStr_concat {buf x y : List Char} {a b c : Nat}
    (h1 : sliceStr buf a b = some x) (h2 : sliceStr buf b c = some y) :
    sliceStr buf a c = some (x ++ y) := by
  obtain ⟨hab, hx⟩ := sliceStr_some_utf8Len h1
  obtain ⟨hbc, hy⟩ := sliceStr_some_utf8Len h2
  unfold sliceStr at h1 h2 ⊢
  rw [if_pos hab] at h1
  rw [if_pos hbc] at h2
  rw [if_pos (by omega : a ≤ c)]
  cases hdrop : charsDrop buf a with
  | none => rw [hdrop] at h1; cases h1
  | some r =>
      rw [hdrop] at h1
      simp only [Option.some_bind] at h1 ⊢
      obtain ⟨_, r₁, hdrop₁, heq⟩ := charsTake_some h1
      cases hdrop₂ : charsDrop buf b with
      | none => rw [hdrop₂] at h2; cases h2
      | some r₂ =>
          rw [hdrop₂] at h2
          simp only [Option.some_bind] at h2
          have hb : b = a + (b - a) := by omega
          have : charsDrop buf (a + (b - a)) = charsDrop r (b - a) := charsDrop_add _ hdrop
          rw [← hb] at this
          rw [hdrop₂] at this
          rw [heq] at this ⊢
          rw [← hx, charsDrop_self_append x r₁] at this
          injection this with hr
          subst hr
          have hca : c - a = utf8Len x + (c - b) := by omega
          rw [hca, charsTake_append_add, h2]
          rfl

/-- A slice can start at any boundary the buffer reaches. -/
theorem sliceStr_nil_of_charsDrop {buf r : List Char} {b : Nat}
    (h : charsDrop buf b = some r) : sliceStr buf b b = some [] := by
  unfold sliceStr
  rw [if_pos (Nat.le_refl b), h]
  simp only [Option.some_bind, Nat.sub_self]
  exact charsTake_zero r

/-! ## Rope framework lemmas: snapshot transfer and well-formedness -/

namespace RopePersistentString

theorem build_snapshot_zero (buffer : List Char) (nodes : List Node) (body : NodeBody) :
    build_snapshot buffer nodes 0 body = none := rfl

theorem build_snapshot_leaf (buffer : List Char) (nodes : List Node) (fuel : Nat)
    (segment : BytesSegment) :
    build_snapshot buffer nodes (fuel + 1) (NodeBody.Leaf segment) =
      segment.as_str buffer := rfl

theorem build_snapshot_parent (buffer : List Char) (nodes : List Node) (fuel : Nat)
    (left right : Nat) :
    build_snapshot buffer nodes (fuel + 1) (NodeBody.Parent left right) =
      (nodes[left]?).bind (fun ln =>
        (nodes[right]?).bind (fun rn =>
          (build_snapshot buffer nodes fuel ln.body).bind (fun ls =>
            (build_snapshot buffer nodes fuel rn.body).bind (fun rs =>
              some (ls ++ rs))))) := rfl

/-- A successful `build_snapshot` is stable under giving more fuel. -/
theorem build_snapshot_fuel_mono {buffer : List Char} {nodes : List Node} :
    ∀ {fuel fuel' : Nat}, fuel ≤ fuel' → ∀ {body : NodeBody} {t : List Char},
      build_snapshot buffer nodes fuel body = some t →
      build_snapshot buffer nodes fuel' body = some t := by
  intro fuel
  induction fuel with
  | zero => intro fuel' _ body t h; rw [build_snapshot_zero] at h; cases h
  | succ fuel ih =>
      intro fuel' hle body t h
      cases fuel' with
      | zero => omega
      | succ fuel' =>
          cases body with
          | Leaf segment => exact h
          | Parent left right =>
              rw [build_snapshot_parent] at h ⊢
              simp only [Option.bind_eq_some, Option.some.injEq] at h ⊢
              obtain ⟨ln, hl, rn, hr, ls, hls, rs, hrs, hpure⟩ := h
              exact ⟨ln, hl, rn, hr, ls, ih (by omega) hls, rs, ih (by omega) hrs, hpure⟩

/-- A successful `build_snapshot` is stable under appending to the buffer
and to the node arena. -/
theorem build_snapshot_append_ext {buffer : List Char} {nodes : List Node}
    (extb : List Char) (extn : List Node) :
    ∀ {fuel : Nat} {body : NodeBody} {t : List Char},
      build_snapshot buffer nodes fuel body = some t →
      build_snapshot (buffer ++ extb) (nodes ++ extn) fuel body = some t := by
  intro fuel
  induction fuel with
  | zero => intro body t h; rw [build_snapshot_zero] at h; cases h
  | succ fuel ih =>
      intro body t h
      cases body with
      | Leaf segment =>
          rw [build_snapshot_leaf] at h ⊢
          unfold BytesSegment.as_str at h ⊢
          exact sliceStr_append_ext extb h
      | Parent left right =>
          rw [build_snapshot_parent] at h ⊢
          simp only [Option.bind_eq_some, Option.some.injEq] at h ⊢
          obtain ⟨ln, hl, rn, hr, ls, hls, rs, hrs, hpure⟩ := h
          refine ⟨ln, ?_, rn, ?_, ls, ih hls, rs, ih hrs, hpure⟩
          · rw [List.getElem?_append_left (List.getElem?_eq_some.mp hl).1]; exact hl
          · rw [List.getElem?_append_left (List.getElem?_eq_some.mp hr).1]; exact hr

theorem NodeWFAt_ext {bufLen bufLen' : Nat} {nodes : List Node} {i : Nat} {node : Node}
    (h : NodeWFAt bufLen nodes i node) (hle : bufLen ≤ bufLen') (ext : List Node) :
    NodeWFAt bufLen' (nodes ++ ext) i node := by
  unfold NodeWFAt at h ⊢
  cases hb : node.body with
  | Leaf seg =>
      rw [hb] at h
      exact ⟨h.1, by omega, h.2.2⟩
  | Parent l r =>
      rw [hb] at h
      obtain ⟨hl, hr, ln, rn, hln, hrn, hsum⟩ := h
      refine ⟨hl, hr, ln, rn, ?_, ?_, hsum⟩
      · rw [List.getElem?_append_left (List.getElem?_eq_some.mp hln).1]; exact hln
      · rw [List.getElem?_append_left (List.getElem?_eq_some.mp hrn).1]; exact hrn

/-- Appending well-formed entries to a well-formed arena keeps it
well-formed. -/
theorem NodesWF_ext {bufLen bufLen' : Nat} {nodes ext : List Node}
    (h : NodesWF bufLen nodes) (hle : bufLen ≤ bufLen')
    (hext : ∀ j node, ext[j]? = some node →
      NodeWFAt bufLen' (nodes ++ ext) (nodes.length + j) node) :
    NodesWF bufLen' (nodes ++ ext) := by
  intro i node hi
  by_cases hlt : i < nodes.length
  · rw [List.getElem?_append_left hlt] at hi
    exact NodeWFAt_ext (h i node hi) hle ext
  · rw [List.getElem?_append_right (by omega)] at hi
    have := hext (i - nodes.length) node hi
    have heq : nodes.length + (i - nodes.length) = i := by omega
    rwa [heq] at this

theorem snapshot_at_def (s : RopePersistentString) (v : Nat) :
    snapshot_at s v =
      (s.versions[v]?).bind (fun address =>
        (s.nodes[address]?).bind (fun node =>
          build_snapshot s.buffer s.nodes s.nodes.length node.body)) := rfl

theorem snapshot_eq_snapshot_at (s : RopePersistentString) :
    snapshot s = snapshot_at s s.current_version := rfl

/-- `snapshot_at` transfers along any state extension. -/
theorem snapshot_at_ext {s s' : RopePersistentString} {extb : List Char}
    {extn : List Node} {extv : List Nat}
    (hbuf : s'.buffer = s.buffer ++ extb) (hnodes : s'.nodes = s.nodes ++ extn)
    (hver : s'.versions = s.versions ++ extv)
    {v : Nat} (hv : v < s.versions.length) {t : List Char}
    (h : snapshot_at s v = some t) : snapshot_at s' v = some t := by
  rw [snapshot_at_def] at h ⊢
  simp only [Option.bind_eq_some] at h ⊢
  obtain ⟨address, ha, node, hn, hb⟩ := h
  refine ⟨address, ?_, node, ?_, ?_⟩
  · rw [hver, List.getElem?_append_left hv]; exact ha
  · rw [hnodes, List.getElem?_append_left (List.getElem?_eq_some.mp hn).1]; exact hn
  · rw [hbuf, hnodes]
    refine build_snapshot_fuel_mono ?_ (build_snapshot_append_ext extb extn hb)
    rw [List.length_append]
    omega

/-- The initial state is well-formed. -/
theorem new_WF : WF new := by
  refine ⟨?_, rfl, by decide, ?_⟩
  · intro i node hi
    have hlt : i < 1 := (List.getElem?_eq_some.mp hi).1
    interval_cases i
    simp only [new, List.getElem?_cons_zero, Option.some.injEq] at hi
    simp [← hi, NodeWFAt, BytesSegment.EMPTY, BytesSegment.len]
  · intro v a hv
    have hlt : v < 1 := by
      have := (List.getElem?_eq_some.mp hv).1
      simpa [new] using this
    interval_cases v
    simp only [new, List.getElem?_cons_zero, Option.some.injEq] at hv
    simp [new, ← hv]

end RopePersistentString

namespace RopePersistentString

theorem NodeWFAt_mono {bufLen bufLen' : Nat} {nodes : List Node} {i : Nat} {node : Node}
    (h : NodeWFAt bufLen nodes i node) (hle : bufLen ≤ bufLen') :
    NodeWFAt bufLen' nodes i node := by
  unfold NodeWFAt at h ⊢
  cases hb : node.body with
  | Leaf seg => rw [hb] at h; exact ⟨h.1, by omega, h.2.2⟩
  | Parent l r => rw [hb] at h; exact h

theorem NodesWF_mono {bufLen bufLen' : Nat} {nodes : List Node}
    (h : NodesWF bufLen nodes) (hle : bufLen ≤ bufLen') : NodesWF bufLen' nodes :=
  fun i node hi => NodeWFAt_mono (h i node hi) hle

/-- Under the invariant, `push` succeeds and its effect is the two-node
append described here. -/
theorem push_spec {s : RopePersistentString} (hwf : WF s) (c : Char) :
    ∃ (address : Nat) (current_node : Node),
      s.versions[s.current_version]? = some address ∧
      s.nodes[address]? = some current_node ∧
      push s c = some
        { buffer := s.buffer ++ [c]
          nodes := s.nodes ++
            [⟨c.utf8Size, NodeBody.Leaf ⟨utf8Len s.buffer, utf8Len s.buffer + c.utf8Size⟩⟩,
             ⟨current_node.length + c.utf8Size, NodeBody.Parent address s.nodes.length⟩]
          versions := s.versions ++ [s.nodes.length + 1]
          current_version := s.versions.length } := by
  obtain ⟨address, haddr⟩ : ∃ a, s.versions[s.current_version]? = some a :=
    ⟨_, List.getElem?_eq_getElem hwf.current_lt⟩
  have hlt : address < s.nodes.length := hwf.versions_lt _ _ haddr
  obtain ⟨current_node, hnode⟩ : ∃ n, s.nodes[address]? = some n :=
    ⟨_, List.getElem?_eq_getElem hlt⟩
  refine ⟨address, current_node, haddr, hnode, ?_⟩
  unfold push
  rw [haddr]
  simp only [Option.bind_eq_bind, Option.some_bind]
  rw [List.getElem?_append_left hlt, hnode]
  simp only [Option.some_bind, Option.pure_def, Option.some.injEq,
    BytesSegment.non_empty_of_length]
  congr 1 <;> simp [List.length_append]

/-- Under the invariant, `push_str` succeeds; its effect depends on whether
the suffix is empty and whether the current root is the empty node. -/
theorem push_str_spec {s : RopePersistentString} (hwf : WF s) (suffix : List Char) :
    ∃ (address : Nat),
      s.versions[s.current_version]? = some address ∧
      ((suffix = [] ∧
        push_str s suffix = some
          { s with versions := s.versions ++ [address],
                   current_version := s.versions.length }) ∨
       (suffix ≠ [] ∧ address = 0 ∧
        push_str s suffix = some
          { buffer := s.buffer ++ suffix
            nodes := s.nodes ++
              [⟨utf8Len suffix,
                NodeBody.Leaf ⟨utf8Len s.buffer, utf8Len s.buffer + utf8Len suffix⟩⟩]
            versions := s.versions ++ [s.nodes.length]
            current_version := s.versions.length }) ∨
       (suffix ≠ [] ∧ address ≠ 0 ∧
        ∃ current_node, s.nodes[address]? = some current_node ∧
        push_str s suffix = some
          { buffer := s.buffer ++ suffix
            nodes := s.nodes ++
              [⟨utf8Len suffix,
                NodeBody.Leaf ⟨utf8Len s.buffer, utf8Len s.buffer + utf8Len suffix⟩⟩,
               ⟨current_node.length + utf8Len suffix,
                NodeBody.Parent address s.nodes.length⟩]
            versions := s.versions ++ [s.nodes.length + 1]
            current_version := s.versions.length })) := by
  obtain ⟨address, haddr⟩ : ∃ a, s.versions[s.current_version]? = some a :=
    ⟨_, List.getElem?_eq_getElem hwf.current_lt⟩
  have hlt : address < s.nodes.length := hwf.versions_lt _ _ haddr
  refine ⟨address, haddr, ?_⟩
  by_cases hsuf : suffix = []
  · left
    refine ⟨hsuf, ?_⟩
    unfold push_str
    rw [haddr]
    subst hsuf
    simp [utf8Len]
  · have hne : utf8Len suffix ≠ 0 := fun h => hsuf (utf8Len_eq_zero h)
    by_cases hzero : address = 0
    · right; left
      refine ⟨hsuf, hzero, ?_⟩
      unfold push_str
      rw [haddr]
      simp only [Option.bind_eq_bind, Option.some_bind, if_neg hne, hzero,
        BytesSegment.non_empty_of_length, Option.pure_def]
      simp
    · right; right
      obtain ⟨current_node, hnode⟩ : ∃ n, s.nodes[address]? = some n :=
        ⟨_, List.getElem?_eq_getElem hlt⟩
      refine ⟨hsuf, hzero, current_node, hnode, ?_⟩
      unfold push_str
      rw [haddr]
      simp only [Option.bind_eq_bind, Option.some_bind, if_neg hne, if_neg hzero]
      rw [List.getElem?_append_left hlt, hnode]
      simp only [Option.some_bind, Option.pure_def, Option.some.injEq,
        BytesSegment.non_empty_of_length]
      congr 1 <;> simp [List.length_append]

end RopePersistentString


namespace RopePersistentString

theorem pop_rec_leaf (buffer : List Char) (fuel : Nat) (nodes : List Node)
    (L : Nat) (segment : BytesSegment) :
    pop_nonempty_recursively buffer (fuel + 1) nodes ⟨L, NodeBody.Leaf segment⟩ =
      (segment.as_str buffer).bind (fun str =>
        (str.getLast?).bind (fun last_char =>
          if segment.len - last_char.utf8Size = 0 then some (nodes, 0, last_char)
          else
            some
              (nodes ++
                [⟨segment.len - last_char.utf8Size,
                  NodeBody.Leaf ⟨segment.begin, segment.stop - last_char.utf8Size⟩⟩],
                nodes.length, last_char))) := rfl

theorem pop_rec_parent (buffer : List Char) (fuel : Nat) (nodes : List Node)
    (L left right : Nat) :
    pop_nonempty_recursively buffer (fuel + 1) nodes ⟨L, NodeBody.Parent left right⟩ =
      (nodes[right]?).bind (fun right_node =>
        (pop_nonempty_recursively buffer fuel nodes right_node).bind (fun r =>
          match r.2.1 with
          | 0 => some (r.1, left, r.2.2)
          | _ =>
              some
                (r.1 ++ [⟨L - r.2.2.utf8Size, NodeBody.Parent left r.2.1⟩],
                  r.1.length, r.2.2))) := rfl

/-- Structural specification of `pop_nonempty_recursively`: under the
invariant it only appends to the arena, preserves the invariant, pops at
most the byte length of the subtree, and returns either address `0` (the
whole subtree vanished) or the address of a node of the reduced length. -/
theorem pop_rec_spec {buffer : List Char} :
    ∀ {fuel : Nat} {nodes : List Node} {node : Node} {a : Nat},
      NodesWF (utf8Len buffer) nodes →
      nodes[0]? = some ⟨0, NodeBody.Leaf BytesSegment.EMPTY⟩ →
      NodeWFAt (utf8Len buffer) nodes a node →
      a < fuel →
      ∀ {nodes' : List Node} {addr' : Nat} {popped : Char},
        pop_nonempty_recursively buffer fuel nodes node = some (nodes', addr', popped) →
        (∃ ext, nodes' = nodes ++ ext) ∧
        NodesWF (utf8Len buffer) nodes' ∧
        popped.utf8Size ≤ node.length ∧
        (addr' = 0 → popped.utf8Size = node.length) ∧
        (addr' ≠ 0 → ∃ n', nodes'[addr']? = some n' ∧
          n'.length = node.length - popped.utf8Size) := by
  intro fuel
  induction fuel with
  | zero => intro nodes node a _ _ _ ha; omega
  | succ fuel ih =>
      intro nodes node a hwf hzero hnodewf ha nodes' addr' popped h
      obtain ⟨L, body⟩ := node
      cases body with
      | Leaf segment =>
          rw [pop_rec_leaf] at h
          cases hstr : segment.as_str buffer with
          | none => rw [hstr] at h; cases h
          | some str =>
              rw [hstr] at h
              simp only [Option.some_bind] at h
              cases hlast : str.getLast? with
              | none => rw [hlast] at h; cases h
              | some last_char =>
                  rw [hlast] at h
                  simp only [Option.some_bind] at h
                  unfold NodeWFAt at hnodewf
                  obtain ⟨hbs, hsb, hL⟩ := hnodewf
                  replace hL : L = segment.stop - segment.begin := hL
                  unfold BytesSegment.as_str at hstr
                  have hslen : utf8Len str = segment.stop - segment.begin :=
                    (sliceStr_some_utf8Len hstr).2
                  have hseglen : segment.len = segment.stop - segment.begin := rfl
                  obtain ⟨init, hinit⟩ := List.getLast?_eq_some_iff.mp hlast
                  have hstrlen : utf8Len str = utf8Len init + last_char.utf8Size := by
                    rw [hinit, utf8Len_append]
                    simp [utf8Len]
                  have hsize : last_char.utf8Size ≤ segment.len := by
                    unfold BytesSegment.len
                    omega
                  by_cases hzerolen : segment.len - last_char.utf8Size = 0
                  · rw [if_pos hzerolen] at h
                    simp only [Option.some.injEq, Prod.mk.injEq] at h
                    obtain ⟨h1, h2, h3⟩ := h
                    subst h1; subst h2; subst h3
                    refine ⟨⟨[], by simp⟩, hwf, ?_, fun _ => ?_, fun hc => absurd rfl hc⟩
                    · show last_char.utf8Size ≤ L
                      rw [hL]
                      omega
                    · show last_char.utf8Size = L
                      rw [hL]
                      unfold BytesSegment.len at hzerolen hsize
                      omega
                  · rw [if_neg hzerolen] at h
                    simp only [Option.some.injEq, Prod.mk.injEq] at h
                    obtain ⟨h1, h2, h3⟩ := h
                    subst h1; subst h2; subst h3
                    have hlen0 : 0 < nodes.length := (List.getElem?_eq_some.mp hzero).1
                    refine ⟨⟨_, rfl⟩, ?_, ?_, ?_, ?_⟩
                    · refine NodesWF_ext hwf (Nat.le_refl _) ?_
                      intro j nd hj
                      have hj1 : j < 1 := (List.getElem?_eq_some.mp hj).1
                      interval_cases j
                      simp only [List.getElem?_cons_zero, Option.some.injEq] at hj
                      rw [Nat.add_zero, ← hj]
                      simp only [NodeWFAt, BytesSegment.len]
                      unfold BytesSegment.len at hzerolen hsize
                      refine ⟨by omega, by omega, by omega⟩
                    · simp only []
                      unfold BytesSegment.len at hsize
                      omega
                    · intro habs
                      omega
                    · intro _
                      refine ⟨⟨segment.len - last_char.utf8Size,
                        NodeBody.Leaf ⟨segment.begin, segment.stop - last_char.utf8Size⟩⟩,
                        by simp, ?_⟩
                      show segment.len - last_char.utf8Size = L - last_char.utf8Size
                      unfold BytesSegment.len at hzerolen hsize ⊢
                      omega
      | Parent left right =>
          rw [pop_rec_parent] at h
          unfold NodeWFAt at hnodewf
          obtain ⟨hl, hr, ln, rn, hln, hrn, hsum⟩ := hnodewf
          rw [hrn] at h
          simp only [Option.some_bind] at h
          cases hrec : pop_nonempty_recursively buffer fuel nodes rn with
          | none => rw [hrec] at h; cases h
          | some r =>
              rw [hrec] at h
              simp only [Option.some_bind] at h
              obtain ⟨nodes₁, new_right, popped₁⟩ := r
              have hrnwf : NodeWFAt (utf8Len buffer) nodes right rn := hwf right rn hrn
              obtain ⟨⟨ext, hext⟩, hwf₁, hple, haddrzero, haddrnonzero⟩ :=
                ih hwf hzero hrnwf (by omega) hrec
              have hlnlt : left < nodes.length := (List.getElem?_eq_some.mp hln).1
              replace hsum : L = ln.length + rn.length := hsum
              cases new_right with
              | zero =>
                  replace h : some (nodes₁, left, popped₁) =
                      some (nodes', addr', popped) := h
                  simp only [Option.some.injEq, Prod.mk.injEq] at h
                  obtain ⟨h1, h2, h3⟩ := h
                  subst h1; subst h2; subst h3
                  have hpopped : popped₁.utf8Size = rn.length := haddrzero rfl
                  refine ⟨⟨ext, hext⟩, hwf₁, ?_, ?_, ?_⟩
                  · show popped₁.utf8Size ≤ L
                    omega
                  · intro hleft0
                    subst hleft0
                    rw [hzero] at hln
                    have hlneq : ln = ⟨0, NodeBody.Leaf BytesSegment.EMPTY⟩ := by
                      simpa using hln.symm
                    subst hlneq
                    show popped₁.utf8Size = L
                    simp only [] at hsum
                    omega
                  · intro _
                    refine ⟨ln, ?_, ?_⟩
                    · rw [hext, List.getElem?_append_left hlnlt]
                      exact hln
                    · show ln.length = L - popped₁.utf8Size
                      omega
              | succ k =>
                  replace h : some
                      (nodes₁ ++ [⟨L - popped₁.utf8Size, NodeBody.Parent left (k + 1)⟩],
                        nodes₁.length, popped₁) =
                      some (nodes', addr', popped) := h
                  simp only [Option.some.injEq, Prod.mk.injEq] at h
                  obtain ⟨h1, h2, h3⟩ := h
                  subst h1; subst h2; subst h3
                  obtain ⟨n₁, hn₁, hn₁len⟩ := haddrnonzero (by omega)
                  have hn₁lt : k + 1 < nodes₁.length := (List.getElem?_eq_some.mp hn₁).1
                  have hlen1 : nodes.length ≤ nodes₁.length := by
                    rw [hext, List.length_append]
                    omega
                  refine ⟨⟨ext ++ [⟨L - popped₁.utf8Size, NodeBody.Parent left (k + 1)⟩],
                    by rw [hext]; simp⟩, ?_, ?_, ?_, ?_⟩
                  · refine NodesWF_ext hwf₁ (Nat.le_refl _) ?_
                    intro j nd hj
                    have hj1 : j < 1 := (List.getElem?_eq_some.mp hj).1
                    interval_cases j
                    simp only [List.getElem?_cons_zero, Option.some.injEq] at hj
                    rw [Nat.add_zero, ← hj]
                    unfold NodeWFAt
                    refine ⟨by omega, by omega, ln, n₁, ?_, ?_, ?_⟩
                    · rw [List.getElem?_append_left (by omega : left < nodes₁.length)]
                      rw [hext, List.getElem?_append_left hlnlt]
                      exact hln
                    · rw [List.getElem?_append_left hn₁lt]
                      exact hn₁
                    · show L - popped₁.utf8Size = ln.length + n₁.length
                      omega
                  · show popped₁.utf8Size ≤ L
                    omega
                  · intro habs
                    have : 0 < nodes₁.length := by omega
                    omega
                  · intro _
                    refine ⟨⟨L - popped₁.utf8Size, NodeBody.Parent left (k + 1)⟩, by simp, ?_⟩
                    show L - popped₁.utf8Size = L - popped₁.utf8Size
                    rfl

end RopePersistentString

/-- Lookup in a list extended by one element. -/
theorem getElem?_append_singleton {α : Type} {l : List α} {x a : α} {i : Nat}
    (h : (l ++ [x])[i]? = some a) : l[i]? = some a ∨ a = x := by
  by_cases hi : i < l.length
  · left
    rw [List.getElem?_append_left hi] at h
    exact h
  · right
    rw [List.getElem?_append_right (by omega)] at h
    have hlt := (List.getElem?_eq_some.mp h).1
    simp only [List.length_cons, List.length_nil] at hlt
    have : i - l.length = 0 := by omega
    rw [this] at h
    simpa using h.symm

namespace RopePersistentString

theorem pop_def (s : RopePersistentString) :
    pop s =
      (s.versions[s.current_version]?).bind (fun address =>
        (s.nodes[address]?).bind (fun node =>
          if node.length = 0 then some (none, s)
          else
            (pop_nonempty_recursively s.buffer s.nodes.length s.nodes node).bind (fun r =>
              some (some r.2.2,
                { s with
                    nodes := r.1
                    versions := s.versions ++ [r.2.1]
                    current_version := s.versions.length })))) := rfl

/-- Under the invariant, a successful `pop` preserves the invariant and only
extends the state. -/
theorem pop_spec {s : RopePersistentString} (hwf : WF s) {res : Option Char}
    {s' : RopePersistentString} (h : pop s = some (res, s')) :
    WF s' ∧ (∃ eb, s'.buffer = s.buffer ++ eb) ∧ (∃ en, s'.nodes = s.nodes ++ en) ∧
      (∃ ev, s'.versions = s.versions ++ ev) := by
  rw [pop_def] at h
  obtain ⟨address, haddr⟩ : ∃ a, s.versions[s.current_version]? = some a :=
    ⟨_, List.getElem?_eq_getElem hwf.current_lt⟩
  have hlt : address < s.nodes.length := hwf.versions_lt _ _ haddr
  obtain ⟨node, hnode⟩ : ∃ n, s.nodes[address]? = some n :=
    ⟨_, List.getElem?_eq_getElem hlt⟩
  rw [haddr] at h
  simp only [Option.some_bind] at h
  rw [hnode] at h
  simp only [Option.some_bind] at h
  by_cases hlen : node.length = 0
  · rw [if_pos hlen] at h
    simp only [Option.some.injEq, Prod.mk.injEq] at h
    obtain ⟨_, h2⟩ := h
    subst h2
    exact ⟨hwf, ⟨[], by simp⟩, ⟨[], by simp⟩, ⟨[], by simp⟩⟩
  · rw [if_neg hlen] at h
    cases hrec : pop_nonempty_recursively s.buffer s.nodes.length s.nodes node with
    | none => rw [hrec] at h; cases h
    | some r =>
        rw [hrec] at h
        simp only [Option.some_bind, Option.some.injEq, Prod.mk.injEq] at h
        obtain ⟨nodes₁, new_root, popped₁⟩ := r
        obtain ⟨h1, h2⟩ := h
        subst h2
        obtain ⟨⟨ext, hext⟩, hwf₁, _, hzero', hnonzero'⟩ :=
          pop_rec_spec hwf.nodes_wf hwf.node_zero (hwf.nodes_wf _ _ hnode) hlt hrec
        have hn0 : 0 < s.nodes.length := (List.getElem?_eq_some.mp hwf.node_zero).1
        refine ⟨⟨hwf₁, ?_, ?_, ?_⟩, ⟨[], by simp⟩, ⟨ext, hext⟩, ⟨[new_root], rfl⟩⟩
        · show nodes₁[0]? = _
          rw [hext, List.getElem?_append_left hn0]
          exact hwf.node_zero
        · show s.versions.length < (s.versions ++ [new_root]).length
          simp
        · intro v a hv
          show a < nodes₁.length
          have hlen1 : s.nodes.length ≤ nodes₁.length := by
            rw [hext, List.length_append]; omega
          rcases getElem?_append_singleton hv with hv' | hv'
          · have := hwf.versions_lt _ _ hv'
            omega
          · subst hv'
            by_cases hz : a = 0
            · omega
            · obtain ⟨n', hn', _⟩ := hnonzero' hz
              exact (List.getElem?_eq_some.mp hn').1

end RopePersistentString

namespace RopePersistentString

/-- A successful `build_snapshot` is stable under appending to the arena. -/
theorem build_snapshot_nodes_ext {buffer : List Char} {nodes : List Node}
    (extn : List Node) {fuel : Nat} {body : NodeBody} {t : List Char}
    (h : build_snapshot buffer nodes fuel body = some t) :
    build_snapshot buffer (nodes ++ extn) fuel body = some t := by
  have := build_snapshot_append_ext [] extn h
  rwa [List.append_nil] at this

/-- Specification of the left-leaning spine built by `repeat`: each
iteration appends one parent sharing the single child node. -/
theorem repeat_spine_spec {buffer : List Char} {cur : Nat} {curNode : Node}
    {tcur : List Char} :
    ∀ (iters : Nat) (nodes : List Node) (top topLen : Nat) (topNode : Node)
      (ttop : List Char),
      NodesWF (utf8Len buffer) nodes →
      nodes[cur]? = some curNode →
      nodes[top]? = some topNode →
      topNode.length = topLen →
      build_snapshot buffer nodes nodes.length curNode.body = some tcur →
      build_snapshot buffer nodes nodes.length topNode.body = some ttop →
      ∀ {nodes' : List Node} {top' : Nat},
        repeat_spine cur curNode.length nodes top topLen iters = (nodes', top') →
        (∃ ext, nodes' = nodes ++ ext) ∧ NodesWF (utf8Len buffer) nodes' ∧
        ∃ topNode', nodes'[top']? = some topNode' ∧
          topNode'.length = topLen + iters * curNode.length ∧
          build_snapshot buffer nodes' nodes'.length topNode'.body =
            some (ttop ++ (List.replicate iters tcur).flatten) := by
  intro iters
  induction iters with
  | zero =>
      intro nodes top topLen topNode ttop hwf hcur htop htoplen hbcur hbtop nodes2 top2 h
      unfold repeat_spine at h
      simp only [Prod.mk.injEq] at h
      obtain ⟨h1, h2⟩ := h
      subst h1; subst h2
      refine ⟨⟨[], by simp⟩, hwf, topNode, htop, by omega, by simpa using hbtop⟩
  | succ iters ih =>
      intro nodes top topLen topNode ttop hwf hcur htop htoplen hbcur hbtop nodes2 top2 h
      unfold repeat_spine at h
      have hcurlt : cur < nodes.length := (List.getElem?_eq_some.mp hcur).1
      have htoplt : top < nodes.length := (List.getElem?_eq_some.mp htop).1
      set p : Node :=
        ⟨topLen + curNode.length, NodeBody.Parent top cur⟩ with hp
      have hplook : (nodes ++ [p])[nodes.length]? = some p := by simp
      have hcur' : (nodes ++ [p])[cur]? = some curNode := by
        rw [List.getElem?_append_left hcurlt]; exact hcur
      have htop' : (nodes ++ [p])[top]? = some topNode := by
        rw [List.getElem?_append_left htoplt]; exact htop
      have hwf' : NodesWF (utf8Len buffer) (nodes ++ [p]) := by
        refine NodesWF_ext hwf (Nat.le_refl _) ?_
        intro j nd hj
        have hj1 : j < 1 := (List.getElem?_eq_some.mp hj).1
        interval_cases j
        simp only [List.getElem?_cons_zero, Option.some.injEq] at hj
        rw [Nat.add_zero, ← hj, hp]
        unfold NodeWFAt
        refine ⟨htoplt, hcurlt, topNode, curNode, htop', hcur', ?_⟩
        show topLen + curNode.length = topNode.length + curNode.length
        omega
      have hlen' : (nodes ++ [p]).length = nodes.length + 1 := by simp
      have hbcur' :
          build_snapshot buffer (nodes ++ [p]) (nodes ++ [p]).length curNode.body =
            some tcur := by
        rw [hlen']
        exact build_snapshot_fuel_mono (by omega) (build_snapshot_nodes_ext [p] hbcur)
      have hbtop' :
          build_snapshot buffer (nodes ++ [p]) (nodes ++ [p]).length topNode.body =
            some ttop := by
        rw [hlen']
        exact build_snapshot_fuel_mono (by omega) (build_snapshot_nodes_ext [p] hbtop)
      have hbp :
          build_snapshot buffer (nodes ++ [p]) (nodes ++ [p]).length p.body =
            some (ttop ++ tcur) := by
        rw [hlen', hp]
        rw [build_snapshot_parent]
        rw [htop', hcur']
        simp only [Option.some_bind]
        rw [build_snapshot_nodes_ext [p] hbtop]
        simp only [Option.some_bind]
        rw [build_snapshot_nodes_ext [p] hbcur]
        simp only [Option.some_bind]
      obtain ⟨⟨ext, hext⟩, hwf'', topNode', hlook', hlen'', hbuild'⟩ :=
        ih (nodes ++ [p]) nodes.length (topLen + curNode.length) p (ttop ++ tcur)
          hwf' hcur' hplook rfl hbcur' hbp h
      refine ⟨⟨p :: ext, by rw [hext]; simp⟩, hwf'', topNode', hlook', ?_, ?_⟩
      · rw [hlen'']
        have : (iters + 1) * curNode.length = iters * curNode.length + curNode.length :=
          Nat.succ_mul iters curNode.length
        omega
      · rw [hbuild']
        congr 1
        rw [List.replicate_succ, List.flatten_cons, List.append_assoc]

end RopePersistentString

namespace RopePersistentString

/-- Structural part of the spine specification, with no assumption that the
snapshots of the involved nodes succeed. -/
theorem repeat_spine_struct {buffer : List Char} {cur : Nat} {curNode : Node} :
    ∀ (iters : Nat) (nodes : List Node) (top topLen : Nat) (topNode : Node),
      NodesWF (utf8Len buffer) nodes →
      nodes[cur]? = some curNode →
      nodes[top]? = some topNode →
      topNode.length = topLen →
      ∀ {nodes' : List Node} {top' : Nat},
        repeat_spine cur curNode.length nodes top topLen iters = (nodes', top') →
        (∃ ext, nodes' = nodes ++ ext) ∧ NodesWF (utf8Len buffer) nodes' ∧
        ∃ topNode', nodes'[top']? = some topNode' ∧
          topNode'.length = topLen + iters * curNode.length := by
  intro iters
  induction iters with
  | zero =>
      intro nodes top topLen topNode hwf hcur htop htoplen nodes2 top2 h
      unfold repeat_spine at h
      simp only [Prod.mk.injEq] at h
      obtain ⟨h1, h2⟩ := h
      subst h1; subst h2
      exact ⟨⟨[], by simp⟩, hwf, topNode, htop, by omega⟩
  | succ iters ih =>
      intro nodes top topLen topNode hwf hcur htop htoplen nodes2 top2 h
      unfold repeat_spine at h
      have hcurlt : cur < nodes.length := (List.getElem?_eq_some.mp hcur).1
      have htoplt : top < nodes.length := (List.getElem?_eq_some.mp htop).1
      set p : Node := ⟨topLen + curNode.length, NodeBody.Parent top cur⟩ with hp
      have hplook : (nodes ++ [p])[nodes.length]? = some p := by simp
      have hcur' : (nodes ++ [p])[cur]? = some curNode := by
        rw [List.getElem?_append_left hcurlt]; exact hcur
      have htop' : (nodes ++ [p])[top]? = some topNode := by
        rw [List.getElem?_append_left htoplt]; exact htop
      have hwf' : NodesWF (utf8Len buffer) (nodes ++ [p]) := by
        refine NodesWF_ext hwf (Nat.le_refl _) ?_
        intro j nd hj
        have hj1 : j < 1 := (List.getElem?_eq_some.mp hj).1
        interval_cases j
        simp only [List.getElem?_cons_zero, Option.some.injEq] at hj
        rw [Nat.add_zero, ← hj, hp]
        unfold NodeWFAt
        refine ⟨htoplt, hcurlt, topNode, curNode, htop', hcur', ?_⟩
        show topLen + curNode.length = topNode.length + curNode.length
        omega
      obtain ⟨⟨ext, hext⟩, hwf'', topNode', hlook', hlen''⟩ :=
        ih (nodes ++ [p]) nodes.length (topLen + curNode.length) p
          hwf' hcur' hplook rfl h
      refine ⟨⟨p :: ext, by rw [hext]; simp⟩, hwf'', topNode', hlook', ?_⟩
      rw [hlen'']
      have harith : (iters + 1) * curNode.length =
          iters * curNode.length + curNode.length := by ring
      omega

theorem repeatString_def (s : RopePersistentString) (times : Nat) :
    repeatString s times =
      (s.versions[s.current_version]?).bind (fun current_node_index =>
        if current_node_index = 0 then
          some { s with versions := s.versions ++ [0],
                        current_version := s.versions.length }
        else
          match times with
          | 0 => some { s with versions := s.versions ++ [0],
                               current_version := s.versions.length }
          | 1 => some { s with versions := s.versions ++ [current_node_index],
                               current_version := s.versions.length }
          | 2 =>
              (s.nodes[current_node_index]?).bind (fun node =>
                some
                  { s with
                      nodes := s.nodes ++
                        [⟨node.length * 2,
                          NodeBody.Parent current_node_index current_node_index⟩]
                      versions := s.versions ++ [s.nodes.length]
                      current_version := s.versions.length })
          | times =>
              (s.nodes[current_node_index]?).bind (fun node =>
                some
                  { s with
                      nodes := (repeat_spine current_node_index node.length s.nodes
                        current_node_index node.length (times - 1)).1
                      versions := s.versions ++
                        [(repeat_spine current_node_index node.length s.nodes
                          current_node_index node.length (times - 1)).2]
                      current_version := s.versions.length })) := rfl

end RopePersistentString

theorem flatten_replicate_nil {α : Type} : ∀ (n : Nat),
    (List.replicate n ([] : List α)).flatten = [] := by
  intro n
  induction n with
  | zero => rfl
  | succ n ih => rw [List.replicate_succ, List.flatten_cons, ih]; rfl

namespace RopePersistentString

/-- The slice of the canonical empty segment always succeeds and is empty. -/
theorem as_str_EMPTY (buffer : List Char) :
    BytesSegment.EMPTY.as_str buffer = some [] := by
  unfold BytesSegment.as_str BytesSegment.EMPTY sliceStr
  rw [if_pos (Nat.le_refl 0), charsDrop_zero]
  simp only [Option.some_bind, Nat.sub_self]
  exact charsTake_zero buffer

theorem build_snapshot_empty_leaf (buffer : List Char) (nodes : List Node)
    (fuel : Nat) (h : 0 < fuel) :
    build_snapshot buffer nodes fuel (NodeBody.Leaf BytesSegment.EMPTY) = some [] := by
  cases fuel with
  | zero => omega
  | succ f => rw [build_snapshot_leaf]; exact as_str_EMPTY buffer

/-- Full specification of `repeat` under the invariant: it always succeeds,
allocates exactly one version, multiplies the stored length, and repeats the
snapshot. -/
theorem repeat_spec {s : RopePersistentString} (hwf : WF s) (times : Nat) :
    ∃ s', repeatString s times = some s' ∧ WF s' ∧
      s'.buffer = s.buffer ∧
      (∃ en, s'.nodes = s.nodes ++ en) ∧
      (∃ r, s'.versions = s.versions ++ [r]) ∧
      s'.current_version = s.versions.length ∧
      (∀ L, len s = some L → len s' = some (times * L)) ∧
      (∀ t, snapshot s = some t →
        snapshot s' = some ((List.replicate times t).flatten)) := by
  obtain ⟨address, haddr⟩ : ∃ a, s.versions[s.current_version]? = some a :=
    ⟨_, List.getElem?_eq_getElem hwf.current_lt⟩
  have hlt : address < s.nodes.length := hwf.versions_lt _ _ haddr
  obtain ⟨node, hnode⟩ : ∃ n, s.nodes[address]? = some n :=
    ⟨_, List.getElem?_eq_getElem hlt⟩
  have hn0 : 0 < s.nodes.length := (List.getElem?_eq_some.mp hwf.node_zero).1
  have hlen_eq : len s = some node.length := by
    unfold len
    rw [haddr]
    simp only [Option.bind_eq_bind, Option.some_bind]
    rw [hnode]
    rfl
  have hsnap_eq : ∀ t, snapshot s = some t →
      build_snapshot s.buffer s.nodes s.nodes.length node.body = some t := by
    intro t ht
    unfold snapshot at ht
    rw [haddr] at ht
    simp only [Option.bind_eq_bind, Option.some_bind] at ht
    rw [hnode] at ht
    simpa using ht
  -- the common shape of the two branches that just push version 0
  have hzero_case : ∀ (s' : RopePersistentString),
      s' = { s with versions := s.versions ++ [0],
                    current_version := s.versions.length } →
      WF s' ∧ s'.buffer = s.buffer ∧
      (∃ en, s'.nodes = s.nodes ++ en) ∧
      (∃ r, s'.versions = s.versions ++ [r]) ∧
      s'.current_version = s.versions.length ∧
      len s' = some 0 ∧ snapshot s' = some [] := by
    intro s' hs'
    subst hs'
    refine ⟨⟨hwf.nodes_wf, hwf.node_zero, by simp, ?_⟩, rfl, ⟨[], by simp⟩,
      ⟨0, rfl⟩, rfl, ?_, ?_⟩
    · intro v a hv
      rcases getElem?_append_singleton hv with hv' | hv'
      · exact hwf.versions_lt _ _ hv'
      · subst hv'; exact hn0
    · unfold len
      simp only [Option.bind_eq_bind]
      rw [List.getElem?_append_right (Nat.le_refl _), Nat.sub_self]
      simp only [List.getElem?_cons_zero, Option.some_bind]
      rw [hwf.node_zero]
      rfl
    · unfold snapshot
      simp only [Option.bind_eq_bind]
      rw [List.getElem?_append_right (Nat.le_refl _), Nat.sub_self]
      simp only [List.getElem?_cons_zero, Option.some_bind]
      rw [hwf.node_zero]
      simp only [Option.some_bind]
      exact build_snapshot_empty_leaf s.buffer s.nodes s.nodes.length hn0
  rw [repeatString_def, haddr]
  simp only [Option.some_bind]
  by_cases hz : address = 0
  · rw [if_pos hz]
    have hnodeval : node = ⟨0, NodeBody.Leaf BytesSegment.EMPTY⟩ := by
      rw [hz] at hnode
      rw [hwf.node_zero] at hnode
      simpa using hnode.symm
    obtain ⟨hwf', hbuf, hnodes', hvers, hcur, hlen', hsnap'⟩ := hzero_case _ rfl
    refine ⟨_, rfl, hwf', hbuf, hnodes', hvers, hcur, ?_, ?_⟩
    · intro L hL
      rw [hlen_eq] at hL
      have : L = 0 := by
        rw [hnodeval] at hL
        simpa using hL.symm
      subst this
      simpa using hlen'
    · intro t ht
      have hb := hsnap_eq t ht
      rw [hnodeval] at hb
      have hb2 : build_snapshot s.buffer s.nodes s.nodes.length
          (NodeBody.Leaf BytesSegment.EMPTY) = some t := hb
      rw [build_snapshot_empty_leaf s.buffer s.nodes s.nodes.length hn0] at hb2
      injection hb2 with hb3
      rw [← hb3, flatten_replicate_nil]
      exact hsnap'
  · rw [if_neg hz]
    match times with
    | 0 =>
        obtain ⟨hwf', hbuf, hnodes', hvers, hcur, hlen', hsnap'⟩ := hzero_case _ rfl
        refine ⟨_, rfl, hwf', hbuf, hnodes', hvers, hcur, ?_, ?_⟩
        · intro L hL
          simpa using hlen'
        · intro t ht
          simpa using hsnap'
    | 1 =>
        refine ⟨_, rfl, ⟨hwf.nodes_wf, hwf.node_zero, by simp, ?_⟩, rfl,
          ⟨[], by simp⟩, ⟨address, rfl⟩, rfl, ?_, ?_⟩
        · intro v a hv
          rcases getElem?_append_singleton hv with hv' | hv'
          · exact hwf.versions_lt _ _ hv'
          · subst hv'; exact hlt
        · intro L hL
          rw [hlen_eq] at hL
          injection hL with hL
          unfold len
          simp only [Option.bind_eq_bind]
          rw [List.getElem?_append_right (Nat.le_refl _), Nat.sub_self]
          simp only [List.getElem?_cons_zero, Option.some_bind]
          rw [hnode]
          simp only [Option.some_bind]
          rw [← hL, Nat.one_mul]
          rfl
        · intro t ht
          have hb := hsnap_eq t ht
          unfold snapshot
          simp only [Option.bind_eq_bind]
          rw [List.getElem?_append_right (Nat.le_refl _), Nat.sub_self]
          simp only [List.getElem?_cons_zero, Option.some_bind]
          rw [hnode]
          simp only [Option.some_bind]
          rw [hb]
          simp
    | 2 =>
        rw [hnode]
        simp only [Option.some_bind]
        set p : Node :=
          ⟨node.length * 2, NodeBody.Parent address address⟩ with hp
        have hplook : (s.nodes ++ [p])[s.nodes.length]? = some p := by simp
        have hnode' : (s.nodes ++ [p])[address]? = some node := by
          rw [List.getElem?_append_left hlt]; exact hnode
        refine ⟨_, rfl, ⟨?_, ?_, by simp, ?_⟩, rfl, ⟨[p], rfl⟩,
          ⟨s.nodes.length, rfl⟩, rfl, ?_, ?_⟩
        · refine NodesWF_ext hwf.nodes_wf (Nat.le_refl _) ?_
          intro j nd hj
          have hj1 : j < 1 := (List.getElem?_eq_some.mp hj).1
          interval_cases j
          simp only [List.getElem?_cons_zero, Option.some.injEq] at hj
          rw [Nat.add_zero, ← hj, hp]
          unfold NodeWFAt
          refine ⟨hlt, hlt, node, node, hnode', hnode', ?_⟩
          show node.length * 2 = node.length + node.length
          omega
        · rw [List.getElem?_append_left hn0]
          exact hwf.node_zero
        · intro v a hv
          show a < (s.nodes ++ [p]).length
          simp only [List.length_append, List.length_cons, List.length_nil]
          rcases getElem?_append_singleton hv with hv' | hv'
          · have := hwf.versions_lt _ _ hv'
            omega
          · omega
        · intro L hL
          rw [hlen_eq] at hL
          injection hL with hL
          unfold len
          simp only [Option.bind_eq_bind]
          rw [List.getElem?_append_right (Nat.le_refl _), Nat.sub_self]
          simp only [List.getElem?_cons_zero, Option.some_bind]
          rw [hplook]
          simp only [Option.some_bind, Option.pure_def, Option.some.injEq, hp]
          show node.length * 2 = 2 * L
          omega
        · intro t ht
          have hb := hsnap_eq t ht
          unfold snapshot
          simp only [Option.bind_eq_bind]
          rw [List.getElem?_append_right (Nat.le_refl _), Nat.sub_self]
          simp only [List.getElem?_cons_zero, Option.some_bind]
          rw [hplook]
          simp only [Option.some_bind]
          have hlen1 : (s.nodes ++ [p]).length = s.nodes.length + 1 := by simp
          rw [hlen1]
          show build_snapshot s.buffer (s.nodes ++ [p]) (s.nodes.length + 1)
            (NodeBody.Parent address address) =
            some ((List.replicate 2 t).flatten)
          rw [build_snapshot_parent, hnode']
          simp only [Option.some_bind]
          rw [build_snapshot_nodes_ext [p] hb]
          simp only [Option.some_bind]
          simp [List.replicate_succ]
    | (k + 3) =>
        rw [hnode]
        simp only [Option.some_bind]
        simp only [show k + 3 - 1 = k + 2 from rfl]
        have hstruct := repeat_spine_struct (k + 2) s.nodes address node.length node
          hwf.nodes_wf hnode hnode rfl
          (show repeat_spine address node.length s.nodes address node.length
              (k + 2) =
            ((repeat_spine address node.length s.nodes address node.length
              (k + 2)).1,
             (repeat_spine address node.length s.nodes address node.length
              (k + 2)).2) from rfl)
        obtain ⟨⟨ext, hext⟩, hwf₁, topNode', hlook', hlen'⟩ := hstruct
        have hlenext : s.nodes.length ≤
            ((repeat_spine address node.length s.nodes address node.length
              (k + 2)).1).length := by
          rw [hext, List.length_append]; omega
        refine ⟨_, rfl, ⟨hwf₁, ?_, by simp, ?_⟩, rfl, ⟨ext, hext⟩,
          ⟨_, rfl⟩, rfl, ?_, ?_⟩
        · rw [hext, List.getElem?_append_left hn0]
          exact hwf.node_zero
        · intro v a hv
          show a < ((repeat_spine address node.length s.nodes address node.length
            (k + 2)).1).length
          rcases getElem?_append_singleton hv with hv' | hv'
          · have := hwf.versions_lt _ _ hv'
            omega
          · subst hv'
            exact (List.getElem?_eq_some.mp hlook').1
        · intro L hL
          rw [hlen_eq] at hL
          injection hL with hL
          unfold len
          simp only [Option.bind_eq_bind]
          rw [List.getElem?_append_right (Nat.le_refl _), Nat.sub_self]
          simp only [List.getElem?_cons_zero, Option.some_bind]
          rw [hlook']
          simp only [Option.some_bind, Option.pure_def, Option.some.injEq]
          rw [hlen', ← hL]
          have harith : (k + 3) * node.length =
              node.length + (k + 2) * node.length := by ring
          omega
        · intro t ht
          have hb := hsnap_eq t ht
          have hspec := repeat_spine_spec (k + 2) s.nodes address node.length node
            t hwf.nodes_wf hnode hnode rfl hb hb
            (show repeat_spine address node.length s.nodes address node.length
                (k + 2) =
              ((repeat_spine address node.length s.nodes address node.length
                (k + 2)).1,
               (repeat_spine address node.length s.nodes address node.length
                (k + 2)).2) from rfl)
          obtain ⟨_, _, topNode'', hlook'', _, hbuild''⟩ := hspec
          have hsame : topNode'' = topNode' := by
            injection (hlook''.symm.trans hlook') with h
          unfold snapshot
          simp only [Option.bind_eq_bind]
          rw [List.getElem?_append_right (Nat.le_refl _), Nat.sub_self]
          simp only [List.getElem?_cons_zero, Option.some_bind]
          rw [hlook']
          simp only [Option.some_bind]
          rw [← hsame, hbuild'']
          congr 1

end RopePersistentString

namespace RopePersistentString

/-- Under the invariant, a successful snapshot of the node at address `a`
has exactly the cached byte length of that node. -/
theorem snap_len {buffer : List Char} {nodes : List Node}
    (hwf : NodesWF (utf8Len buffer) nodes) :
    ∀ {fuel a : Nat} {node : Node} {t : List Char},
      nodes[a]? = some node →
      build_snapshot buffer nodes fuel node.body = some t →
      utf8Len t = node.length := by
  intro fuel
  induction fuel with
  | zero =>
      intro a node t _ hb
      rw [build_snapshot_zero] at hb
      cases hb
  | succ fuel ih =>
      intro a node t hnode hb
      have hwfa := hwf a node hnode
      cases hbody : node.body with
      | Leaf segment =>
          rw [hbody] at hb
          rw [build_snapshot_leaf] at hb
          unfold BytesSegment.as_str at hb
          have := (sliceStr_some_utf8Len hb).2
          unfold NodeWFAt at hwfa
          rw [hbody] at hwfa
          rw [this, hwfa.2.2]
          rfl
      | Parent left right =>
          rw [hbody] at hb
          rw [build_snapshot_parent] at hb
          unfold NodeWFAt at hwfa
          rw [hbody] at hwfa
          obtain ⟨hl, hr, ln, rn, hln, hrn, hsum⟩ := hwfa
          rw [hln] at hb
          simp only [Option.some_bind] at hb
          rw [hrn] at hb
          simp only [Option.some_bind] at hb
          cases hls : build_snapshot buffer nodes fuel ln.body with
          | none => rw [hls] at hb; cases hb
          | some ls =>
              rw [hls] at hb
              simp only [Option.some_bind] at hb
              cases hrs : build_snapshot buffer nodes fuel rn.body with
              | none => rw [hrs] at hb; cases hb
              | some rs =>
                  rw [hrs] at hb
                  simp only [Option.some_bind, Option.some.injEq] at hb
                  rw [← hb, utf8Len_append, ih hln hls, ih hrn hrs, hsum]

theorem insert_rec_leaf (σ : BytesSegment) (fuel : Nat) (nodes : List Node)
    (L : Nat) (segment : BytesSegment) (a index : Nat) :
    insert_str_recursively σ (fuel + 1) nodes ⟨L, NodeBody.Leaf segment⟩ a index =
      (if index = 0 then
        some
          ((nodes ++ [Node.of_segment σ]) ++
            [(⟨L + σ.len, NodeBody.Parent nodes.length a⟩ : Node)],
            (nodes ++ [Node.of_segment σ]).length)
      else if index = segment.len then
        some
          ((nodes ++ [Node.of_segment σ]) ++
            [(⟨L + σ.len, NodeBody.Parent a nodes.length⟩ : Node)],
            (nodes ++ [Node.of_segment σ]).length)
      else
        some
          ((((nodes ++ [Node.of_segment σ] ++
                [Node.of_segment (segment.split_at index).1]) ++
                [Node.of_segment (segment.split_at index).2]) ++
              [(⟨(segment.split_at index).1.len + σ.len,
                NodeBody.Parent (nodes ++ [Node.of_segment σ]).length
                  nodes.length⟩ : Node)]) ++
            [(⟨segment.len + σ.len,
              NodeBody.Parent
                ((nodes ++ [Node.of_segment σ] ++
                  [Node.of_segment (segment.split_at index).1]) ++
                  [Node.of_segment (segment.split_at index).2]).length
                (nodes ++ [Node.of_segment σ] ++
                  [Node.of_segment (segment.split_at index).1]).length⟩ : Node)],
            ((((nodes ++ [Node.of_segment σ] ++
                [Node.of_segment (segment.split_at index).1]) ++
                [Node.of_segment (segment.split_at index).2]) ++
              [(⟨(segment.split_at index).1.len + σ.len,
                NodeBody.Parent (nodes ++ [Node.of_segment σ]).length
                  nodes.length⟩ : Node)])).length)) := rfl

theorem insert_rec_parent (σ : BytesSegment) (fuel : Nat) (nodes : List Node)
    (L : Nat) (left_address right_address a index : Nat) :
    insert_str_recursively σ (fuel + 1) nodes
      ⟨L, NodeBody.Parent left_address right_address⟩ a index =
      (nodes[left_address]?).bind (fun left_node =>
        if index ≤ left_node.length then
          (insert_str_recursively σ fuel nodes left_node left_address index).bind
            (fun r =>
              some
                (r.1 ++ [(⟨L + σ.len, NodeBody.Parent r.2 right_address⟩ : Node)],
                  r.1.length))
        else
          (nodes[right_address]?).bind (fun right_node =>
            (insert_str_recursively σ fuel nodes right_node right_address
              (index - left_node.length)).bind (fun r =>
                some
                  (r.1 ++ [(⟨L + σ.len, NodeBody.Parent left_address r.2⟩ : Node)],
                    r.1.length)))) := rfl

end RopePersistentString

/-- Lookup past the first list of an append. -/
theorem getElem?_append_list {α : Type} (l ext : List α) (j : Nat) :
    (l ++ ext)[l.length + j]? = ext[j]? := by
  rw [List.getElem?_append_right (by omega)]
  congr 1
  omega

namespace RopePersistentString

/-- Structural specification of `insert_str_recursively`: it only appends to
the arena, preserves the invariant, and returns the address of a node whose
byte length grew by the byte length of the insertion. -/
theorem insert_rec_struct {bufLen : Nat} {σ : BytesSegment}
    (hσb : σ.begin ≤ σ.stop) (hσe : σ.stop ≤ bufLen) :
    ∀ {fuel : Nat} {nodes : List Node} {node : Node} {a index : Nat},
      NodesWF bufLen nodes →
      nodes[a]? = some node →
      a < fuel →
      index ≤ node.length →
      ∀ {nodes' : List Node} {addr' : Nat},
        insert_str_recursively σ fuel nodes node a index = some (nodes', addr') →
        (∃ ext, nodes' = nodes ++ ext) ∧
        NodesWF bufLen nodes' ∧
        ∃ n', nodes'[addr']? = some n' ∧ n'.length = node.length + σ.len := by
  intro fuel
  induction fuel with
  | zero => intro nodes node a index _ _ ha; omega
  | succ fuel ih =>
      intro nodes node a index hwf hnode ha hidx nodes' addr' h
      have halt : a < nodes.length := (List.getElem?_eq_some.mp hnode).1
      obtain ⟨L, body⟩ := node
      cases body with
      | Leaf segment =>
          rw [insert_rec_leaf] at h
          have hwfa := hwf a _ hnode
          unfold NodeWFAt at hwfa
          obtain ⟨hbs, hsb, hL⟩ := hwfa
          replace hL : L = segment.stop - segment.begin := hL
          replace hidx : index ≤ L := hidx
          by_cases h0 : index = 0
          · rw [if_pos h0] at h
            simp only [Option.some.injEq, Prod.mk.injEq] at h
            obtain ⟨h1, h2⟩ := h
            subst h1; subst h2
            have hA : (nodes ++ [Node.of_segment σ]) ++
                [(⟨L + σ.len, NodeBody.Parent nodes.length a⟩ : Node)] =
                nodes ++ [Node.of_segment σ,
                  ⟨L + σ.len, NodeBody.Parent nodes.length a⟩] := by simp
            rw [hA]
            have hlook0 : (nodes ++ [Node.of_segment σ,
                ⟨L + σ.len, NodeBody.Parent nodes.length a⟩])[nodes.length]? =
                some (Node.of_segment σ) := by
              rw [show nodes.length = nodes.length + 0 from rfl, getElem?_append_list]
              rfl
            have hlooka : (nodes ++ [Node.of_segment σ,
                ⟨L + σ.len, NodeBody.Parent nodes.length a⟩])[a]? =
                some ⟨L, NodeBody.Leaf segment⟩ := by
              rw [List.getElem?_append_left halt]; exact hnode
            refine ⟨⟨_, rfl⟩, ?_, ?_⟩
            · refine NodesWF_ext hwf (Nat.le_refl _) ?_
              intro j nd hj
              have hj2 : j < 2 := by
                have := (List.getElem?_eq_some.mp hj).1
                simpa using this
              interval_cases j
              · simp only [List.getElem?_cons_zero, Option.some.injEq] at hj
                rw [Nat.add_zero, ← hj]
                unfold NodeWFAt Node.of_segment
                exact ⟨hσb, hσe, rfl⟩
              · simp only [List.getElem?_cons_succ, List.getElem?_cons_zero,
                  Option.some.injEq] at hj
                rw [← hj]
                unfold NodeWFAt
                refine ⟨by omega, by omega, _, _, hlook0, hlooka, ?_⟩
                show L + σ.len = (Node.of_segment σ).length + L
                unfold Node.of_segment
                show L + σ.len = σ.len + L
                omega
            · refine ⟨⟨L + σ.len, NodeBody.Parent nodes.length a⟩, ?_, rfl⟩
              have : (nodes ++ [Node.of_segment σ]).length = nodes.length + 1 := by
                simp
              rw [this, getElem?_append_list]
              rfl
          · by_cases hlen : index = segment.len
            · rw [if_neg h0, if_pos hlen] at h
              simp only [Option.some.injEq, Prod.mk.injEq] at h
              obtain ⟨h1, h2⟩ := h
              subst h1; subst h2
              have hA : (nodes ++ [Node.of_segment σ]) ++
                  [(⟨L + σ.len, NodeBody.Parent a nodes.length⟩ : Node)] =
                  nodes ++ [Node.of_segment σ,
                    ⟨L + σ.len, NodeBody.Parent a nodes.length⟩] := by simp
              rw [hA]
              have hlook0 : (nodes ++ [Node.of_segment σ,
                  ⟨L + σ.len, NodeBody.Parent a nodes.length⟩])[nodes.length]? =
                  some (Node.of_segment σ) := by
                rw [show nodes.length = nodes.length + 0 from rfl, getElem?_append_list]
                rfl
              have hlooka : (nodes ++ [Node.of_segment σ,
                  ⟨L + σ.len, NodeBody.Parent a nodes.length⟩])[a]? =
                  some ⟨L, NodeBody.Leaf segment⟩ := by
                rw [List.getElem?_append_left halt]; exact hnode
              refine ⟨⟨_, rfl⟩, ?_, ?_⟩
              · refine NodesWF_ext hwf (Nat.le_refl _) ?_
                intro j nd hj
                have hj2 : j < 2 := by
                  have := (List.getElem?_eq_some.mp hj).1
                  simpa using this
                interval_cases j
                · simp only [List.getElem?_cons_zero, Option.some.injEq] at hj
                  rw [Nat.add_zero, ← hj]
                  unfold NodeWFAt Node.of_segment
                  exact ⟨hσb, hσe, rfl⟩
                · simp only [List.getElem?_cons_succ, List.getElem?_cons_zero,
                    Option.some.injEq] at hj
                  rw [← hj]
                  unfold NodeWFAt
                  refine ⟨by omega, by omega, _, _, hlooka, hlook0, ?_⟩
                  show L + σ.len = L + (Node.of_segment σ).length
                  rfl
              · refine ⟨⟨L + σ.len, NodeBody.Parent a nodes.length⟩, ?_, rfl⟩
                have : (nodes ++ [Node.of_segment σ]).length = nodes.length + 1 := by
                  simp
                rw [this, getElem?_append_list]
                rfl
            · rw [if_neg h0, if_neg hlen] at h
              simp only [Option.some.injEq, Prod.mk.injEq] at h
              obtain ⟨h1, h2⟩ := h
              have hseglen : segment.len = segment.stop - segment.begin := rfl
              have hidxlt : index < segment.stop - segment.begin := by
                unfold BytesSegment.len at hlen
                omega
              set i0 : Node := Node.of_segment σ with hi0
              set l1 : Node := Node.of_segment (segment.split_at index).1 with hl1
              set l2 : Node := Node.of_segment (segment.split_at index).2 with hl2
              set p3 : Node := ⟨(segment.split_at index).1.len + σ.len,
                NodeBody.Parent (nodes.length + 1) nodes.length⟩ with hp3
              set t4 : Node := ⟨segment.len + σ.len,
                NodeBody.Parent (nodes.length + 3) (nodes.length + 2)⟩ with ht4
              have hflat : nodes' = nodes ++ [i0, l1, l2, p3, t4] := by
                rw [← h1, hp3, ht4]
                simp [hi0, hl1, hl2]
              have haflat : addr' = nodes.length + 4 := by
                rw [← h2]
                simp
              subst hflat
              subst haflat
              have hlk0 : (nodes ++ [i0, l1, l2, p3, t4])[nodes.length]? = some i0 := by
                rw [show nodes.length = nodes.length + 0 from rfl, getElem?_append_list]
                rfl
              have hlk1 : (nodes ++ [i0, l1, l2, p3, t4])[nodes.length + 1]? =
                  some l1 := by
                rw [getElem?_append_list]
                rfl
              have hlk2 : (nodes ++ [i0, l1, l2, p3, t4])[nodes.length + 2]? =
                  some l2 := by
                rw [getElem?_append_list]
                rfl
              have hlk3 : (nodes ++ [i0, l1, l2, p3, t4])[nodes.length + 3]? =
                  some p3 := by
                rw [getElem?_append_list]
                rfl
              have hlk4 : (nodes ++ [i0, l1, l2, p3, t4])[nodes.length + 4]? =
                  some t4 := by
                rw [getElem?_append_list]
                rfl
              have hsplit1b : (segment.split_at index).1.begin = segment.begin := rfl
              have hsplit1e : (segment.split_at index).1.stop =
                segment.begin + index := rfl
              have hsplit2b : (segment.split_at index).2.begin =
                segment.begin + index := rfl
              have hsplit2e : (segment.split_at index).2.stop = segment.stop := rfl
              have e1 : (segment.split_at index).1.len = index := by
                unfold BytesSegment.len
                rw [hsplit1b, hsplit1e]
                omega
              have e2 : (segment.split_at index).2.len =
                  segment.stop - segment.begin - index := by
                unfold BytesSegment.len
                rw [hsplit2b, hsplit2e]
                omega
              refine ⟨⟨_, rfl⟩, ?_, ?_⟩
              · refine NodesWF_ext hwf (Nat.le_refl _) ?_
                intro j nd hj
                have hj5 : j < 5 := by
                  have := (List.getElem?_eq_some.mp hj).1
                  simpa using this
                interval_cases j
                · simp only [List.getElem?_cons_zero, Option.some.injEq] at hj
                  rw [Nat.add_zero, ← hj, hi0]
                  unfold NodeWFAt Node.of_segment
                  exact ⟨hσb, hσe, rfl⟩
                · simp only [List.getElem?_cons_succ, List.getElem?_cons_zero,
                    Option.some.injEq] at hj
                  rw [← hj, hl1]
                  unfold NodeWFAt Node.of_segment
                  refine ⟨?_, ?_, rfl⟩
                  · rw [hsplit1b, hsplit1e]; omega
                  · rw [hsplit1e]; omega
                · simp only [List.getElem?_cons_succ, List.getElem?_cons_zero,
                    Option.some.injEq] at hj
                  rw [← hj, hl2]
                  unfold NodeWFAt Node.of_segment
                  refine ⟨?_, ?_, rfl⟩
                  · rw [hsplit2b, hsplit2e]; omega
                  · rw [hsplit2e]; omega
                · simp only [List.getElem?_cons_succ, List.getElem?_cons_zero,
                    Option.some.injEq] at hj
                  rw [← hj, hp3]
                  unfold NodeWFAt
                  refine ⟨by omega, by omega, l1, i0, hlk1, hlk0, ?_⟩
                  show (segment.split_at index).1.len + σ.len = l1.length + i0.length
                  rw [hl1, hi0]
                  rfl
                · simp only [List.getElem?_cons_succ, List.getElem?_cons_zero,
                    Option.some.injEq] at hj
                  rw [← hj, ht4]
                  unfold NodeWFAt
                  refine ⟨by omega, by omega, p3, l2, hlk3, hlk2, ?_⟩
                  show segment.len + σ.len = p3.length + l2.length
                  rw [hp3, hl2]
                  show segment.len + σ.len =
                    ((segment.split_at index).1.len + σ.len) +
                      (Node.of_segment (segment.split_at index).2).length
                  show segment.len + σ.len =
                    ((segment.split_at index).1.len + σ.len) +
                      (segment.split_at index).2.len
                  rw [e1, e2, hseglen]
                  omega
              · refine ⟨t4, hlk4, ?_⟩
                rw [ht4]
                show segment.len + σ.len = L + σ.len
                unfold BytesSegment.len
                omega
      | Parent left_address right_address =>
          rw [insert_rec_parent] at h
          have hwfa := hwf a _ hnode
          unfold NodeWFAt at hwfa
          obtain ⟨hla, hra, ln, rn, hln, hrn, hsum⟩ := hwfa
          replace hsum : L = ln.length + rn.length := hsum
          replace hidx : index ≤ L := hidx
          rw [hln] at h
          simp only [Option.some_bind] at h
          by_cases hile : index ≤ ln.length
          · rw [if_pos hile] at h
            cases hrec : insert_str_recursively σ fuel nodes ln left_address index with
            | none => rw [hrec] at h; cases h
            | some r =>
                rw [hrec] at h
                simp only [Option.some_bind, Option.some.injEq, Prod.mk.injEq] at h
                obtain ⟨nodes₁, newaddr⟩ := r
                obtain ⟨h1, h2⟩ := h
                subst h1; subst h2
                obtain ⟨⟨ext, hext⟩, hwf₁, n₁, hn₁, hn₁len⟩ :=
                  ih hwf hln (by omega) hile hrec
                have hnewlt : newaddr < nodes₁.length := (List.getElem?_eq_some.mp hn₁).1
                have hralt : right_address < nodes₁.length := by
                  rw [hext, List.length_append]
                  have := (List.getElem?_eq_some.mp hrn).1
                  omega
                have hrn₁ : nodes₁[right_address]? = some rn := by
                  rw [hext, List.getElem?_append_left (List.getElem?_eq_some.mp hrn).1]
                  exact hrn
                refine ⟨⟨ext ++ [⟨L + σ.len, NodeBody.Parent newaddr right_address⟩],
                  by rw [hext]; simp⟩, ?_, ?_⟩
                · refine NodesWF_ext hwf₁ (Nat.le_refl _) ?_
                  intro j nd hj
                  have hj1 : j < 1 := (List.getElem?_eq_some.mp hj).1
                  interval_cases j
                  simp only [List.getElem?_cons_zero, Option.some.injEq] at hj
                  rw [Nat.add_zero, ← hj]
                  unfold NodeWFAt
                  refine ⟨hnewlt, hralt, n₁, rn, ?_, ?_, ?_⟩
                  · rw [List.getElem?_append_left hnewlt]; exact hn₁
                  · rw [List.getElem?_append_left hralt]; exact hrn₁
                  · show L + σ.len = n₁.length + rn.length
                    omega
                · refine ⟨⟨L + σ.len, NodeBody.Parent newaddr right_address⟩, by simp, rfl⟩
          · rw [if_neg hile] at h
            rw [hrn] at h
            simp only [Option.some_bind] at h
            cases hrec : insert_str_recursively σ fuel nodes rn right_address
              (index - ln.length) with
            | none => rw [hrec] at h; cases h
            | some r =>
                rw [hrec] at h
                simp only [Option.some_bind, Option.some.injEq, Prod.mk.injEq] at h
                obtain ⟨nodes₁, newaddr⟩ := r
                obtain ⟨h1, h2⟩ := h
                subst h1; subst h2
                obtain ⟨⟨ext, hext⟩, hwf₁, n₁, hn₁, hn₁len⟩ :=
                  ih hwf hrn (by omega) (by omega) hrec
                have hnewlt : newaddr < nodes₁.length := (List.getElem?_eq_some.mp hn₁).1
                have hlalt : left_address < nodes₁.length := by
                  rw [hext, List.length_append]
                  have := (List.getElem?_eq_some.mp hln).1
                  omega
                have hln₁ : nodes₁[left_address]? = some ln := by
                  rw [hext, List.getElem?_append_left (List.getElem?_eq_some.mp hln).1]
                  exact hln
                refine ⟨⟨ext ++ [⟨L + σ.len, NodeBody.Parent left_address newaddr⟩],
                  by rw [hext]; simp⟩, ?_, ?_⟩
                · refine NodesWF_ext hwf₁ (Nat.le_refl _) ?_
                  intro j nd hj
                  have hj1 : j < 1 := (List.getElem?_eq_some.mp hj).1
                  interval_cases j
                  simp only [List.getElem?_cons_zero, Option.some.injEq] at hj
                  rw [Nat.add_zero, ← hj]
                  unfold NodeWFAt
                  refine ⟨hlalt, hnewlt, ln, n₁, ?_, ?_, ?_⟩
                  · rw [List.getElem?_append_left hlalt]; exact hln₁
                  · rw [List.getElem?_append_left hnewlt]; exact hn₁
                  · show L + σ.len = ln.length + n₁.length
                    omega
                · refine ⟨⟨L + σ.len, NodeBody.Parent left_address newaddr⟩, by simp, rfl⟩

end RopePersistentString

theorem sliceStr_some_bounds {buf t : List Char} {b e : Nat}
    (h : sliceStr buf b e = some t) : e ≤ utf8Len buf := by
  unfold sliceStr at h
  by_cases hbe : b ≤ e
  · rw [if_pos hbe] at h
    cases hdrop : charsDrop buf b with
    | none => rw [hdrop] at h; cases h
    | some r =>
        rw [hdrop] at h
        simp only [Option.some_bind] at h
        have h1 := (charsDrop_some hdrop).1
        have h2 := (charsTake_some h).1
        have h3 : utf8Len t ≤ utf8Len r := by
          obtain ⟨_, r', _, heq⟩ := charsTake_some h
          rw [heq, utf8Len_append]
          omega
        omega
  · rw [if_neg hbe] at h; cases h

theorem utf8Len_take_pos {l : List Char} {j : Nat} (hj : 0 < j) (hl : l ≠ []) :
    0 < utf8Len (l.take j) := by
  cases l with
  | nil => exact absurd rfl hl
  | cons c cs =>
      cases j with
      | zero => omega
      | succ j =>
          simp only [List.take_succ_cons, utf8Len]
          have := Char.utf8Size_pos c
          omega

theorem take_eq_nil_of_utf8Len_zero {t : List Char} {k : Nat}
    (h : utf8Len (t.take k) = 0) : t.take k = [] := utf8Len_eq_zero h

theorem drop_eq_self_of_take_nil {t : List Char} {k : Nat} (hk : k ≤ t.length)
    (h : t.take k = []) : t.drop k = t := by
  cases k with
  | zero => rfl
  | succ k =>
      cases t with
      | nil => rfl
      | cons c cs => simp at h

theorem take_eq_self_of_utf8Len {t : List Char} {k : Nat}
    (h : utf8Len (t.take k) = utf8Len t) : t.take k = t ∧ t.drop k = [] := by
  have hsplit := utf8Len_take_add_drop t k
  have hdrop : utf8Len (t.drop k) = 0 := by omega
  have hdrop' : t.drop k = [] := utf8Len_eq_zero hdrop
  constructor
  · conv_rhs => rw [← List.take_append_drop k t]
    rw [hdrop', List.append_nil]
  · exact hdrop'

theorem utf8Len_take_append_gt {tl tr : List Char} {k : Nat}
    (h1 : tl.length < k) (h2 : k ≤ tl.length + tr.length) :
    utf8Len tl < utf8Len ((tl ++ tr).take k) := by
  rw [List.take_append_eq_append_take, List.take_of_length_le (by omega), utf8Len_append]
  have htr : tr ≠ [] := by
    intro habs
    rw [habs] at h2
    simp at h2
    omega
  have := @utf8Len_take_pos tr (k - tl.length) (by omega) htr
  omega

namespace RopePersistentString

/-- Under the invariant, a successful `build_snapshot` also succeeds with
fuel `a + 1`, where `a` is the arena address of the node. -/
theorem build_fuel_of_WF {buffer : List Char} {nodes : List Node}
    (hwf : NodesWF (utf8Len buffer) nodes) :
    ∀ (a : Nat) {node : Node} {f : Nat} {t : List Char},
      nodes[a]? = some node →
      build_snapshot buffer nodes f node.body = some t →
      build_snapshot buffer nodes (a + 1) node.body = some t := by
  intro a
  induction a using Nat.strong_induction_on with
  | _ a ih =>
      intro node f t hnode hb
      cases f with
      | zero => rw [build_snapshot_zero] at hb; cases hb
      | succ f =>
          cases hbody : node.body with
          | Leaf segment =>
              rw [hbody] at hb
              rw [build_snapshot_leaf] at hb ⊢
              exact hb
          | Parent left right =>
              have hwfa := hwf a _ hnode
              unfold NodeWFAt at hwfa
              rw [hbody] at hwfa
              obtain ⟨hl, hr, ln, rn, hln, hrn, _⟩ := hwfa
              rw [hbody] at hb
              rw [build_snapshot_parent] at hb
              rw [build_snapshot_parent]
              rw [hln, hrn] at hb ⊢
              simp only [Option.some_bind] at hb ⊢
              cases hls : build_snapshot buffer nodes f ln.body with
              | none => rw [hls] at hb; cases hb
              | some ls =>
                  rw [hls] at hb
                  simp only [Option.some_bind] at hb
                  cases hrs : build_snapshot buffer nodes f rn.body with
                  | none => rw [hrs] at hb; cases hb
                  | some rs =>
                      rw [hrs] at hb
                      simp only [Option.some_bind] at hb
                      have hls' := build_snapshot_fuel_mono
                        (by omega : left + 1 ≤ a) (ih left hl hln hls)
                      have hrs' := build_snapshot_fuel_mono
                        (by omega : right + 1 ≤ a) (ih right hr hrn hrs)
                      rw [hls', hrs']
                      simp only [Option.some_bind]
                      exact hb

end RopePersistentString

namespace RopePersistentString

/-- Denotational specification of `insert_str_recursively`: inserting the
bytes of `σ` at the byte offset of a character boundary `k` of the snapshot
`t` of the target node yields a node whose snapshot is `t` with the inserted
string spliced in at position `k`. -/
theorem insert_rec_snapshot {buffer : List Char} {σ : BytesSegment} {u : List Char}
    (hu : σ.as_str buffer = some u) :
    ∀ {fuel : Nat} {nodes : List Node} {node : Node} {a : Nat},
      NodesWF (utf8Len buffer) nodes →
      nodes[a]? = some node →
      a < fuel →
      ∀ {fb : Nat} {t : List Char},
        build_snapshot buffer nodes fb node.body = some t →
        ∀ {k : Nat}, k ≤ t.length →
        ∀ {nodes' : List Node} {addr' : Nat},
          insert_str_recursively σ fuel nodes node a (utf8Len (t.take k)) =
            some (nodes', addr') →
          ∃ n', nodes'[addr']? = some n' ∧
            build_snapshot buffer nodes' nodes'.length n'.body =
              some (t.take k ++ u ++ t.drop k) := by
  have hu' : sliceStr buffer σ.begin σ.stop = some u := hu
  have hσb : σ.begin ≤ σ.stop := (sliceStr_some_utf8Len hu').1
  have hσe : σ.stop ≤ utf8Len buffer := sliceStr_some_bounds hu'
  intro fuel
  induction fuel with
  | zero => intro nodes node a _ _ ha; omega
  | succ fuel ih =>
      intro nodes node a hwf hnode ha fb t hb k hk nodes' addr' h
      have halt : a < nodes.length := (List.getElem?_eq_some.mp hnode).1
      obtain ⟨L, body⟩ := node
      cases body with
      | Leaf segment =>
          replace hnode : nodes[a]? = some ⟨L, NodeBody.Leaf segment⟩ := hnode
          cases fb with
          | zero =>
              replace hb : build_snapshot buffer nodes 0 (NodeBody.Leaf segment) =
                some t := hb
              rw [build_snapshot_zero] at hb
              cases hb
          | succ fb =>
              replace hb : build_snapshot buffer nodes (fb + 1)
                  (NodeBody.Leaf segment) = some t := hb
              rw [build_snapshot_leaf] at hb
              have hseg : sliceStr buffer segment.begin segment.stop = some t := hb
              have htlen : utf8Len t = segment.stop - segment.begin :=
                (sliceStr_some_utf8Len hseg).2
              rw [insert_rec_leaf] at h
              by_cases h0 : utf8Len (t.take k) = 0
              · rw [if_pos h0] at h
                simp only [Option.some.injEq, Prod.mk.injEq] at h
                obtain ⟨h1, h2⟩ := h
                subst h1; subst h2
                have htk : t.take k = [] := utf8Len_eq_zero h0
                have hdk : t.drop k = t := drop_eq_self_of_take_nil hk htk
                have hA : (nodes ++ [Node.of_segment σ]) ++
                    [(⟨L + σ.len, NodeBody.Parent nodes.length a⟩ : Node)] =
                    nodes ++ [Node.of_segment σ,
                      ⟨L + σ.len, NodeBody.Parent nodes.length a⟩] := by simp
                rw [hA]
                have hlook0 : (nodes ++ [Node.of_segment σ,
                    ⟨L + σ.len, NodeBody.Parent nodes.length a⟩])[nodes.length]? =
                    some (Node.of_segment σ) := by
                  rw [show nodes.length = nodes.length + 0 from rfl,
                    getElem?_append_list]
                  rfl
                have hlooka : (nodes ++ [Node.of_segment σ,
                    ⟨L + σ.len, NodeBody.Parent nodes.length a⟩])[a]? =
                    some ⟨L, NodeBody.Leaf segment⟩ := by
                  rw [List.getElem?_append_left halt]; exact hnode
                refine ⟨⟨L + σ.len, NodeBody.Parent nodes.length a⟩, ?_, ?_⟩
                · have hl1 : (nodes ++ [Node.of_segment σ]).length =
                      nodes.length + 1 := by simp
                  rw [hl1, getElem?_append_list]
                  rfl
                · have hlen2 : (nodes ++ [Node.of_segment σ,
                      ⟨L + σ.len, NodeBody.Parent nodes.length a⟩]).length =
                      nodes.length + 1 + 1 := by simp
                  rw [hlen2]
                  show build_snapshot buffer _ (nodes.length + 1 + 1)
                    (NodeBody.Parent nodes.length a) = _
                  rw [build_snapshot_parent, hlook0, hlooka]
                  simp only [Option.some_bind]
                  have hbA : build_snapshot buffer (nodes ++ [Node.of_segment σ,
                      ⟨L + σ.len, NodeBody.Parent nodes.length a⟩])
                      (nodes.length + 1) (Node.of_segment σ).body = some u := by
                    show build_snapshot buffer _ (nodes.length + 1)
                      (NodeBody.Leaf σ) = some u
                    rw [build_snapshot_leaf]
                    exact hu
                  have hbT : build_snapshot buffer (nodes ++ [Node.of_segment σ,
                      ⟨L + σ.len, NodeBody.Parent nodes.length a⟩])
                      (nodes.length + 1)
                      ((⟨L, NodeBody.Leaf segment⟩ : Node)).body = some t := by
                    show build_snapshot buffer _ (nodes.length + 1)
                      (NodeBody.Leaf segment) = some t
                    rw [build_snapshot_leaf]
                    exact hb
                  rw [hbA]
                  simp only [Option.some_bind]
                  rw [hbT]
                  simp only [Option.some_bind]
                  rw [htk, hdk]
                  rfl
              · by_cases hlen : utf8Len (t.take k) = segment.len
                · rw [if_neg h0, if_pos hlen] at h
                  simp only [Option.some.injEq, Prod.mk.injEq] at h
                  obtain ⟨h1, h2⟩ := h
                  subst h1; subst h2
                  have hseglen : segment.len = segment.stop - segment.begin := rfl
                  have hfull : utf8Len (t.take k) = utf8Len t := by omega
                  obtain ⟨htk, hdk⟩ := take_eq_self_of_utf8Len hfull
                  have hA : (nodes ++ [Node.of_segment σ]) ++
                      [(⟨L + σ.len, NodeBody.Parent a nodes.length⟩ : Node)] =
                      nodes ++ [Node.of_segment σ,
                        ⟨L + σ.len, NodeBody.Parent a nodes.length⟩] := by simp
                  rw [hA]
                  have hlook0 : (nodes ++ [Node.of_segment σ,
                      ⟨L + σ.len, NodeBody.Parent a nodes.length⟩])[nodes.length]? =
                      some (Node.of_segment σ) := by
                    rw [show nodes.length = nodes.length + 0 from rfl,
                      getElem?_append_list]
                    rfl
                  have hlooka : (nodes ++ [Node.of_segment σ,
                      ⟨L + σ.len, NodeBody.Parent a nodes.length⟩])[a]? =
                      some ⟨L, NodeBody.Leaf segment⟩ := by
                    rw [List.getElem?_append_left halt]; exact hnode
                  refine ⟨⟨L + σ.len, NodeBody.Parent a nodes.length⟩, ?_, ?_⟩
                  · have hl1 : (nodes ++ [Node.of_segment σ]).length =
                        nodes.length + 1 := by simp
                    rw [hl1, getElem?_append_list]
                    rfl
                  · have hlen2 : (nodes ++ [Node.of_segment σ,
                        ⟨L + σ.len, NodeBody.Parent a nodes.length⟩]).length =
                        nodes.length + 1 + 1 := by simp
                    rw [hlen2]
                    show build_snapshot buffer _ (nodes.length + 1 + 1)
                      (NodeBody.Parent a nodes.length) = _
                    rw [build_snapshot_parent, hlooka, hlook0]
                    simp only [Option.some_bind]
                    have hbA : build_snapshot buffer (nodes ++ [Node.of_segment σ,
                        ⟨L + σ.len, NodeBody.Parent a nodes.length⟩])
                        (nodes.length + 1) (Node.of_segment σ).body = some u := by
                      show build_snapshot buffer _ (nodes.length + 1)
                        (NodeBody.Leaf σ) = some u
                      rw [build_snapshot_leaf]
                      exact hu
                    have hbT : build_snapshot buffer (nodes ++ [Node.of_segment σ,
                        ⟨L + σ.len, NodeBody.Parent a nodes.length⟩])
                        (nodes.length + 1)
                        ((⟨L, NodeBody.Leaf segment⟩ : Node)).body = some t := by
                      show build_snapshot buffer _ (nodes.length + 1)
                        (NodeBody.Leaf segment) = some t
                      rw [build_snapshot_leaf]
                      exact hb
                    rw [hbT]
                    simp only [Option.some_bind]
                    rw [hbA]
                    simp only [Option.some_bind]
                    rw [htk, hdk]
                    simp
                · rw [if_neg h0, if_neg hlen] at h
                  simp only [Option.some.injEq, Prod.mk.injEq] at h
                  obtain ⟨h1, h2⟩ := h
                  set i0 : Node := Node.of_segment σ with hi0
                  set l1 : Node :=
                    Node.of_segment (segment.split_at (utf8Len (t.take k))).1 with hl1
                  set l2 : Node :=
                    Node.of_segment (segment.split_at (utf8Len (t.take k))).2 with hl2
                  set p3 : Node := ⟨(segment.split_at (utf8Len (t.take k))).1.len + σ.len,
                    NodeBody.Parent (nodes.length + 1) nodes.length⟩ with hp3
                  set t4 : Node := ⟨segment.len + σ.len,
                    NodeBody.Parent (nodes.length + 3) (nodes.length + 2)⟩ with ht4
                  have hflat : nodes' = nodes ++ [i0, l1, l2, p3, t4] := by
                    rw [← h1, hp3, ht4]
                    simp [hi0, hl1, hl2]
                  have haflat : addr' = nodes.length + 4 := by
                    rw [← h2]; simp
                  subst hflat; subst haflat
                  have hlk0 : (nodes ++ [i0, l1, l2, p3, t4])[nodes.length]? =
                      some i0 := by
                    rw [show nodes.length = nodes.length + 0 from rfl,
                      getElem?_append_list]
                    rfl
                  have hlk1 : (nodes ++ [i0, l1, l2, p3, t4])[nodes.length + 1]? =
                      some l1 := by
                    rw [getElem?_append_list]
                    rfl
                  have hlk2 : (nodes ++ [i0, l1, l2, p3, t4])[nodes.length + 2]? =
                      some l2 := by
                    rw [getElem?_append_list]
                    rfl
                  have hlk3 : (nodes ++ [i0, l1, l2, p3, t4])[nodes.length + 3]? =
                      some p3 := by
                    rw [getElem?_append_list]
                    rfl
                  have hlk4 : (nodes ++ [i0, l1, l2, p3, t4])[nodes.length + 4]? =
                      some t4 := by
                    rw [getElem?_append_list]
                    rfl
                  have hsp := sliceStr_split hseg k
                  refine ⟨t4, hlk4, ?_⟩
                  have hlen5 : (nodes ++ [i0, l1, l2, p3, t4]).length =
                      nodes.length + 4 + 1 := by simp
                  have ht4b : t4.body =
                      NodeBody.Parent (nodes.length + 3) (nodes.length + 2) := rfl
                  rw [hlen5, ht4b, build_snapshot_parent, hlk3, hlk2]
                  simp only [Option.some_bind]
                  have hbl1 : build_snapshot buffer (nodes ++ [i0, l1, l2, p3, t4])
                      (nodes.length + 3) l1.body = some (t.take k) := by
                    have hl1b : l1.body =
                        NodeBody.Leaf (segment.split_at (utf8Len (t.take k))).1 := rfl
                    rw [hl1b, show nodes.length + 3 = nodes.length + 2 + 1 from rfl,
                      build_snapshot_leaf]
                    exact hsp.1
                  have hbi0 : build_snapshot buffer (nodes ++ [i0, l1, l2, p3, t4])
                      (nodes.length + 3) i0.body = some u := by
                    have hi0b : i0.body = NodeBody.Leaf σ := rfl
                    rw [hi0b, show nodes.length + 3 = nodes.length + 2 + 1 from rfl,
                      build_snapshot_leaf]
                    exact hu
                  have hbP3 : build_snapshot buffer (nodes ++ [i0, l1, l2, p3, t4])
                      (nodes.length + 4) p3.body = some (t.take k ++ u) := by
                    have hp3b : p3.body =
                        NodeBody.Parent (nodes.length + 1) nodes.length := rfl
                    rw [hp3b, show nodes.length + 4 = nodes.length + 3 + 1 from rfl,
                      build_snapshot_parent, hlk1, hlk0]
                    simp only [Option.some_bind]
                    rw [hbl1]
                    simp only [Option.some_bind]
                    rw [hbi0]
                    simp only [Option.some_bind]
                  have hbl2 : build_snapshot buffer (nodes ++ [i0, l1, l2, p3, t4])
                      (nodes.length + 4) l2.body = some (t.drop k) := by
                    have hl2b : l2.body =
                        NodeBody.Leaf (segment.split_at (utf8Len (t.take k))).2 := rfl
                    rw [hl2b, show nodes.length + 4 = nodes.length + 3 + 1 from rfl,
                      build_snapshot_leaf]
                    exact hsp.2
                  rw [hbP3]
                  simp only [Option.some_bind]
                  rw [hbl2]
                  simp only [Option.some_bind]
      | Parent left_address right_address =>
          replace hnode : nodes[a]? =
            some ⟨L, NodeBody.Parent left_address right_address⟩ := hnode
          have hwfa := hwf a _ hnode
          unfold NodeWFAt at hwfa
          obtain ⟨hla, hra, ln, rn, hln, hrn, hsum⟩ := hwfa
          replace hsum : L = ln.length + rn.length := hsum
          cases fb with
          | zero =>
              replace hb : build_snapshot buffer nodes 0
                  (NodeBody.Parent left_address right_address) = some t := hb
              rw [build_snapshot_zero] at hb; cases hb
          | succ fb =>
              replace hb : build_snapshot buffer nodes (fb + 1)
                  (NodeBody.Parent left_address right_address) = some t := hb
              rw [build_snapshot_parent, hln] at hb
              simp only [Option.some_bind] at hb
              rw [hrn] at hb
              simp only [Option.some_bind] at hb
              cases hbl : build_snapshot buffer nodes fb ln.body with
              | none => rw [hbl] at hb; cases hb
              | some tl =>
                  rw [hbl] at hb
                  simp only [Option.some_bind] at hb
                  cases hbr : build_snapshot buffer nodes fb rn.body with
                  | none => rw [hbr] at hb; cases hb
                  | some tr =>
                      rw [hbr] at hb
                      simp only [Option.some_bind, Option.some.injEq] at hb
                      subst hb
                      have hlt : utf8Len tl = ln.length := snap_len hwf hln hbl
                      have hrt : utf8Len tr = rn.length := snap_len hwf hrn hbr
                      have hk2 : k ≤ tl.length + tr.length := by simpa using hk
                      replace h : insert_str_recursively σ (fuel + 1) nodes
                          ⟨L, NodeBody.Parent left_address right_address⟩ a
                          (utf8Len ((tl ++ tr).take k)) = some (nodes', addr') := h
                      rw [insert_rec_parent, hln] at h
                      simp only [Option.some_bind] at h
                      by_cases hc : utf8Len ((tl ++ tr).take k) ≤ ln.length
                      · rw [if_pos hc] at h
                        have hklen : k ≤ tl.length := by
                          by_contra hgt
                          push_neg at hgt
                          have := utf8Len_take_append_gt hgt hk2
                          omega
                        have htake : (tl ++ tr).take k = tl.take k := by
                          rw [List.take_append_eq_append_take,
                            Nat.sub_eq_zero_of_le hklen]
                          simp
                        have hdrop : (tl ++ tr).drop k = tl.drop k ++ tr := by
                          rw [List.drop_append_eq_append_drop,
                            Nat.sub_eq_zero_of_le hklen]
                          simp
                        rw [htake] at h hc
                        cases hrec : insert_str_recursively σ fuel nodes ln
                            left_address (utf8Len (tl.take k)) with
                        | none => rw [hrec] at h; cases h
                        | some r =>
                            rw [hrec] at h
                            simp only [Option.some_bind, Option.some.injEq,
                              Prod.mk.injEq] at h
                            obtain ⟨nodes₁, addr₁⟩ := r
                            obtain ⟨h1, h2⟩ := h
                            subst h1; subst h2
                            obtain ⟨n₁, hn₁, hb₁⟩ :=
                              ih hwf hln (by omega) hbl hklen hrec
                            obtain ⟨⟨ext, hext⟩, hwf₁, _⟩ :=
                              insert_rec_struct hσb hσe hwf hln (by omega) hc hrec
                            have hnewlt : addr₁ < nodes₁.length :=
                              (List.getElem?_eq_some.mp hn₁).1
                            have hralt : right_address < nodes₁.length := by
                              rw [hext, List.length_append]
                              have := (List.getElem?_eq_some.mp hrn).1
                              omega
                            have hrn₁ : nodes₁[right_address]? = some rn := by
                              rw [hext, List.getElem?_append_left
                                (List.getElem?_eq_some.mp hrn).1]
                              exact hrn
                            refine ⟨⟨L + σ.len, NodeBody.Parent addr₁ right_address⟩,
                              by simp, ?_⟩
                            have hlen1 : (nodes₁ ++ [(⟨L + σ.len,
                                NodeBody.Parent addr₁ right_address⟩ : Node)]).length =
                                nodes₁.length + 1 := by simp
                            rw [hlen1]
                            show build_snapshot buffer _ (nodes₁.length + 1)
                              (NodeBody.Parent addr₁ right_address) = _
                            rw [build_snapshot_parent]
                            have hlkn₁ : (nodes₁ ++ [(⟨L + σ.len,
                                NodeBody.Parent addr₁ right_address⟩ : Node)])[addr₁]? =
                                some n₁ := by
                              rw [List.getElem?_append_left hnewlt]; exact hn₁
                            have hlkrn : (nodes₁ ++ [(⟨L + σ.len,
                                NodeBody.Parent addr₁ right_address⟩ :
                                Node)])[right_address]? = some rn := by
                              rw [List.getElem?_append_left hralt]; exact hrn₁
                            rw [hlkn₁, hlkrn]
                            simp only [Option.some_bind]
                            have hbn₁ : build_snapshot buffer (nodes₁ ++ [(⟨L + σ.len,
                                NodeBody.Parent addr₁ right_address⟩ : Node)])
                                nodes₁.length n₁.body =
                                some (tl.take k ++ u ++ tl.drop k) :=
                              build_snapshot_nodes_ext _ hb₁
                            have hbrn : build_snapshot buffer (nodes₁ ++ [(⟨L + σ.len,
                                NodeBody.Parent addr₁ right_address⟩ : Node)])
                                nodes₁.length rn.body = some tr := by
                              have hnorm := build_fuel_of_WF hwf right_address hrn hbr
                              have hext1 : build_snapshot buffer nodes₁
                                  (right_address + 1) rn.body = some tr := by
                                rw [hext]
                                exact build_snapshot_nodes_ext _ hnorm
                              exact build_snapshot_nodes_ext _
                                (build_snapshot_fuel_mono (by omega) hext1)
                            rw [hbn₁]
                            simp only [Option.some_bind]
                            rw [hbrn]
                            simp only [Option.some_bind]
                            rw [htake, hdrop]
                            simp [List.append_assoc]
                      · rw [if_neg hc] at h
                        rw [hrn] at h
                        simp only [Option.some_bind] at h
                        push_neg at hc
                        have hkgt : tl.length < k := by
                          by_contra hle
                          push_neg at hle
                          have ht : (tl ++ tr).take k = tl.take k := by
                            rw [List.take_append_eq_append_take,
                              Nat.sub_eq_zero_of_le hle]
                            simp
                          rw [ht] at hc
                          have := utf8Len_take_le tl k
                          omega
                        have htake : (tl ++ tr).take k =
                            tl ++ tr.take (k - tl.length) := by
                          rw [List.take_append_eq_append_take,
                            List.take_of_length_le (Nat.le_of_lt hkgt)]
                        have hdrop : (tl ++ tr).drop k = tr.drop (k - tl.length) := by
                          rw [List.drop_append_eq_append_drop,
                            List.drop_eq_nil_of_le (Nat.le_of_lt hkgt)]
                          simp
                        have hidx2 : utf8Len ((tl ++ tr).take k) - ln.length =
                            utf8Len (tr.take (k - tl.length)) := by
                          rw [htake, utf8Len_append]
                          omega
                        rw [hidx2] at h
                        have hkr : k - tl.length ≤ tr.length := by omega
                        cases hrec : insert_str_recursively σ fuel nodes rn
                            right_address (utf8Len (tr.take (k - tl.length))) with
                        | none => rw [hrec] at h; cases h
                        | some r =>
                            rw [hrec] at h
                            simp only [Option.some_bind, Option.some.injEq,
                              Prod.mk.injEq] at h
                            obtain ⟨nodes₁, addr₁⟩ := r
                            obtain ⟨h1, h2⟩ := h
                            subst h1; subst h2
                            obtain ⟨n₁, hn₁, hb₁⟩ :=
                              ih hwf hrn (by omega) hbr hkr hrec
                            have hidxr : utf8Len (tr.take (k - tl.length)) ≤
                                rn.length := by
                              have := utf8Len_take_le tr (k - tl.length)
                              omega
                            obtain ⟨⟨ext, hext⟩, hwf₁, _⟩ :=
                              insert_rec_struct hσb hσe hwf hrn (by omega) hidxr hrec
                            have hnewlt : addr₁ < nodes₁.length :=
                              (List.getElem?_eq_some.mp hn₁).1
                            have hlalt : left_address < nodes₁.length := by
                              rw [hext, List.length_append]
                              have := (List.getElem?_eq_some.mp hln).1
                              omega
                            have hln₁ : nodes₁[left_address]? = some ln := by
                              rw [hext, List.getElem?_append_left
                                (List.getElem?_eq_some.mp hln).1]
                              exact hln
                            refine ⟨⟨L + σ.len, NodeBody.Parent left_address addr₁⟩,
                              by simp, ?_⟩
                            have hlen1 : (nodes₁ ++ [(⟨L + σ.len,
                                NodeBody.Parent left_address addr₁⟩ : Node)]).length =
                                nodes₁.length + 1 := by simp
                            rw [hlen1]
                            show build_snapshot buffer _ (nodes₁.length + 1)
                              (NodeBody.Parent left_address addr₁) = _
                            rw [build_snapshot_parent]
                            have hlkn₁ : (nodes₁ ++ [(⟨L + σ.len,
                                NodeBody.Parent left_address addr₁⟩ : Node)])[addr₁]? =
                                some n₁ := by
                              rw [List.getElem?_append_left hnewlt]; exact hn₁
                            have hlkln : (nodes₁ ++ [(⟨L + σ.len,
                                NodeBody.Parent left_address addr₁⟩ :
                                Node)])[left_address]? = some ln := by
                              rw [List.getElem?_append_left hlalt]; exact hln₁
                            rw [hlkln, hlkn₁]
                            simp only [Option.some_bind]
                            have hbn₁ : build_snapshot buffer (nodes₁ ++ [(⟨L + σ.len,
                                NodeBody.Parent left_address addr₁⟩ : Node)])
                                nodes₁.length n₁.body =
                                some (tr.take (k - tl.length) ++ u ++
                                  tr.drop (k - tl.length)) :=
                              build_snapshot_nodes_ext _ hb₁
                            have hbln : build_snapshot buffer (nodes₁ ++ [(⟨L + σ.len,
                                NodeBody.Parent left_address addr₁⟩ : Node)])
                                nodes₁.length ln.body = some tl := by
                              have hnorm := build_fuel_of_WF hwf left_address hln hbl
                              have hext1 : build_snapshot buffer nodes₁
                                  (left_address + 1) ln.body = some tl := by
                                rw [hext]
                                exact build_snapshot_nodes_ext _ hnorm
                              exact build_snapshot_nodes_ext _
                                (build_snapshot_fuel_mono (by omega) hext1)
                            rw [hbln]
                            simp only [Option.some_bind]
                            rw [hbn₁]
                            simp only [Option.some_bind]
                            rw [htake, hdrop]
                            simp [List.append_assoc]

end RopePersistentString

namespace RopePersistentString

/-- A successful `build_snapshot` is stable under appending to the buffer
alone. -/
theorem build_snapshot_buffer_ext {buffer : List Char} {nodes : List Node}
    (extb : List Char) {fuel : Nat} {body : NodeBody} {t : List Char}
    (h : build_snapshot buffer nodes fuel body = some t) :
    build_snapshot (buffer ++ extb) nodes fuel body = some t := by
  have := build_snapshot_append_ext extb [] h
  simpa using this

/-- Under the invariant, `insert_str_recursively` succeeds whenever the
index does not exceed the byte length of the target node. -/
theorem insert_rec_isSome {bufLen : Nat} {σ : BytesSegment} :
    ∀ {fuel : Nat} {nodes : List Node} {node : Node} {a index : Nat},
      NodesWF bufLen nodes →
      nodes[a]? = some node →
      a < fuel →
      index ≤ node.length →
      ∃ r, insert_str_recursively σ fuel nodes node a index = some r := by
  intro fuel
  induction fuel with
  | zero => intro nodes node a index _ _ ha; omega
  | succ fuel ih =>
      intro nodes node a index hwf hnode ha hidx
      obtain ⟨L, body⟩ := node
      cases body with
      | Leaf segment =>
          rw [insert_rec_leaf]
          by_cases h0 : index = 0
          · rw [if_pos h0]; exact ⟨_, rfl⟩
          · by_cases hlen : index = segment.len
            · rw [if_neg h0, if_pos hlen]; exact ⟨_, rfl⟩
            · rw [if_neg h0, if_neg hlen]; exact ⟨_, rfl⟩
      | Parent left right =>
          have hwfa := hwf a _ hnode
          unfold NodeWFAt at hwfa
          obtain ⟨hla, hra, ln, rn, hln, hrn, hsum⟩ := hwfa
          replace hsum : L = ln.length + rn.length := hsum
          replace hidx : index ≤ L := hidx
          rw [insert_rec_parent, hln]
          simp only [Option.some_bind]
          by_cases hc : index ≤ ln.length
          · rw [if_pos hc]
            obtain ⟨r₁, hr₁⟩ := ih hwf hln (by omega) hc
            rw [hr₁]
            exact ⟨_, rfl⟩
          · rw [if_neg hc, hrn]
            simp only [Option.some_bind]
            obtain ⟨r₁, hr₁⟩ :=
              ih hwf hrn (by omega) (by omega : index - ln.length ≤ rn.length)
            rw [hr₁]
            exact ⟨_, rfl⟩

/-- `insert_str` panics exactly when the byte index exceeds the byte length
of the current root. -/
theorem insert_str_gt_len_none {s : RopePersistentString} (hwf : WF s)
    {t : List Char} (ht : snapshot s = some t) {index : Nat}
    (hgt : utf8Len t < index) (ins : List Char) : insert_str s index ins = none := by
  obtain ⟨address, haddr⟩ : ∃ a, s.versions[s.current_version]? = some a :=
    ⟨_, List.getElem?_eq_getElem hwf.current_lt⟩
  have hlt : address < s.nodes.length := hwf.versions_lt _ _ haddr
  obtain ⟨node, hnode⟩ : ∃ n, s.nodes[address]? = some n :=
    ⟨_, List.getElem?_eq_getElem hlt⟩
  have hbuild : build_snapshot s.buffer s.nodes s.nodes.length node.body = some t := by
    unfold snapshot at ht
    rw [haddr] at ht
    simp only [Option.bind_eq_bind, Option.some_bind] at ht
    rw [hnode] at ht
    simpa using ht
  have hlen_t : utf8Len t = node.length := snap_len hwf.nodes_wf hnode hbuild
  unfold insert_str
  rw [haddr]
  simp only [Option.bind_eq_bind, Option.some_bind]
  rw [hnode]
  simp only [Option.some_bind]
  rw [if_pos (by omega : node.length < index)]

/-- Full specification of a successful `insert_str`: at the byte offset of
any character boundary `k` of the current snapshot `t`, the call succeeds,
allocates exactly one new version, and the new snapshot is `t` with the
insertion spliced in at character position `k`. -/
theorem insert_str_spec {s : RopePersistentString} (hwf : WF s)
    {t : List Char} (ht : snapshot s = some t) {k : Nat} (hk : k ≤ t.length)
    (ins : List Char) :
    ∃ s', insert_str s (utf8Len (t.take k)) ins = some s' ∧ WF s' ∧
      (∃ eb, s'.buffer = s.buffer ++ eb) ∧
      (∃ en, s'.nodes = s.nodes ++ en) ∧
      (∃ r, s'.versions = s.versions ++ [r]) ∧
      s'.current_version = s.versions.length ∧
      snapshot s' = some (t.take k ++ ins ++ t.drop k) := by
  obtain ⟨address, haddr⟩ : ∃ a, s.versions[s.current_version]? = some a :=
    ⟨_, List.getElem?_eq_getElem hwf.current_lt⟩
  have hlt : address < s.nodes.length := hwf.versions_lt _ _ haddr
  obtain ⟨node, hnode⟩ : ∃ n, s.nodes[address]? = some n :=
    ⟨_, List.getElem?_eq_getElem hlt⟩
  have hn0 : 0 < s.nodes.length := (List.getElem?_eq_some.mp hwf.node_zero).1
  have hbuild : build_snapshot s.buffer s.nodes s.nodes.length node.body = some t := by
    unfold snapshot at ht
    rw [haddr] at ht
    simp only [Option.bind_eq_bind, Option.some_bind] at ht
    rw [hnode] at ht
    simpa using ht
  have hlen_t : utf8Len t = node.length := snap_len hwf.nodes_wf hnode hbuild
  have hidx_le : utf8Len (t.take k) ≤ node.length := by
    have := utf8Len_take_le t k
    omega
  unfold insert_str
  rw [haddr]
  simp only [Option.bind_eq_bind, Option.some_bind]
  rw [hnode]
  simp only [Option.some_bind]
  rw [if_neg (by omega : ¬ node.length < utf8Len (t.take k))]
  by_cases hins : ins = []
  · rw [if_pos hins]
    refine ⟨_, rfl, ?_, ⟨[], by simp⟩, ⟨[], by simp⟩, ⟨address, rfl⟩, rfl, ?_⟩
    · refine ⟨hwf.nodes_wf, hwf.node_zero, by simp, ?_⟩
      intro v a hv
      rcases getElem?_append_singleton hv with hv' | hv'
      · exact hwf.versions_lt _ _ hv'
      · subst hv'; exact hlt
    · show ((s.versions ++ [address])[s.versions.length]?).bind _ = _
      rw [List.getElem?_append_right (Nat.le_refl _), Nat.sub_self]
      simp only [List.getElem?_cons_zero, Option.some_bind]
      rw [hnode]
      simp only [Option.bind_eq_bind, Option.some_bind]
      rw [hins, hbuild]
      simp
  · rw [if_neg hins]
    by_cases hzero : node.length = 0
    · rw [if_pos hzero]
      have htnil : t = [] := utf8Len_eq_zero (by omega)
      have hknil : k = 0 := by
        subst htnil
        simpa using hk
      subst htnil; subst hknil
      refine ⟨_, rfl, ?_, ⟨ins, rfl⟩, ⟨[Node.of_segment
        (BytesSegment.of_length (utf8Len s.buffer) (utf8Len ins))], rfl⟩,
        ⟨s.nodes.length, rfl⟩, rfl, ?_⟩
      · refine ⟨?_, ?_, by simp, ?_⟩
        · refine NodesWF_ext hwf.nodes_wf (by rw [utf8Len_append]; omega) ?_
          intro j nd hj
          have hj1 : j < 1 := by
            have := (List.getElem?_eq_some.mp hj).1
            simpa using this
          interval_cases j
          simp only [List.getElem?_cons_zero, Option.some.injEq] at hj
          rw [Nat.add_zero, ← hj]
          unfold NodeWFAt Node.of_segment
          refine ⟨?_, ?_, rfl⟩
          · show utf8Len s.buffer ≤ utf8Len s.buffer + utf8Len ins
            omega
          · show utf8Len s.buffer + utf8Len ins ≤ utf8Len (s.buffer ++ ins)
            rw [utf8Len_append]
        · show (s.nodes ++ _)[0]? = _
          rw [List.getElem?_append_left hn0]
          exact hwf.node_zero
        · intro v a hv
          rcases getElem?_append_singleton hv with hv' | hv'
          · have := hwf.versions_lt _ _ hv'
            simp only [List.length_append, List.length_cons, List.length_nil]
            omega
          · subst hv'
            simp
      · show ((s.versions ++ [s.nodes.length])[s.versions.length]?).bind _ = _
        rw [List.getElem?_append_right (Nat.le_refl _), Nat.sub_self]
        simp only [List.getElem?_cons_zero, Option.some_bind]
        rw [show (s.nodes ++ [Node.of_segment (BytesSegment.of_length
          (utf8Len s.buffer) (utf8Len ins))])[s.nodes.length]? =
          some (Node.of_segment (BytesSegment.of_length (utf8Len s.buffer)
            (utf8Len ins))) from by
          rw [show s.nodes.length = s.nodes.length + 0 from rfl, getElem?_append_list]
          rfl]
        simp only [Option.bind_eq_bind, Option.some_bind]
        rw [show (s.nodes ++ [Node.of_segment (BytesSegment.of_length
          (utf8Len s.buffer) (utf8Len ins))]).length = s.nodes.length + 1 from by simp]
        show build_snapshot _ _ (s.nodes.length + 1)
          (NodeBody.Leaf (BytesSegment.of_length (utf8Len s.buffer) (utf8Len ins))) = _
        rw [build_snapshot_leaf]
        show sliceStr (s.buffer ++ ins) (utf8Len s.buffer)
          (utf8Len s.buffer + utf8Len ins) = _
        rw [sliceStr_suffix]
        simp
    · rw [if_neg hzero]
      have hσ : (BytesSegment.of_length (utf8Len s.buffer) (utf8Len ins)).as_str
          (s.buffer ++ ins) = some ins := by
        show sliceStr (s.buffer ++ ins) (utf8Len s.buffer)
          (utf8Len s.buffer + utf8Len ins) = some ins
        exact sliceStr_suffix s.buffer ins
      have hσb : (BytesSegment.of_length (utf8Len s.buffer) (utf8Len ins)).begin ≤
          (BytesSegment.of_length (utf8Len s.buffer) (utf8Len ins)).stop := by
        show utf8Len s.buffer ≤ utf8Len s.buffer + utf8Len ins
        omega
      have hσe : (BytesSegment.of_length (utf8Len s.buffer) (utf8Len ins)).stop ≤
          utf8Len (s.buffer ++ ins) := by
        show utf8Len s.buffer + utf8Len ins ≤ _
        rw [utf8Len_append]
      have hwf' : NodesWF (utf8Len (s.buffer ++ ins)) s.nodes :=
        NodesWF_mono hwf.nodes_wf (by rw [utf8Len_append]; omega)
      have hbuild' : build_snapshot (s.buffer ++ ins) s.nodes s.nodes.length
          node.body = some t := build_snapshot_buffer_ext ins hbuild
      obtain ⟨⟨nodes₁, addr₁⟩, hrec⟩ :
          ∃ r, insert_str_recursively
            (BytesSegment.of_length (utf8Len s.buffer) (utf8Len ins))
            s.nodes.length s.nodes node address (utf8Len (t.take k)) = some r :=
        insert_rec_isSome hwf' hnode hlt hidx_le
      obtain ⟨⟨ext, hext⟩, hwf₁, _⟩ :=
        insert_rec_struct hσb hσe hwf' hnode hlt hidx_le hrec
      obtain ⟨n₁, hn₁, hb₁⟩ :=
        insert_rec_snapshot hσ hwf' hnode hlt hbuild' hk hrec
      rw [hrec]
      simp only [Option.some_bind, Option.pure_def]
      refine ⟨_, rfl, ?_, ⟨ins, rfl⟩, ⟨ext, by rw [hext]⟩, ⟨addr₁, rfl⟩, rfl, ?_⟩
      · refine ⟨hwf₁, ?_, by simp, ?_⟩
        · show nodes₁[0]? = _
          rw [hext, List.getElem?_append_left hn0]
          exact hwf.node_zero
        · intro v a hv
          rcases getElem?_append_singleton hv with hv' | hv'
          · have h1 := hwf.versions_lt _ _ hv'
            have h2 : s.nodes.length ≤ nodes₁.length := by
              rw [hext, List.length_append]
              omega
            show a < nodes₁.length
            omega
          · subst hv'
            show a < nodes₁.length
            exact (List.getElem?_eq_some.mp hn₁).1
      · show ((s.versions ++ [addr₁])[s.versions.length]?).bind _ = _
        rw [List.getElem?_append_right (Nat.le_refl _), Nat.sub_self]
        simp only [List.getElem?_cons_zero, Option.some_bind]
        rw [hn₁]
        simp only [Option.bind_eq_bind, Option.some_bind]
        exact hb₁

end RopePersistentString

namespace RopePersistentString

/-- `push` preserves the invariant and only extends the state. -/
theorem push_preserves {s : RopePersistentString} (hwf : WF s) {c : Char}
    {s' : RopePersistentString} (h : push s c = some s') :
    WF s' ∧ (∃ eb, s'.buffer = s.buffer ++ eb) ∧ (∃ en, s'.nodes = s.nodes ++ en) ∧
      (∃ ev, s'.versions = s.versions ++ ev) := by
  obtain ⟨address, current_node, haddr, hnode, hpush⟩ := push_spec hwf c
  rw [hpush] at h
  simp only [Option.some.injEq] at h
  subst h
  have hlt : address < s.nodes.length := hwf.versions_lt _ _ haddr
  have hn0 : 0 < s.nodes.length := (List.getElem?_eq_some.mp hwf.node_zero).1
  have hlook_cur : (s.nodes ++
      [⟨c.utf8Size, NodeBody.Leaf ⟨utf8Len s.buffer, utf8Len s.buffer + c.utf8Size⟩⟩,
       ⟨current_node.length + c.utf8Size,
        NodeBody.Parent address s.nodes.length⟩])[address]? = some current_node := by
    rw [List.getElem?_append_left hlt]; exact hnode
  have hlook_leaf : (s.nodes ++
      [⟨c.utf8Size, NodeBody.Leaf ⟨utf8Len s.buffer, utf8Len s.buffer + c.utf8Size⟩⟩,
       ⟨current_node.length + c.utf8Size,
        NodeBody.Parent address s.nodes.length⟩])[s.nodes.length]? =
      some ⟨c.utf8Size,
        NodeBody.Leaf ⟨utf8Len s.buffer, utf8Len s.buffer + c.utf8Size⟩⟩ := by
    rw [show s.nodes.length = s.nodes.length + 0 from rfl, getElem?_append_list]
    rfl
  refine ⟨⟨?_, ?_, by simp, ?_⟩, ⟨[c], rfl⟩, ⟨_, rfl⟩, ⟨[s.nodes.length + 1], rfl⟩⟩
  · refine NodesWF_ext hwf.nodes_wf (by rw [utf8Len_append]; omega) ?_
    intro j nd hj
    have hj2 : j < 2 := by
      have := (List.getElem?_eq_some.mp hj).1
      simpa using this
    interval_cases j
    · simp only [List.getElem?_cons_zero, Option.some.injEq] at hj
      rw [Nat.add_zero, ← hj]
      unfold NodeWFAt
      refine ⟨?_, ?_, ?_⟩
      · show utf8Len s.buffer ≤ utf8Len s.buffer + c.utf8Size
        omega
      · show utf8Len s.buffer + c.utf8Size ≤ utf8Len (s.buffer ++ [c])
        rw [utf8Len_append]
        show _ ≤ utf8Len s.buffer + (c.utf8Size + 0)
        omega
      · show c.utf8Size = utf8Len s.buffer + c.utf8Size - utf8Len s.buffer
        omega
    · simp only [List.getElem?_cons_succ, List.getElem?_cons_zero,
        Option.some.injEq] at hj
      rw [← hj]
      unfold NodeWFAt
      exact ⟨by omega, by omega, _, _, hlook_cur, hlook_leaf, rfl⟩
  · show (s.nodes ++ _)[0]? = _
    rw [List.getElem?_append_left hn0]
    exact hwf.node_zero
  · intro v a hv
    show a < (s.nodes ++ _).length
    rcases getElem?_append_singleton hv with hv' | hv'
    · have := hwf.versions_lt _ _ hv'
      simp only [List.length_append, List.length_cons, List.length_nil]
      omega
    · subst hv'
      simp
/-- `push_str` preserves the invariant and only extends the state. -/
theorem push_str_preserves {s : RopePersistentString} (hwf : WF s)
    {suffix : List Char} {s' : RopePersistentString}
    (h : push_str s suffix = some s') :
    WF s' ∧ (∃ eb, s'.buffer = s.buffer ++ eb) ∧ (∃ en, s'.nodes = s.nodes ++ en) ∧
      (∃ ev, s'.versions = s.versions ++ ev) := by
  have hn0 : 0 < s.nodes.length := (List.getElem?_eq_some.mp hwf.node_zero).1
  obtain ⟨address, haddr, hcase⟩ := push_str_spec hwf suffix
  have hlt : address < s.nodes.length := hwf.versions_lt _ _ haddr
  rcases hcase with ⟨hsuf, hps⟩ | ⟨hsuf, hzero, hps⟩ | ⟨hsuf, hzero, cn, hcn, hps⟩
  · rw [hps] at h
    simp only [Option.some.injEq] at h
    subst h
    refine ⟨⟨hwf.nodes_wf, hwf.node_zero, by simp, ?_⟩,
      ⟨[], by simp⟩, ⟨[], by simp⟩, ⟨[address], rfl⟩⟩
    intro v a hv
    rcases getElem?_append_singleton hv with hv' | hv'
    · exact hwf.versions_lt _ _ hv'
    · subst hv'; exact hlt
  · rw [hps] at h
    simp only [Option.some.injEq] at h
    subst h
    refine ⟨⟨?_, ?_, by simp, ?_⟩, ⟨suffix, rfl⟩, ⟨_, rfl⟩, ⟨[s.nodes.length], rfl⟩⟩
    · refine NodesWF_ext hwf.nodes_wf (by rw [utf8Len_append]; omega) ?_
      intro j nd hj
      have hj1 : j < 1 := by
        have := (List.getElem?_eq_some.mp hj).1
        simpa using this
      interval_cases j
      simp only [List.getElem?_cons_zero, Option.some.injEq] at hj
      rw [Nat.add_zero, ← hj]
      unfold NodeWFAt
      refine ⟨?_, ?_, ?_⟩
      · show utf8Len s.buffer ≤ utf8Len s.buffer + utf8Len suffix
        omega
      · show utf8Len s.buffer + utf8Len suffix ≤ utf8Len (s.buffer ++ suffix)
        rw [utf8Len_append]
      · show utf8Len suffix = utf8Len s.buffer + utf8Len suffix - utf8Len s.buffer
        omega
    · show (s.nodes ++ _)[0]? = _
      rw [List.getElem?_append_left hn0]
      exact hwf.node_zero
    · intro v a hv
      show a < (s.nodes ++ _).length
      rcases getElem?_append_singleton hv with hv' | hv'
      · have := hwf.versions_lt _ _ hv'
        simp only [List.length_append, List.length_cons, List.length_nil]
        omega
      · subst hv'
        simp
  · rw [hps] at h
    simp only [Option.some.injEq] at h
    subst h
    have hlook_cur : (s.nodes ++
        [⟨utf8Len suffix,
          NodeBody.Leaf ⟨utf8Len s.buffer, utf8Len s.buffer + utf8Len suffix⟩⟩,
         ⟨cn.length + utf8Len suffix,
          NodeBody.Parent address s.nodes.length⟩])[address]? = some cn := by
      rw [List.getElem?_append_left hlt]; exact hcn
    have hlook_leaf : (s.nodes ++
        [⟨utf8Len suffix,
          NodeBody.Leaf ⟨utf8Len s.buffer, utf8Len s.buffer + utf8Len suffix⟩⟩,
         ⟨cn.length + utf8Len suffix,
          NodeBody.Parent address s.nodes.length⟩])[s.nodes.length]? =
        some ⟨utf8Len suffix,
          NodeBody.Leaf ⟨utf8Len s.buffer, utf8Len s.buffer + utf8Len suffix⟩⟩ := by
      rw [show s.nodes.length = s.nodes.length + 0 from rfl, getElem?_append_list]
      rfl
    refine ⟨⟨?_, ?_, by simp, ?_⟩, ⟨suffix, rfl⟩, ⟨_, rfl⟩,
      ⟨[s.nodes.length + 1], rfl⟩⟩
    · refine NodesWF_ext hwf.nodes_wf (by rw [utf8Len_append]; omega) ?_
      intro j nd hj
      have hj2 : j < 2 := by
        have := (List.getElem?_eq_some.mp hj).1
        simpa using this
      interval_cases j
      · simp only [List.getElem?_cons_zero, Option.some.injEq] at hj
        rw [Nat.add_zero, ← hj]
        unfold NodeWFAt
        refine ⟨?_, ?_, ?_⟩
        · show utf8Len s.buffer ≤ utf8Len s.buffer + utf8Len suffix
          omega
        · show utf8Len s.buffer + utf8Len suffix ≤ utf8Len (s.buffer ++ suffix)
          rw [utf8Len_append]
        · show utf8Len suffix = utf8Len s.buffer + utf8Len suffix - utf8Len s.buffer
          omega
      · simp only [List.getElem?_cons_succ, List.getElem?_cons_zero,
          Option.some.injEq] at hj
        rw [← hj]
        unfold NodeWFAt
        exact ⟨by omega, by omega, _, _, hlook_cur, hlook_leaf, rfl⟩
    · show (s.nodes ++ _)[0]? = _
      rw [List.getElem?_append_left hn0]
      exact hwf.node_zero
    · intro v a hv
      show a < (s.nodes ++ _).length
      rcases getElem?_append_singleton hv with hv' | hv'
      · have := hwf.versions_lt _ _ hv'
        simp only [List.length_append, List.length_cons, List.length_nil]
        omega
      · subst hv'
        simp

/-- A successful `insert_str` (at any byte index) preserves the invariant
and only extends the state. -/
theorem insert_str_preserves {s : RopePersistentString} (hwf : WF s) {i : Nat}
    {ins : List Char} {s' : RopePersistentString} (h : insert_str s i ins = some s') :
    WF s' ∧ (∃ eb, s'.buffer = s.buffer ++ eb) ∧ (∃ en, s'.nodes = s.nodes ++ en) ∧
      (∃ ev, s'.versions = s.versions ++ ev) := by
  have hn0 : 0 < s.nodes.length := (List.getElem?_eq_some.mp hwf.node_zero).1
  unfold insert_str at h
  cases haddr : s.versions[s.current_version]? with
  | none => rw [haddr] at h; cases h
  | some address =>
      rw [haddr] at h
      simp only [Option.bind_eq_bind, Option.some_bind] at h
      cases hnode : s.nodes[address]? with
      | none => rw [hnode] at h; cases h
      | some node =>
          rw [hnode] at h
          simp only [Option.some_bind] at h
          have hlt : address < s.nodes.length := (List.getElem?_eq_some.mp hnode).1
          by_cases hgt : node.length < i
          · rw [if_pos hgt] at h; cases h
          · rw [if_neg hgt] at h
            by_cases hins : ins = []
            · rw [if_pos hins] at h
              simp only [Option.pure_def, Option.some.injEq] at h
              subst h
              refine ⟨⟨hwf.nodes_wf, hwf.node_zero, by simp, ?_⟩,
                ⟨[], by simp⟩, ⟨[], by simp⟩, ⟨[address], rfl⟩⟩
              intro v a hv
              rcases getElem?_append_singleton hv with hv' | hv'
              · exact hwf.versions_lt _ _ hv'
              · subst hv'; exact hlt
            · rw [if_neg hins] at h
              by_cases hzero : node.length = 0
              · rw [if_pos hzero] at h
                simp only [Option.pure_def, Option.some.injEq] at h
                subst h
                refine ⟨⟨?_, ?_, by simp, ?_⟩, ⟨ins, rfl⟩, ⟨_, rfl⟩,
                  ⟨[s.nodes.length], rfl⟩⟩
                · refine NodesWF_ext hwf.nodes_wf (by rw [utf8Len_append]; omega) ?_
                  intro j nd hj
                  have hj1 : j < 1 := by
                    have := (List.getElem?_eq_some.mp hj).1
                    simpa using this
                  interval_cases j
                  simp only [List.getElem?_cons_zero, Option.some.injEq] at hj
                  rw [Nat.add_zero, ← hj]
                  unfold NodeWFAt Node.of_segment
                  refine ⟨?_, ?_, rfl⟩
                  · show utf8Len s.buffer ≤ utf8Len s.buffer + utf8Len ins
                    omega
                  · show utf8Len s.buffer + utf8Len ins ≤ utf8Len (s.buffer ++ ins)
                    rw [utf8Len_append]
                · show (s.nodes ++ _)[0]? = _
                  rw [List.getElem?_append_left hn0]
                  exact hwf.node_zero
                · intro v a hv
                  show a < (s.nodes ++ _).length
                  rcases getElem?_append_singleton hv with hv' | hv'
                  · have := hwf.versions_lt _ _ hv'
                    simp only [List.length_append, List.length_cons, List.length_nil]
                    omega
                  · subst hv'
                    simp
              · rw [if_neg hzero] at h
                cases hrec : insert_str_recursively
                    (BytesSegment.of_length (utf8Len s.buffer) (utf8Len ins))
                    s.nodes.length s.nodes node address i with
                | none => rw [hrec] at h; cases h
                | some r =>
                    obtain ⟨nodes₁, addr₁⟩ := r
                    rw [hrec] at h
                    simp only [Option.some_bind, Option.pure_def,
                      Option.some.injEq] at h
                    subst h
                    have hσb : (BytesSegment.of_length (utf8Len s.buffer)
                        (utf8Len ins)).begin ≤
                        (BytesSegment.of_length (utf8Len s.buffer)
                          (utf8Len ins)).stop := by
                      show utf8Len s.buffer ≤ utf8Len s.buffer + utf8Len ins
                      omega
                    have hσe : (BytesSegment.of_length (utf8Len s.buffer)
                        (utf8Len ins)).stop ≤ utf8Len (s.buffer ++ ins) := by
                      show utf8Len s.buffer + utf8Len ins ≤ _
                      rw [utf8Len_append]
                    have hwf' : NodesWF (utf8Len (s.buffer ++ ins)) s.nodes :=
                      NodesWF_mono hwf.nodes_wf (by rw [utf8Len_append]; omega)
                    obtain ⟨⟨ext, hext⟩, hwf₁, _⟩ :=
                      insert_rec_struct hσb hσe hwf' hnode hlt (by omega) hrec
                    refine ⟨⟨hwf₁, ?_, by simp, ?_⟩, ⟨ins, rfl⟩, ⟨ext, hext⟩,
                      ⟨[addr₁], rfl⟩⟩
                    · show nodes₁[0]? = _
                      rw [hext, List.getElem?_append_left hn0]
                      exact hwf.node_zero
                    · intro v a hv
                      show a < nodes₁.length
                      have h2 : s.nodes.length ≤ nodes₁.length := by
                        rw [hext, List.length_append]
                        omega
                      rcases getElem?_append_singleton hv with hv' | hv'
                      · have := hwf.versions_lt _ _ hv'
                        omega
                      · subst hv'
                        obtain ⟨_, _, hwfx⟩ := insert_rec_struct hσb hσe hwf' hnode
                          hlt (by omega) hrec
                        obtain ⟨n', hn', _⟩ := hwfx
                        exact (List.getElem?_eq_some.mp hn').1

end RopePersistentString

namespace RopePersistentString

/-- Every successful engine operation preserves the invariant and only
extends the buffer, the node arena and the version list. -/
theorem ropeStep_spec {s : RopePersistentString} (hwf : WF s) {op : RopeOp}
    {s' : RopePersistentString} (h : ropeStep s op = some s') :
    WF s' ∧ (∃ eb, s'.buffer = s.buffer ++ eb) ∧ (∃ en, s'.nodes = s.nodes ++ en) ∧
      (∃ ev, s'.versions = s.versions ++ ev) := by
  cases op with
  | push c =>
      exact push_preserves hwf h
  | push_str str =>
      exact push_str_preserves hwf h
  | pop =>
      replace h : (s.pop).map (·.2) = some s' := h
      cases hp : s.pop with
      | none => rw [hp] at h; cases h
      | some p =>
          obtain ⟨res, s₂⟩ := p
          rw [hp] at h
          replace h : some s₂ = some s' := h
          simp only [Option.some.injEq] at h
          subst h
          obtain ⟨hwf₂, heb, hen, hev⟩ := pop_spec hwf hp
          exact ⟨hwf₂, heb, hen, hev⟩
  | repeatString n =>
      obtain ⟨s₁, hrep, hwf₁, hbuf, hen, ⟨r, hev⟩, _⟩ := repeat_spec hwf n
      replace h : s.repeatString n = some s' := h
      rw [hrep] at h
      simp only [Option.some.injEq] at h
      subst h
      exact ⟨hwf₁, ⟨[], by simp [hbuf]⟩, hen, ⟨[r], hev⟩⟩
  | remove i =>
      replace h : (Option.map (·.2) (s.remove i)) = some s' := h
      simp only [remove, Option.map_none] at h
      cases h
  | retain p =>
      replace h : s.retain p = some s' := h
      simp only [retain] at h
      cases h
  | insert i c =>
      exact insert_str_preserves hwf h
  | insert_str i str =>
      exact insert_str_preserves hwf h
  | try_switch_version v =>
      replace h : some (s.try_switch_version v).2 = some s' := h
      simp only [Option.some.injEq] at h
      subst h
      unfold try_switch_version
      by_cases hv : v < s.versions.length
      · rw [if_pos hv]
        exact ⟨⟨hwf.nodes_wf, hwf.node_zero, hv, hwf.versions_lt⟩,
          ⟨[], by simp⟩, ⟨[], by simp⟩, ⟨[], by simp⟩⟩
      · rw [if_neg hv]
        exact ⟨hwf, ⟨[], by simp⟩, ⟨[], by simp⟩, ⟨[], by simp⟩⟩
  | switch_version v =>
      replace h : s.switch_version v = some s' := h
      unfold switch_version try_switch_version at h
      by_cases hv : v < s.versions.length
      · rw [if_pos hv] at h
        simp only [Option.some.injEq] at h
        subst h
        exact ⟨⟨hwf.nodes_wf, hwf.node_zero, hv, hwf.versions_lt⟩,
          ⟨[], by simp⟩, ⟨[], by simp⟩, ⟨[], by simp⟩⟩
      · rw [if_neg hv] at h
        cases h

/-- Invariant preservation and state extension along any successful run. -/
theorem ropeRunFrom_spec :
    ∀ (ops : List RopeOp) {s : RopePersistentString}, WF s →
      ∀ {s' : RopePersistentString}, ropeRunFrom s ops = some s' →
      WF s' ∧ (∃ eb, s'.buffer = s.buffer ++ eb) ∧
        (∃ en, s'.nodes = s.nodes ++ en) ∧ (∃ ev, s'.versions = s.versions ++ ev) := by
  intro ops
  induction ops with
  | nil =>
      intro s hwf s' h
      replace h : some s = some s' := h
      simp only [Option.some.injEq] at h
      subst h
      exact ⟨hwf, ⟨[], by simp⟩, ⟨[], by simp⟩, ⟨[], by simp⟩⟩
  | cons op ops ih =>
      intro s hwf s' h
      replace h : (ropeStep s op).bind (fun s₁ => ropeRunFrom s₁ ops) = some s' := h
      cases hstep : ropeStep s op with
      | none => rw [hstep] at h; cases h
      | some s₁ =>
          rw [hstep] at h
          simp only [Option.some_bind] at h
          obtain ⟨hwf₁, ⟨eb₁, hb₁⟩, ⟨en₁, hn₁⟩, ⟨ev₁, hv₁⟩⟩ := ropeStep_spec hwf hstep
          obtain ⟨hwf₂, ⟨eb₂, hb₂⟩, ⟨en₂, hn₂⟩, ⟨ev₂, hv₂⟩⟩ := ih hwf₁ h
          refine ⟨hwf₂, ⟨eb₁ ++ eb₂, ?_⟩, ⟨en₁ ++ en₂, ?_⟩, ⟨ev₁ ++ ev₂, ?_⟩⟩
          · rw [hb₂, hb₁, List.append_assoc]
          · rw [hn₂, hn₁, List.append_assoc]
          · rw [hv₂, hv₁, List.append_assoc]

/-- Every state reached by a panic-free run from `new()` is well-formed. -/
theorem ropeRun_WF {ops : List RopeOp} {s : RopePersistentString}
    (h : ropeRun ops = some s) : WF s :=
  (ropeRunFrom_spec ops new_WF h).1

end RopePersistentString

namespace LongBuffer

theorem segmentsStr_nil (buffer : List Char) : segmentsStr buffer [] = some [] := rfl

theorem segmentsStr_cons (buffer : List Char) (seg : Segment) (rest : List Segment) :
    segmentsStr buffer (seg :: rest) =
      (Segment.as_str seg buffer).bind (fun x =>
        (segmentsStr buffer rest).bind (fun r => some (x ++ r))) := rfl

/-- A successful segment concatenation is stable under appending to the
buffer. -/
theorem segmentsStr_ext {buffer : List Char} (ext : List Char) :
    ∀ {segs : List Segment} {t : List Char},
      segmentsStr buffer segs = some t → segmentsStr (buffer ++ ext) segs = some t := by
  intro segs
  induction segs with
  | nil => intro t h; exact h
  | cons seg rest ih =>
      intro t h
      rw [segmentsStr_cons] at h ⊢
      cases hx : Segment.as_str seg buffer with
      | none => rw [hx] at h; cases h
      | some x =>
          rw [hx] at h
          simp only [Option.some_bind] at h
          cases hr : segmentsStr buffer rest with
          | none => rw [hr] at h; cases h
          | some r =>
              rw [hr] at h
              simp only [Option.some_bind] at h
              have hx' : Segment.as_str seg (buffer ++ ext) = some x :=
                sliceStr_append_ext ext hx
              rw [hx', ih hr]
              simp only [Option.some_bind]
              exact h

theorem segmentsStr_append {buffer : List Char} :
    ∀ {xs : List Segment} {a : List Char}, segmentsStr buffer xs = some a →
      ∀ {ys : List Segment} {b : List Char}, segmentsStr buffer ys = some b →
      segmentsStr buffer (xs ++ ys) = some (a ++ b) := by
  intro xs
  induction xs with
  | nil =>
      intro a ha ys b hb
      replace ha : some [] = some a := ha
      simp only [Option.some.injEq] at ha
      subst ha
      simpa using hb
  | cons seg rest ih =>
      intro a ha ys b hb
      rw [segmentsStr_cons] at ha
      rw [List.cons_append, segmentsStr_cons]
      cases hx : Segment.as_str seg buffer with
      | none => rw [hx] at ha; cases ha
      | some x =>
          rw [hx] at ha
          simp only [Option.some_bind] at ha
          cases hr : segmentsStr buffer rest with
          | none => rw [hr] at ha; cases ha
          | some r =>
              rw [hr] at ha
              simp only [Option.some_bind, Option.some.injEq] at ha
              subst ha
              rw [ih hr hb]
              simp only [Option.some_bind, Option.some.injEq]
              simp [List.append_assoc]

/-- Appending one segment with a known slice. -/
theorem segmentsStr_push {buffer : List Char} {segs : List Segment} {acc : List Char}
    (h1 : segmentsStr buffer segs = some acc) {seg : Segment} {x : List Char}
    (h2 : Segment.as_str seg buffer = some x) :
    segmentsStr buffer (segs ++ [seg]) = some (acc ++ x) := by
  refine segmentsStr_append h1 ?_
  rw [segmentsStr_cons, h2]
  simp only [Option.some_bind]
  rw [segmentsStr_nil]
  simp

theorem segmentsStr_flatten_replicate {buffer : List Char} {segs : List Segment}
    {t : List Char} (h : segmentsStr buffer segs = some t) :
    ∀ n, segmentsStr buffer (List.replicate n segs).flatten =
      some ((List.replicate n t).flatten) := by
  intro n
  induction n with
  | zero => rfl
  | succ n ih =>
      rw [List.replicate_succ, List.flatten_cons, List.replicate_succ,
        List.flatten_cons]
      exact segmentsStr_append h ih

/-- `Version::build` agrees with the plain segment concatenation, because
the empty segment list also concatenates to the empty string. -/
theorem Version.build_eq (v : Version) (buffer : List Char) :
    Version.build v buffer = segmentsStr buffer v.segments := by
  unfold Version.build
  cases hs : v.segments with
  | nil => rfl
  | cons a l => rfl

end LongBuffer

namespace LongBufferPersistentString

open LongBuffer

/-- In the segment-list strategy, `push(c)` followed by `pop()` returns the
pushed character and restores the snapshot: the freshly pushed one-character
segment is dropped whole, because its (buggy) `len` is `utf8Size c - 1`,
which is never greater than `utf8Size c`. -/
theorem lb_push_pop {s : LongBufferPersistentString} {t : List Char}
    (ht : snapshot s = some t) (c : Char) :
    ∃ s₁ s₂, push s c = some s₁ ∧ pop s₁ = some (some c, s₂) ∧
      snapshot s₂ = some t := by
  unfold snapshot at ht
  cases hv : s.versions[s.current_version]? with
  | none => rw [hv] at ht; cases ht
  | some old =>
      rw [hv] at ht
      simp only [Option.bind_eq_bind, Option.some_bind] at ht
      rw [Version.build_eq] at ht
      have hpush : push s c = some
          { buffer := s.buffer ++ [c]
            versions := s.versions ++
              [⟨old.segments ++ [⟨utf8Len s.buffer, utf8Len (s.buffer ++ [c])⟩],
                old.length + c.utf8Size⟩]
            current_version := s.versions.length } := by
        unfold push
        rw [hv]
        rfl
      have hstr : Segment.as_str
          (⟨utf8Len s.buffer, utf8Len (s.buffer ++ [c])⟩ : Segment)
          (s.buffer ++ [c]) = some [c] := by
        show sliceStr (s.buffer ++ [c]) (utf8Len s.buffer)
          (utf8Len (s.buffer ++ [c])) = some [c]
        rw [utf8Len_append]
        exact sliceStr_suffix s.buffer [c]
      have hseglen : (⟨utf8Len s.buffer,
          utf8Len (s.buffer ++ [c])⟩ : Segment).len = c.utf8Size - 1 := by
        show utf8Len (s.buffer ++ [c]) - (utf8Len s.buffer + 1) = c.utf8Size - 1
        rw [utf8Len_append]
        show utf8Len s.buffer + (c.utf8Size + 0) - (utf8Len s.buffer + 1) = _
        omega
      have hcond : ¬ (c.utf8Size <
          (⟨utf8Len s.buffer, utf8Len (s.buffer ++ [c])⟩ : Segment).len) := by
        rw [hseglen]
        omega
      have hpop : pop
          { buffer := s.buffer ++ [c]
            versions := s.versions ++
              [⟨old.segments ++ [⟨utf8Len s.buffer, utf8Len (s.buffer ++ [c])⟩],
                old.length + c.utf8Size⟩]
            current_version := s.versions.length } = some (some c,
          { buffer := s.buffer ++ [c]
            versions := (s.versions ++
              [⟨old.segments ++ [⟨utf8Len s.buffer, utf8Len (s.buffer ++ [c])⟩],
                old.length + c.utf8Size⟩]) ++
              [⟨old.segments, old.length + c.utf8Size⟩]
            current_version := (s.versions ++
              [(⟨old.segments ++ [⟨utf8Len s.buffer, utf8Len (s.buffer ++ [c])⟩],
                old.length + c.utf8Size⟩ : Version)]).length }) := by
        unfold pop
        simp only [List.getElem?_concat_length, Option.bind_eq_bind,
          Option.some_bind, List.getLast?_concat]
        rw [hstr]
        simp only [Option.some_bind, List.getLast?_singleton]
        rw [if_neg hcond]
        simp only [List.dropLast_concat]
      have hsnap : snapshot
          { buffer := s.buffer ++ [c]
            versions := (s.versions ++
              [⟨old.segments ++ [⟨utf8Len s.buffer, utf8Len (s.buffer ++ [c])⟩],
                old.length + c.utf8Size⟩]) ++
              [⟨old.segments, old.length + c.utf8Size⟩]
            current_version := (s.versions ++
              [(⟨old.segments ++ [⟨utf8Len s.buffer, utf8Len (s.buffer ++ [c])⟩],
                old.length + c.utf8Size⟩ : Version)]).length } = some t := by
        unfold snapshot
        simp only [List.getElem?_concat_length, Option.bind_eq_bind,
          Option.some_bind]
        rw [Version.build_eq]
        show segmentsStr (s.buffer ++ [c]) old.segments = some t
        exact segmentsStr_ext [c] ht
      exact ⟨_, _, hpush, hpop, hsnap⟩

/-- In the segment-list strategy, `repeat(times)` allocates one new version
whose snapshot is the current text repeated and whose stored length is the
stored length multiplied. -/
theorem lb_repeat_spec {s : LongBufferPersistentString} {t : List Char}
    (ht : snapshot s = some t) (times : Nat) :
    ∃ s', repeatString s times = some s' ∧
      s'.buffer = s.buffer ∧
      (∃ nv, s'.versions = s.versions ++ [nv]) ∧
      s'.current_version = s.versions.length ∧
      snapshot s' = some ((List.replicate times t).flatten) ∧
      (∀ L, len s = some L → len s' = some (L * times)) := by
  unfold snapshot at ht
  cases hv : s.versions[s.current_version]? with
  | none => rw [hv] at ht; cases ht
  | some old =>
      rw [hv] at ht
      simp only [Option.bind_eq_bind, Option.some_bind] at ht
      rw [Version.build_eq] at ht
      have hrep : repeatString s times = some
          { s with
            versions := s.versions ++
              [⟨(List.replicate times old.segments).flatten, old.length * times⟩]
            current_version := s.versions.length } := by
        unfold repeatString
        rw [hv]
        rfl
      refine ⟨_, hrep, rfl, ⟨_, rfl⟩, rfl, ?_, ?_⟩
      · unfold snapshot
        simp only [List.getElem?_concat_length, Option.bind_eq_bind,
          Option.some_bind]
        rw [Version.build_eq]
        show segmentsStr s.buffer (List.replicate times old.segments).flatten = _
        exact segmentsStr_flatten_replicate ht times
      · intro L hL
        unfold len at hL ⊢
        rw [hv] at hL
        simp only [Option.map_some', Option.some.injEq] at hL
        simp only [List.getElem?_concat_length, Option.map_some']
        show some (old.length * times) = some (L * times)
        rw [← hL]

end LongBufferPersistentString

namespace RopePersistentString

/-- In the rope strategy, `push(c)` followed by `pop()` returns the pushed
character: the pop descends into the fresh one-character leaf, which
vanishes, so the left child of the fresh root — the previous root — becomes
the new current version, restoring the snapshot. -/
theorem rope_push_pop {s : RopePersistentString} (hwf : WF s) {t : List Char}
    (ht : snapshot s = some t) (c : Char) :
    ∃ s₁ s₂, push s c = some s₁ ∧ pop s₁ = some (some c, s₂) ∧
      snapshot s₂ = some t := by
  obtain ⟨address, current_node, haddr, hnode, hpush⟩ := push_spec hwf c
  have hbuild : build_snapshot s.buffer s.nodes s.nodes.length
      current_node.body = some t := by
    unfold snapshot at ht
    rw [haddr] at ht
    simp only [Option.bind_eq_bind, Option.some_bind] at ht
    rw [hnode] at ht
    simpa using ht
  have hlt : address < s.nodes.length := hwf.versions_lt _ _ haddr
  have hsize := Char.utf8Size_pos c
  have hlookpar : (s.nodes ++
      [⟨c.utf8Size, NodeBody.Leaf ⟨utf8Len s.buffer, utf8Len s.buffer + c.utf8Size⟩⟩,
       ⟨current_node.length + c.utf8Size,
        NodeBody.Parent address s.nodes.length⟩])[s.nodes.length + 1]? =
      some ⟨current_node.length + c.utf8Size,
        NodeBody.Parent address s.nodes.length⟩ := by
    rw [getElem?_append_list]
    rfl
  have hlookleaf : (s.nodes ++
      [⟨c.utf8Size, NodeBody.Leaf ⟨utf8Len s.buffer, utf8Len s.buffer + c.utf8Size⟩⟩,
       ⟨current_node.length + c.utf8Size,
        NodeBody.Parent address s.nodes.length⟩])[s.nodes.length]? =
      some ⟨c.utf8Size,
        NodeBody.Leaf ⟨utf8Len s.buffer, utf8Len s.buffer + c.utf8Size⟩⟩ := by
    rw [show s.nodes.length = s.nodes.length + 0 from rfl, getElem?_append_list]
    rfl
  have hlookcur : (s.nodes ++
      [⟨c.utf8Size, NodeBody.Leaf ⟨utf8Len s.buffer, utf8Len s.buffer + c.utf8Size⟩⟩,
       ⟨current_node.length + c.utf8Size,
        NodeBody.Parent address s.nodes.length⟩])[address]? = some current_node := by
    rw [List.getElem?_append_left hlt]
    exact hnode
  have hstr : (⟨utf8Len s.buffer,
      utf8Len s.buffer + c.utf8Size⟩ : BytesSegment).as_str (s.buffer ++ [c]) =
      some [c] := by
    show sliceStr (s.buffer ++ [c]) (utf8Len s.buffer)
      (utf8Len s.buffer + c.utf8Size) = some [c]
    have := sliceStr_suffix s.buffer [c]
    rw [show utf8Len [c] = c.utf8Size from by simp [utf8Len]] at this
    exact this
  have hseglen : (⟨utf8Len s.buffer,
      utf8Len s.buffer + c.utf8Size⟩ : BytesSegment).len = c.utf8Size := by
    show utf8Len s.buffer + c.utf8Size - utf8Len s.buffer = c.utf8Size
    omega
  have hpop : pop
      { buffer := s.buffer ++ [c]
        nodes := s.nodes ++
          [⟨c.utf8Size,
            NodeBody.Leaf ⟨utf8Len s.buffer, utf8Len s.buffer + c.utf8Size⟩⟩,
           ⟨current_node.length + c.utf8Size,
            NodeBody.Parent address s.nodes.length⟩]
        versions := s.versions ++ [s.nodes.length + 1]
        current_version := s.versions.length } = some (some c,
      { buffer := s.buffer ++ [c]
        nodes := s.nodes ++
          [⟨c.utf8Size,
            NodeBody.Leaf ⟨utf8Len s.buffer, utf8Len s.buffer + c.utf8Size⟩⟩,
           ⟨current_node.length + c.utf8Size,
            NodeBody.Parent address s.nodes.length⟩]
        versions := (s.versions ++ [s.nodes.length + 1]) ++ [address]
        current_version := (s.versions ++ [s.nodes.length + 1]).length }) := by
    rw [pop_def]
    simp only [List.getElem?_concat_length, Option.some_bind]
    rw [hlookpar]
    simp only [Option.some_bind]
    rw [if_neg (show ¬ (current_node.length + c.utf8Size = 0) from by omega)]
    rw [show (s.nodes ++
        [(⟨c.utf8Size,
          NodeBody.Leaf ⟨utf8Len s.buffer, utf8Len s.buffer + c.utf8Size⟩⟩ : Node),
         (⟨current_node.length + c.utf8Size,
          NodeBody.Parent address s.nodes.length⟩ : Node)]).length =
        s.nodes.length + 1 + 1 from by simp]
    rw [pop_rec_parent]
    rw [hlookleaf]
    simp only [Option.some_bind]
    rw [pop_rec_leaf]
    rw [hstr]
    simp only [Option.some_bind, List.getLast?_singleton]
    rw [if_pos (show (⟨utf8Len s.buffer,
        utf8Len s.buffer + c.utf8Size⟩ : BytesSegment).len - c.utf8Size = 0 from by
      rw [hseglen]
      omega)]
    simp only [Option.some_bind]
  have hsnap : snapshot
      { buffer := s.buffer ++ [c]
        nodes := s.nodes ++
          [⟨c.utf8Size,
            NodeBody.Leaf ⟨utf8Len s.buffer, utf8Len s.buffer + c.utf8Size⟩⟩,
           ⟨current_node.length + c.utf8Size,
            NodeBody.Parent address s.nodes.length⟩]
        versions := (s.versions ++ [s.nodes.length + 1]) ++ [address]
        current_version := (s.versions ++ [s.nodes.length + 1]).length } =
      some t := by
    unfold snapshot
    simp only [List.getElem?_concat_length, Option.bind_eq_bind, Option.some_bind]
    rw [hlookcur]
    simp only [Option.some_bind]
    refine build_snapshot_fuel_mono ?_ (build_snapshot_append_ext [c]
      [⟨c.utf8Size, NodeBody.Leaf ⟨utf8Len s.buffer, utf8Len s.buffer + c.utf8Size⟩⟩,
       ⟨current_node.length + c.utf8Size,
        NodeBody.Parent address s.nodes.length⟩] hbuild)
    simp
  exact ⟨_, _, hpush, hpop, hsnap⟩

end RopePersistentString

theorem sliceStr_start_nil {buf t : List Char} {b e : Nat}
    (h : sliceStr buf b e = some t) : sliceStr buf b b = some [] := by
  unfold sliceStr at h
  by_cases hbe : b ≤ e
  · rw [if_pos hbe] at h
    cases hdrop : charsDrop buf b with
    | none => rw [hdrop] at h; cases h
    | some r => exact sliceStr_nil_of_charsDrop hdrop
  · rw [if_neg hbe] at h; cases h

namespace LongBufferPersistentString

open LongBuffer

theorem retainLoop_nil (p : Char → Bool) (b l : Nat) (segs : List Segment)
    (rem : Nat) : retainLoop p [] b l segs rem = (segs, b, l, rem) := rfl

theorem retainLoop_cons (p : Char → Bool) (c : Char) (cs : List Char)
    (b l : Nat) (segs : List Segment) (rem : Nat) :
    retainLoop p (c :: cs) b l segs rem =
      if p c then retainLoop p cs b (l + c.utf8Size) segs rem
      else retainLoop p cs (b + l + c.utf8Size) 0
        (match Segment.try_from_of_length b l with
         | some seg => segs ++ [seg]
         | none => segs) (rem + c.utf8Size) := rfl

/-- The inner `retain` loop: given that the pending run `[b, b + l)` slices
to `kept` and the remaining characters `cs` sit immediately after it, the
loop flushes and restarts runs so that the flushed segments plus the final
pending run spell out the filtered characters. -/
theorem retainLoop_spec {buffer : List Char} (p : Char → Bool) :
    ∀ (cs : List Char) (b l : Nat) (segs : List Segment) (rem : Nat)
      {acc kept : List Char},
      segmentsStr buffer segs = some acc →
      sliceStr buffer b (b + l) = some kept →
      sliceStr buffer (b + l) (b + l + utf8Len cs) = some cs →
      ∃ segs' b' l' rem',
        retainLoop p cs b l segs rem = (segs', b', l', rem') ∧
        ∃ acc' kept',
          segmentsStr buffer segs' = some acc' ∧
          sliceStr buffer b' (b' + l') = some kept' ∧
          acc' ++ kept' = acc ++ kept ++ cs.filter p ∧
          b' + l' = b + l + utf8Len cs := by
  intro cs
  induction cs with
  | nil =>
      intro b l segs rem acc kept hsegs hkept _
      exact ⟨segs, b, l, rem, rfl, acc, kept, hsegs, hkept, by simp,
        by simp [utf8Len]⟩
  | cons c cs ih =>
      intro b l segs rem acc kept hsegs hkept hcs
      have hlen_cons : utf8Len (c :: cs) = c.utf8Size + utf8Len cs := rfl
      rw [hlen_cons] at hcs
      have h1 : sliceStr buffer (b + l) (b + l + c.utf8Size) = some [c] := by
        have h := (sliceStr_split hcs 1).1
        simpa [utf8Len] using h
      have h2 : sliceStr buffer (b + l + c.utf8Size)
          (b + l + (c.utf8Size + utf8Len cs)) = some cs := by
        have h := (sliceStr_split hcs 1).2
        simpa [utf8Len] using h
      by_cases hpc : p c = true
      · rw [retainLoop_cons, if_pos hpc]
        have hkept' : sliceStr buffer b (b + (l + c.utf8Size)) =
            some (kept ++ [c]) := by
          have := sliceStr_concat hkept h1
          rw [show b + (l + c.utf8Size) = b + l + c.utf8Size from by omega]
          exact this
        have hcs' : sliceStr buffer (b + (l + c.utf8Size))
            (b + (l + c.utf8Size) + utf8Len cs) = some cs := by
          rw [show b + (l + c.utf8Size) = b + l + c.utf8Size from by omega,
            show b + l + c.utf8Size + utf8Len cs =
              b + l + (c.utf8Size + utf8Len cs) from by omega]
          exact h2
        obtain ⟨segs', b', l', rem', hrl, acc', kept'', hs', hk', heq, hpos⟩ :=
          ih b (l + c.utf8Size) segs rem hsegs hkept' hcs'
        refine ⟨segs', b', l', rem', hrl, acc', kept'', hs', hk', ?_, ?_⟩
        · rw [heq]
          simp [List.filter_cons, hpc, List.append_assoc]
        · show b' + l' = b + l + (c.utf8Size + utf8Len cs)
          omega
      · rw [retainLoop_cons, if_neg hpc]
        have hpc' : p c = false := by
          revert hpc
          cases p c <;> simp
        have hsegs₁ : segmentsStr buffer
            (match Segment.try_from_of_length b l with
             | some seg => segs ++ [seg]
             | none => segs) = some (acc ++ kept) := by
          cases l with
          | zero =>
              rw [show Segment.try_from_of_length b 0 = none from by
                unfold Segment.try_from_of_length
                rw [if_neg (by omega)]]
              have hk0 : kept = [] := by
                have := (sliceStr_some_utf8Len hkept).2
                exact utf8Len_eq_zero (by omega)
              subst hk0
              show segmentsStr buffer segs = some (acc ++ [])
              simpa using hsegs
          | succ k =>
              rw [show Segment.try_from_of_length b (k + 1) =
                  some ⟨b, b + (k + 1)⟩ from by
                unfold Segment.try_from_of_length
                rw [if_pos (Nat.succ_pos k)]]
              show segmentsStr buffer (segs ++ [⟨b, b + (k + 1)⟩]) =
                some (acc ++ kept)
              exact segmentsStr_push hsegs (show Segment.as_str
                ⟨b, b + (k + 1)⟩ buffer = some kept from hkept)
        have hnil : sliceStr buffer (b + l + c.utf8Size)
            (b + l + c.utf8Size + 0) = some [] :=
          sliceStr_start_nil h2
        have h2' : sliceStr buffer (b + l + c.utf8Size + 0)
            (b + l + c.utf8Size + 0 + utf8Len cs) = some cs := by
          show sliceStr buffer (b + l + c.utf8Size)
            (b + l + c.utf8Size + utf8Len cs) = some cs
          rw [show b + l + c.utf8Size + utf8Len cs =
            b + l + (c.utf8Size + utf8Len cs) from by omega]
          exact h2
        obtain ⟨segs', b', l', rem', hrl, acc', kept'', hs', hk', heq, hpos⟩ :=
          ih (b + l + c.utf8Size) 0 _ (rem + c.utf8Size) hsegs₁ hnil h2'
        refine ⟨segs', b', l', rem', hrl, acc', kept'', hs', hk', ?_, ?_⟩
        · rw [heq]
          simp [List.filter_cons, hpc', List.append_assoc]
        · show b' + l' = b + l + (c.utf8Size + utf8Len cs)
          omega

theorem retainSegments_nil (p : Char → Bool) (buffer : List Char)
    (segs : List Segment) (rem : Nat) :
    retainSegments p buffer [] segs rem = some (segs, rem) := rfl

theorem retainSegments_cons (p : Char → Bool) (buffer : List Char)
    (seg : Segment) (rest : List Segment) (segs : List Segment) (rem : Nat) :
    retainSegments p buffer (seg :: rest) segs rem =
      (Segment.as_str seg buffer).bind (fun str =>
        retainSegments p buffer rest
          (match Segment.try_from_of_length
              (retainLoop p str seg.begin 0 segs rem).2.1
              (retainLoop p str seg.begin 0 segs rem).2.2.1 with
           | some tail => (retainLoop p str seg.begin 0 segs rem).1 ++ [tail]
           | none => (retainLoop p str seg.begin 0 segs rem).1)
          (retainLoop p str seg.begin 0 segs rem).2.2.2) := rfl

/-- The outer `retain` loop keeps, in order, exactly the characters
satisfying the filter. -/
theorem retainSegments_spec {buffer : List Char} (p : Char → Bool) :
    ∀ (rest : List Segment) (segs : List Segment) (rem : Nat) {acc t : List Char},
      segmentsStr buffer segs = some acc →
      segmentsStr buffer rest = some t →
      ∃ segs' rem', retainSegments p buffer rest segs rem = some (segs', rem') ∧
        segmentsStr buffer segs' = some (acc ++ t.filter p) := by
  intro rest
  induction rest with
  | nil =>
      intro segs rem acc t hsegs ht
      replace ht : some [] = some t := ht
      simp only [Option.some.injEq] at ht
      subst ht
      exact ⟨segs, rem, rfl, by simpa using hsegs⟩
  | cons seg rest ih =>
      intro segs rem acc t hsegs ht
      rw [segmentsStr_cons] at ht
      cases hx : Segment.as_str seg buffer with
      | none => rw [hx] at ht; cases ht
      | some cs =>
          rw [hx] at ht
          simp only [Option.some_bind] at ht
          cases hr : segmentsStr buffer rest with
          | none => rw [hr] at ht; cases ht
          | some tr =>
              rw [hr] at ht
              simp only [Option.some_bind, Option.some.injEq] at ht
              subst ht
              have hslice : sliceStr buffer seg.begin seg.stop = some cs := hx
              have hcs_len : utf8Len cs = seg.stop - seg.begin :=
                (sliceStr_some_utf8Len hslice).2
              have hbe : seg.begin ≤ seg.stop := (sliceStr_some_utf8Len hslice).1
              have hnil : sliceStr buffer seg.begin (seg.begin + 0) = some [] :=
                sliceStr_start_nil hslice
              have hcs' : sliceStr buffer (seg.begin + 0)
                  (seg.begin + 0 + utf8Len cs) = some cs := by
                show sliceStr buffer seg.begin (seg.begin + utf8Len cs) = some cs
                rw [show seg.begin + utf8Len cs = seg.stop from by omega]
                exact hslice
              obtain ⟨segs₁, b', l', rem', hrl, acc', kept', hs₁, hk₁, heq, hpos⟩ :=
                retainLoop_spec p cs seg.begin 0 segs rem hsegs hnil hcs'
              rw [retainSegments_cons, hx]
              simp only [Option.some_bind]
              rw [hrl]
              have hflush : segmentsStr buffer
                  (match Segment.try_from_of_length b' l' with
                   | some tail => segs₁ ++ [tail]
                   | none => segs₁) =
                  some (acc ++ cs.filter p) := by
              -- the pending run is flushed exactly when it is non-empty
                cases hl' : l' with
                | zero =>
                    subst hl'
                    rw [show Segment.try_from_of_length b' 0 = none from by
                      unfold Segment.try_from_of_length
                      rw [if_neg (by omega)]]
                    have hk0 : kept' = [] := by
                      have := (sliceStr_some_utf8Len hk₁).2
                      exact utf8Len_eq_zero (by omega)
                    subst hk0
                    show segmentsStr buffer segs₁ = some (acc ++ cs.filter p)
                    rw [hs₁]
                    congr 1
                    simpa using heq
                | succ k =>
                    subst hl'
                    rw [show Segment.try_from_of_length b' (k + 1) =
                        some ⟨b', b' + (k + 1)⟩ from by
                      unfold Segment.try_from_of_length
                      rw [if_pos (Nat.succ_pos k)]]
                    show segmentsStr buffer (segs₁ ++ [⟨b', b' + (k + 1)⟩]) =
                      some (acc ++ cs.filter p)
                    rw [segmentsStr_push hs₁ (show Segment.as_str
                      ⟨b', b' + (k + 1)⟩ buffer = some kept' from hk₁)]
                    congr 1
                    rw [heq]
                    simp
              obtain ⟨segs₂, rem₂, hrs, hden⟩ := ih _ _ hflush hr
              refine ⟨segs₂, rem₂, hrs, ?_⟩
              rw [hden]
              congr 1
              rw [List.filter_append, List.append_assoc]

/-- The segment-list `retain(filter)` succeeds, allocates one new version,
and the new snapshot keeps exactly the characters satisfying the filter, in
order. -/
theorem lb_retain_spec {s : LongBufferPersistentString} {t : List Char}
    (ht : snapshot s = some t) (p : Char → Bool) :
    ∃ s', retain s p = some s' ∧
      s'.buffer = s.buffer ∧
      (∃ nv, s'.versions = s.versions ++ [nv]) ∧
      s'.current_version = s.versions.length ∧
      snapshot s' = some (t.filter p) := by
  unfold snapshot at ht
  cases hv : s.versions[s.current_version]? with
  | none => rw [hv] at ht; cases ht
  | some old =>
      rw [hv] at ht
      simp only [Option.bind_eq_bind, Option.some_bind] at ht
      rw [Version.build_eq] at ht
      obtain ⟨segs', rem', hrs, hden⟩ :=
        retainSegments_spec p old.segments [] 0 (segmentsStr_nil _) ht
      unfold retain
      rw [hv]
      simp only [Option.bind_eq_bind, Option.some_bind]
      rw [hrs]
      simp only [Option.some_bind, Option.pure_def]
      refine ⟨_, rfl, rfl, ⟨_, rfl⟩, rfl, ?_⟩
      unfold snapshot
      simp only [List.getElem?_concat_length, Option.bind_eq_bind, Option.some_bind]
      rw [Version.build_eq]
      show segmentsStr s.buffer segs' = some (t.filter p)
      simpa using hden

end LongBufferPersistentString

theorem popBackN_eq_take {α : Type} : ∀ (n : Nat) (l : List α),
    popBackN l n = l.take (l.length - n) := by
  intro n
  induction n with
  | zero =>
      intro l
      show l = l.take (l.length - 0)
      rw [Nat.sub_zero, List.take_length]
  | succ n ih =>
      intro l
      show popBackN l.dropLast n = l.take (l.length - (n + 1))
      rw [ih, List.length_dropLast, List.dropLast_eq_take, List.take_take]
      congr 1
      omega

namespace CowPersistentString

/-- `mutate_or_else` drops every version entry past the current one and
appends the mutated clone of the (new) back entry. -/
theorem mutate_or_else_spec (s : CowPersistentString)
    (h : s.current_version ≤ s.versions.length)
    (op : List Char → List Char) (fb : Unit → List Char) :
    (mutate_or_else s op fb).versions =
      s.versions.take s.current_version ++
        [match (s.versions.take s.current_version).getLast? with
         | some back => op back
         | none => fb ()] ∧
    (mutate_or_else s op fb).current_version = s.current_version + 1 := by
  have hc : s.versions.length - (s.versions.length - s.current_version) =
      s.current_version := by omega
  simp only [mutate_or_else]
  rw [popBackN_eq_take, hc]
  exact ⟨rfl, trivial⟩

end CowPersistentString

namespace DeltaPersistentString

/-- `push_delta` drops every delta past the current version and appends the
new delta. -/
theorem push_delta_spec (s : DeltaPersistentString)
    (h : s.current_version ≤ s.deltas.length) (d : Delta) :
    (push_delta s d).deltas = s.deltas.take s.current_version ++ [d] ∧
    (push_delta s d).current_version = s.current_version + 1 := by
  have hc : s.deltas.length - (s.deltas.length - s.current_version) =
      s.current_version := by omega
  simp only [push_delta]
  rw [popBackN_eq_take, hc]
  exact ⟨rfl, trivial⟩

end DeltaPersistentString

/-! ## Claim theorems -/

/-- Claim C1: for every reachable engine state and every valid version
handle `v` of that state, running any further sequence of implemented
mutations and switches and then calling `switch_version v` leaves the
engine in a state whose `snapshot()` is exactly the text that version `v`
denoted when it was live. -/
theorem claim1_switch_restores_version_snapshot {ops₀ ops : List RopeOp}
    {s₁ s₂ : RopePersistentString} (h₁ : ropeRun ops₀ = some s₁)
    (h₂ : ropeRunFrom s₁ ops = some s₂) {v : Nat} {t : List Char}
    (hv : v ≤ RopePersistentString.latest_version s₁)
    (ht : RopePersistentString.snapshot_at s₁ v = some t) :
    ∃ s₃, RopePersistentString.switch_version s₂ v = some s₃ ∧
      RopePersistentString.snapshot s₃ = some t := by
  have hwf₁ := RopePersistentString.ropeRun_WF h₁
  have hv' : v < s₁.versions.length := by
    have hlen := hwf₁.current_lt
    unfold RopePersistentString.latest_version at hv
    omega
  obtain ⟨hwf₂, ⟨eb, hb⟩, ⟨en, hn⟩, ⟨ev, hvv⟩⟩ :=
    RopePersistentString.ropeRunFrom_spec ops hwf₁ h₂
  have ht₂ : RopePersistentString.snapshot_at s₂ v = some t :=
    RopePersistentString.snapshot_at_ext hb hn hvv hv' ht
  have hv₂ : v < s₂.versions.length := by
    rw [hvv, List.length_append]
    omega
  refine ⟨{ s₂ with current_version := v }, ?_, ?_⟩
  · unfold RopePersistentString.switch_version
      RopePersistentString.try_switch_version
    rw [if_pos hv₂]
  · show RopePersistentString.snapshot_at s₂ v = some t
    exact ht₂

/-- Witness for C1 at the empty run. -/
theorem claim1_witness :
    ∃ s₃, RopePersistentString.switch_version RopePersistentString.new 0 =
      some s₃ ∧ RopePersistentString.snapshot s₃ = some [] :=
  @claim1_switch_restores_version_snapshot [] [] RopePersistentString.new
    RopePersistentString.new rfl rfl 0 [] (by decide) rfl

/-- Claim C2 (amended): in the copy-on-write and delta strategies a
mutation performed while the current version is an earlier handle REPLACES
every later entry: the version (respectively delta) list becomes the prefix
up to the current version plus the single new entry, so the overwritten
versions are not preserved. -/
theorem claim2_mutation_replaces_redo_suffix :
    (∀ (s : CowPersistentString) (op : List Char → List Char)
        (fb : Unit → List Char),
      s.current_version ≤ s.versions.length →
      (CowPersistentString.mutate_or_else s op fb).versions =
        s.versions.take s.current_version ++
          [match (s.versions.take s.current_version).getLast? with
           | some back => op back
           | none => fb ()] ∧
      (CowPersistentString.mutate_or_else s op fb).current_version =
        s.current_version + 1) ∧
    (∀ (s : DeltaPersistentString) (d : Delta),
      s.current_version ≤ s.deltas.length →
      (DeltaPersistentString.push_delta s d).deltas =
        s.deltas.take s.current_version ++ [d] ∧
      (DeltaPersistentString.push_delta s d).current_version =
        s.current_version + 1) :=
  ⟨fun s op fb h => CowPersistentString.mutate_or_else_spec s h op fb,
   fun s d h => DeltaPersistentString.push_delta_spec s h d⟩

/-- Witness for C2 on a concrete two-version state. -/
theorem claim2_witness :
    (CowPersistentString.mutate_or_else ⟨[['a'], ['b']], 1⟩
        (fun c => c ++ ['x']) (fun _ => [])).versions =
      ([['a'], ['b']] : List (List Char)).take 1 ++
        [match (([['a'], ['b']] : List (List Char)).take 1).getLast? with
         | some back => back ++ ['x']
         | none => []] :=
  (claim2_mutation_replaces_redo_suffix.1 ⟨[['a'], ['b']], 1⟩
    (fun c => c ++ ['x']) (fun _ => []) (by decide)).1

/-- Counterexample to C2 as stated: the content of version handle `2`
changes from ab to ac after an undo followed by a new mutation, so earlier
handles do not keep their original content. -/
theorem claim2_counterexample :
    (cowRun [CowOp.push_str ['a'], CowOp.push_str ['b']]).snapshot_of_version 2 =
      ['a', 'b'] ∧
    (cowRun [CowOp.push_str ['a'], CowOp.push_str ['b'], CowOp.undo,
      CowOp.push_str ['c']]).snapshot_of_version 2 = ['a', 'c'] ∧
    (['a', 'c'] : List Char) ≠ ['a', 'b'] :=
  ⟨rfl, rfl, by decide⟩

/-- Claim C3 (amended): `insert_str(i, s)` interprets `i` as a BYTE offset
into the current text, not a character index: at the byte offset of any
character boundary `k` it succeeds, allocates exactly one new version, and
splices the insertion in at character position `k`; it panics exactly when
`i` exceeds the byte length of the current text; and `insert` is the
one-character case of `insert_str`. -/
theorem claim3_insert_str_is_byte_indexed {ops : List RopeOp}
    {s : RopePersistentString} (hreach : ropeRun ops = some s)
    {t : List Char} (ht : RopePersistentString.snapshot s = some t)
    (ins : List Char) :
    (∀ k, k ≤ t.length →
      ∃ s', RopePersistentString.insert_str s (utf8Len (t.take k)) ins =
          some s' ∧
        RopePersistentString.snapshot s' = some (t.take k ++ ins ++ t.drop k) ∧
        (∃ r, s'.versions = s.versions ++ [r]) ∧
        s'.current_version = s.versions.length) ∧
    (∀ i, utf8Len t < i → RopePersistentString.insert_str s i ins = none) ∧
    (∀ i c, RopePersistentString.insert s i c =
      RopePersistentString.insert_str s i [c]) := by
  have hwf := RopePersistentString.ropeRun_WF hreach
  refine ⟨?_, ?_, fun i c => rfl⟩
  · intro k hk
    obtain ⟨s', hins, hwf', hbuf, hnodes, hver, hcur, hsnap⟩ :=
      RopePersistentString.insert_str_spec hwf ht hk ins
    exact ⟨s', hins, hsnap, hver, hcur⟩
  · intro i hi
    exact RopePersistentString.insert_str_gt_len_none hwf ht hi ins

/-- Witness for C3 on the empty state. -/
theorem claim3_witness :
    ∃ s', RopePersistentString.insert_str RopePersistentString.new
        (utf8Len (([] : List Char).take 0)) ['x'] = some s' ∧
      RopePersistentString.snapshot s' =
        some (([] : List Char).take 0 ++ ['x'] ++ ([] : List Char).drop 0) ∧
      (∃ r, s'.versions = RopePersistentString.new.versions ++ [r]) ∧
      s'.current_version = RopePersistentString.new.versions.length :=
  (@claim3_insert_str_is_byte_indexed [] RopePersistentString.new rfl [] rfl
    ['x']).1 0 (by decide)

/-- Counterexample to C3 as stated: with current text é (one character,
two bytes), `insert_str 2` succeeds and appends, although `2` exceeds the
character length `1`, where the claim demands a panic. -/
theorem claim3_counterexample :
    (ropeRun [RopeOp.insert_str 0 ['é'],
      RopeOp.insert_str 2 ['x']]).bind RopePersistentString.snapshot =
      some ['é', 'x'] ∧
    ¬ (2 ≤ (['é'] : List Char).length) :=
  ⟨rfl, by decide⟩

/-- Claim C4 is violated by the segment-list strategy: popping from the
two-character text ab returns the popped character, but the new snapshot is
empty instead of a, because the off-by-one `Segment::len` makes `pop` drop
the whole segment. -/
theorem claim4_pop_snapshot_bug :
    (lbRun [LBOp.push_str ['a', 'b']]).bind (fun s =>
      (LongBufferPersistentString.pop s).map (fun r =>
        (r.1, LongBufferPersistentString.snapshot r.2))) =
      some (some 'b', some []) ∧
    (some [] : Option (List Char)) ≠ some ['a'] :=
  ⟨rfl, by decide⟩

/-- Claim C5 is violated by the segment-list strategy: after a pop the
stored `length` field is not decremented, so `len()` returns 3 while the
snapshot ab has UTF-8 byte length 2. -/
theorem claim5_len_not_byte_length :
    (lbRun [LBOp.push_str ['a', 'b', 'c'], LBOp.pop]).bind (fun s =>
      some (LongBufferPersistentString.snapshot s,
        LongBufferPersistentString.len s)) =
      some (some ['a', 'b'], some 3) ∧
    utf8Len ['a', 'b'] = 2 ∧ (2 : Nat) ≠ 3 :=
  ⟨rfl, rfl, by decide⟩

/-- Claim C6: in both strategies that implement `push` and `pop`, `push(c)`
followed by `pop()` returns the pushed character and restores the previous
snapshot. -/
theorem claim6_push_then_pop :
    (∀ {ops : List RopeOp} {s : RopePersistentString}, ropeRun ops = some s →
      ∀ {t : List Char}, RopePersistentString.snapshot s = some t →
      ∀ (c : Char),
      ∃ s₁ s₂, RopePersistentString.push s c = some s₁ ∧
        RopePersistentString.pop s₁ = some (some c, s₂) ∧
        RopePersistentString.snapshot s₂ = some t) ∧
    (∀ (s : LongBufferPersistentString) {t : List Char},
      LongBufferPersistentString.snapshot s = some t → ∀ (c : Char),
      ∃ s₁ s₂, LongBufferPersistentString.push s c = some s₁ ∧
        LongBufferPersistentString.pop s₁ = some (some c, s₂) ∧
        LongBufferPersistentString.snapshot s₂ = some t) := by
  constructor
  · intro ops s hreach t ht c
    exact RopePersistentString.rope_push_pop
      (RopePersistentString.ropeRun_WF hreach) ht c
  · intro s t ht c
    exact LongBufferPersistentString.lb_push_pop ht c

/-- Witness for C6 on the empty rope state. -/
theorem claim6_witness :
    ∃ s₁ s₂, RopePersistentString.push RopePersistentString.new 'a' = some s₁ ∧
      RopePersistentString.pop s₁ = some (some 'a', s₂) ∧
      RopePersistentString.snapshot s₂ = some [] :=
  claim6_push_then_pop.1 (rfl : ropeRun [] = some RopePersistentString.new)
    (rfl : RopePersistentString.snapshot RopePersistentString.new = some []) 'a'

/-- Claim C7 (amended): the rope `retain` is unimplemented and always
panics; the segment-list `retain(p)` keeps, in order, exactly the scalar
values satisfying `p`, and allocates a new version even when every
character is retained. -/
theorem claim7_retain :
    (∀ (s : RopePersistentString) (p : Char → Bool),
      RopePersistentString.retain s p = none) ∧
    (∀ (s : LongBufferPersistentString) {t : List Char},
      LongBufferPersistentString.snapshot s = some t → ∀ (p : Char → Bool),
      ∃ s', LongBufferPersistentString.retain s p = some s' ∧
        LongBufferPersistentString.snapshot s' = some (t.filter p) ∧
        (∃ nv, s'.versions = s.versions ++ [nv]) ∧
        s'.current_version = s.versions.length) := by
  constructor
  · intro s p
    rfl
  · intro s t ht p
    obtain ⟨s', hr, hbuf, hver, hcur, hsnap⟩ :=
      LongBufferPersistentString.lb_retain_spec ht p
    exact ⟨s', hr, hsnap, hver, hcur⟩

/-- Witness for C7 on the empty segment-list state. -/
theorem claim7_witness :
    ∃ s', LongBufferPersistentString.retain LongBufferPersistentString.new
        (fun _ => true) = some s' ∧
      LongBufferPersistentString.snapshot s' =
        some (([] : List Char).filter (fun _ => true)) ∧
      (∃ nv, s'.versions = LongBufferPersistentString.new.versions ++ [nv]) ∧
      s'.current_version = LongBufferPersistentString.new.versions.length :=
  claim7_retain.2 LongBufferPersistentString.new
    (rfl : LongBufferPersistentString.snapshot LongBufferPersistentString.new =
      some []) (fun _ => true)

/-- Counterexample to C7 as stated: for the rope strategy, `retain` with
the always-true predicate panics instead of preserving the snapshot. -/
theorem claim7_counterexample :
    ropeRun [RopeOp.push_str ['a'], RopeOp.retain (fun _ => true)] = none := rfl

/-- Claim C8: in both strategies, `repeat(times)` allocates exactly one new
version, makes it current, multiplies the length, and the new snapshot is
the current text concatenated `times` times (so `repeat 0` empties the
text, and a version is allocated even for `times = 1`). -/
theorem claim8_repeat :
    (∀ {ops : List RopeOp} {s : RopePersistentString}, ropeRun ops = some s →
      ∀ (times : Nat),
      ∃ s', RopePersistentString.repeatString s times = some s' ∧
        (∃ r, s'.versions = s.versions ++ [r]) ∧
        s'.current_version = s.versions.length ∧
        (∀ L, RopePersistentString.len s = some L →
          RopePersistentString.len s' = some (times * L)) ∧
        (∀ t, RopePersistentString.snapshot s = some t →
          RopePersistentString.snapshot s' =
            some ((List.replicate times t).flatten))) ∧
    (∀ (s : LongBufferPersistentString) {t : List Char},
      LongBufferPersistentString.snapshot s = some t → ∀ (times : Nat),
      ∃ s', LongBufferPersistentString.repeatString s times = some s' ∧
        (∃ nv, s'.versions = s.versions ++ [nv]) ∧
        s'.current_version = s.versions.length ∧
        LongBufferPersistentString.snapshot s' =
          some ((List.replicate times t).flatten) ∧
        (∀ L, LongBufferPersistentString.len s = some L →
          LongBufferPersistentString.len s' = some (L * times))) := by
  constructor
  · intro ops s hreach times
    obtain ⟨s', hrep, hwf', hbuf, hen, hver, hcur, hlen, hsnap⟩ :=
      RopePersistentString.repeat_spec
        (RopePersistentString.ropeRun_WF hreach) times
    exact ⟨s', hrep, hver, hcur, hlen, hsnap⟩
  · intro s t ht times
    obtain ⟨s', hrep, hbuf, hver, hcur, hsnap, hlen⟩ :=
      LongBufferPersistentString.lb_repeat_spec ht times
    exact ⟨s', hrep, hver, hcur, hsnap, hlen⟩

/-- Witness for C8 on the empty rope state. -/
theorem claim8_witness :
    ∃ s', RopePersistentString.repeatString RopePersistentString.new 0 =
        some s' ∧
      (∃ r, s'.versions = RopePersistentString.new.versions ++ [r]) ∧
      s'.current_version = RopePersistentString.new.versions.length ∧
      (∀ L, RopePersistentString.len RopePersistentString.new = some L →
        RopePersistentString.len s' = some (0 * L)) ∧
      (∀ t, RopePersistentString.snapshot RopePersistentString.new = some t →
        RopePersistentString.snapshot s' = some ((List.replicate 0 t).flatten)) :=
  claim8_repeat.1 (rfl : ropeRun [] = some RopePersistentString.new) 0

/-- Claim C9: in both strategies (whose version lists are never empty),
`try_switch_version v` succeeds exactly when `v ≤ latest_version()`; on
success it only sets the current version to `v`, and otherwise it returns
`InvalidVersion v` and leaves the state unchanged. -/
theorem claim9_try_switch_version :
    (∀ (s : RopePersistentString), 0 < s.versions.length → ∀ (v : Nat),
      (v ≤ RopePersistentString.latest_version s →
        RopePersistentString.try_switch_version s v =
          (SwitchResult.ok, { s with current_version := v })) ∧
      (RopePersistentString.latest_version s < v →
        RopePersistentString.try_switch_version s v =
          (SwitchResult.error (VersionSwitchError.InvalidVersion v), s))) ∧
    (∀ (s : LongBufferPersistentString), 0 < s.versions.length → ∀ (v : Nat),
      (v ≤ LongBufferPersistentString.latest_version s →
        LongBufferPersistentString.try_switch_version s v =
          (SwitchResult.ok, { s with current_version := v })) ∧
      (LongBufferPersistentString.latest_version s < v →
        LongBufferPersistentString.try_switch_version s v =
          (SwitchResult.error (VersionSwitchError.InvalidVersion v), s))) := by
  constructor
  · intro s hne v
    unfold RopePersistentString.latest_version
    unfold RopePersistentString.try_switch_version
    constructor
    · intro hv
      rw [if_pos (show v < s.versions.length from by omega)]
    · intro hv
      rw [if_neg (show ¬ v < s.versions.length from by omega)]
  · intro s hne v
    unfold LongBufferPersistentString.latest_version
    unfold LongBufferPersistentString.try_switch_version
    constructor
    · intro hv
      rw [if_pos (show v < s.versions.length from by omega)]
    · intro hv
      rw [if_neg (show ¬ v < s.versions.length from by omega)]

/-- Witness for C9 on the initial rope state. -/
theorem claim9_witness :
    RopePersistentString.try_switch_version RopePersistentString.new 0 =
      (SwitchResult.ok,
        { RopePersistentString.new with current_version := 0 }) :=
  (claim9_try_switch_version.1 RopePersistentString.new (by decide) 0).1
    (by decide)

/-- Claim C10: in the rope strategy, `pop()` on an empty current version
returns absent and is a complete no-op on the state; in contrast, the
segment-list strategy allocates a duplicate version on an empty pop. -/
theorem claim10_empty_pop :
    (∀ (s : RopePersistentString), RopePersistentString.len s = some 0 →
      RopePersistentString.pop s = some (none, s)) ∧
    (LongBufferPersistentString.pop LongBufferPersistentString.new =
      some (none,
        { buffer := [], versions := [⟨[], 0⟩, ⟨[], 0⟩],
          current_version := 1 })) := by
  constructor
  · intro s h
    unfold RopePersistentString.len at h
    cases haddr : s.versions[s.current_version]? with
    | none => rw [haddr] at h; cases h
    | some address =>
        rw [haddr] at h
        simp only [Option.bind_eq_bind, Option.some_bind] at h
        cases hnode : s.nodes[address]? with
        | none => rw [hnode] at h; cases h
        | some node =>
            rw [hnode] at h
            simp only [Option.some_bind, Option.pure_def,
              Option.some.injEq] at h
            rw [RopePersistentString.pop_def, haddr]
            simp only [Option.some_bind]
            rw [hnode]
            simp only [Option.some_bind]
            rw [if_pos h]
  · rfl

/-- Witness for C10 on the initial rope state. -/
theorem claim10_witness :
    RopePersistentString.pop RopePersistentString.new =
      some (none, RopePersistentString.new) :=
  claim10_empty_pop.1 RopePersistentString.new rfl
